import Mathlib

/-!
# cppwinrt emission planner

A shallow embedding of the module planner of `cppwinrt` (`src/cppwinrt/main.cpp`,
`src/cppwinrt/file_writers.h`), of the writers of the module interface units, of the
reader of the config file and of the driver `run`, of `winrt::impl::hash_data`
(`src/strings/base_std_hash.h`) and of the test object `test_Release`, together with
proofs about them.

Conventions of the embedding:

* `std::string` is `String`; `operator<` on `std::string` is the lexicographic comparison
  of the characters (`str_lt`), which is the order `<` of `String` (`str_lt_iff`).
* `std::map<K, V>` is the list of its entries in key order; `find`/`at` are `List.lookup`.
* `std::unordered_map<std::string, int>` is a function `String → Option Nat`
  (`none` = key absent); `int` counters are natural numbers (they only count
  namespaces, far below `2^31`).
* `std::unordered_map<std::string, bool>` that is only ever used through `operator[]`
  is a total function `String → Bool` (`operator[]` value-initialises to `false`).
* `std::vector` used as a stack is a list whose head is the `back()` of the vector.
* A partial operation of the source (`at` on a missing key, `back()`/`front()` of an
  empty vector) is a `Fault`; the recursive lambda carries a fuel argument and running
  out of it is a `Fault` of its own.
* The text in a `writer` is the list of its characters; a call `w.write(fragment, args…)`
  appends `substitute fragment args`, and a call with a fragment alone appends it as is.
* A UTF-16 code unit is a natural number; the XML reader is the list of the nodes it
  delivers; an error raised through `throw_invalid` is its message (`Except String`).
* The files `run` writes are recorded as a list of `FileWrite`, in the order of the calls
  that write them.
* A `std::size_t` or `std::uint32_t` is a natural number, reduced modulo `2^w` where the
  source can exceed the width.
* The definitions named `…_traced` repeat the search with two observations added (the log
  of the calls and their nesting depth); they compute the same states
  (`strongconnect_traced_erase`).
-/

namespace cppwinrt

/-- The dependency map `std::map<std::string, std::vector<std::string>>`, as the list
of its entries in key order. -/
abbrev Graph := List (String × List String)

/-- What can go wrong when the source executes a partial operation. -/
inductive Fault where
  | out_of_fuel
  | at_missing_key
  | back_of_empty_stack
  | front_of_empty_component
  deriving DecidableEq, Repr

/-- An `std::unordered_map<std::string, int>`. -/
abbrev IntMap := String → Option Nat

/-- The call `m.emplace(k, v)`: inserts only when `k` is absent. -/
def emplace (m : IntMap) (k : String) (v : Nat) : IntMap :=
  fun x => if x = k then (match m k with | some w => some w | none => some v) else m x

/-- The assignment `m[k] = v`. -/
def assign (m : IntMap) (k : String) (v : Nat) : IntMap :=
  fun x => if x = k then some v else m x

/-- The read `m[k]`: the value found, and the map after the read (a missing key is
inserted with the value-initialised `0`). -/
def subscript (m : IntMap) (k : String) : Nat × IntMap :=
  match m k with
  | some v => (v, m)
  | none => (0, assign m k 0)

/-- The assignment `on_stack[k] = b`. -/
def set_flag (m : String → Bool) (k : String) (b : Bool) : String → Bool :=
  fun x => if x = k then b else m x

/-- The locals captured by the `strongconnect` lambda of
`compute_strongly_connected_components`. -/
structure State where
  index : IntMap
  lowlink : IntMap
  on_stack : String → Bool
  stack : List String
  next_index : Nat
  components : List (List String)

/-- The `while (true)` loop of `strongconnect`: pops `stack.back()` into `component`
until the popped element is `node`. Returns the remaining stack, the flags and the
component. -/
def pop_component (node : String) :
    List String → (String → Bool) → List String →
      Except Fault (List String × (String → Bool) × List String)
  | [], _, _ => .error Fault.back_of_empty_stack
  | current :: rest, on_stack, component =>
    if current = node then
      .ok (rest, set_flag on_stack current false, component ++ [current])
    else
      pop_component node rest (set_flag on_stack current false) (component ++ [current])

/-- The `for (auto&& dep : deps)` loop of `strongconnect`; `sc` is the recursive call. -/
def visit_deps (graph : Graph) (sc : String → State → Except Fault State) (node : String) :
    List String → State → Except Fault State
  | [], s => .ok s
  | dep :: rest, s =>
    if graph.lookup dep = none then
      visit_deps graph sc node rest s
    else if s.index dep = none then
      match sc dep s with
      | .error e => .error e
      | .ok s1 =>
        let ln := subscript s1.lowlink node
        let ld := subscript ln.2 dep
        visit_deps graph sc node rest
          { s1 with lowlink := assign ld.2 node (min ln.1 ld.1) }
    else if s.on_stack dep then
      let ln := subscript s.lowlink node
      let id := subscript s.index dep
      visit_deps graph sc node rest
        { s with lowlink := assign ln.2 node (min ln.1 id.1), index := id.2 }
    else
      visit_deps graph sc node rest s

/-- The first statements of `strongconnect`: `node` gets the next index as index and
lowlink, the counter is incremented, and `node` is pushed and flagged. -/
def pushed (s : State) (node : String) : State :=
  { index := emplace s.index node s.next_index
    lowlink := emplace s.lowlink node s.next_index
    on_stack := set_flag s.on_stack node true
    stack := node :: s.stack
    next_index := s.next_index + 1
    components := s.components }

/-- The lambda `strongconnect`, with a fuel argument that bounds the nesting of calls. -/
def strongconnect (graph : Graph) : Nat → String → State → Except Fault State
  | 0, _, _ => .error Fault.out_of_fuel
  | fuel + 1, node, s =>
    let s1 : State := pushed s node
    match graph.lookup node with
    | none => .error Fault.at_missing_key
    | some deps =>
      match visit_deps graph (strongconnect graph fuel) node deps s1 with
      | .error e => .error e
      | .ok s2 =>
        let ln := subscript s2.lowlink node
        let id := subscript s2.index node
        let s3 : State := { s2 with lowlink := ln.2, index := id.2 }
        if ln.1 ≠ id.1 then
          .ok s3
        else
          match pop_component node s3.stack s3.on_stack [] with
          | .error e => .error e
          | .ok (stack, on_stack, component) =>
            .ok { s3 with stack := stack, on_stack := on_stack,
                          components := s3.components ++ [component] }

/-- The state before the first call of `strongconnect`. -/
def initial_state : State :=
  { index := fun _ => none
    lowlink := fun _ => none
    on_stack := fun _ => false
    stack := []
    next_index := 0
    components := [] }

/-- The `for (auto&& node : nodes)` loop that starts a search at every unindexed node. -/
def visit_nodes (graph : Graph) (fuel : Nat) : List String → State → Except Fault State
  | [], s => .ok s
  | node :: rest, s =>
    if s.index node = none then
      match strongconnect graph fuel node s with
      | .error e => .error e
      | .ok s1 => visit_nodes graph fuel rest s1
    else
      visit_nodes graph fuel rest s

/-- The function `compute_strongly_connected_components`. The nesting of `strongconnect`
calls is bounded by the number of keys, which is the fuel given. -/
def compute_strongly_connected_components (graph : Graph) :
    Except Fault (List (List String)) :=
  match visit_nodes graph graph.length (graph.map Prod.fst) initial_state with
  | .error e => .error e
  | .ok s => .ok s.components

/-! ## The dependency graph and the invariants of the search -/

/-- The keys of the dependency map, in map order. -/
def keys (D : Graph) : List String := D.map Prod.fst

/-- An edge of the graph: `v` is listed as a dependency of the key `u` and is itself a
key (`graph.find(dep) != graph.end()`). -/
def edge (D : Graph) (u v : String) : Prop :=
  ∃ deps, D.lookup u = some deps ∧ v ∈ deps ∧ D.lookup v ≠ none

/-- Reachability along edges of the graph. -/
def reach (D : Graph) : String → String → Prop := Relation.ReflTransGen (edge D)

/-- The value `index[v]`. -/
def idx (s : State) (v : String) : Nat := (s.index v).getD 0

/-- The value `lowlink[v]`. -/
def low (s : State) (v : String) : Nat := (s.lowlink v).getD 0

/-- The number of keys that have no index yet. -/
def unvisited (D : Graph) (s : State) : Nat :=
  ((keys D).filter (fun k => (s.index k).isNone)).length

/-- The invariant of the search; `gray` lists the nodes whose `strongconnect` call is
in progress. -/
structure Inv (D : Graph) (gray : List String) (s : State) : Prop where
  idx_key : ∀ v, s.index v ≠ none → D.lookup v ≠ none
  idx_lt : ∀ v i, s.index v = some i → i < s.next_index
  low_dom : ∀ v, s.lowlink v = none ↔ s.index v = none
  flag : ∀ v, s.on_stack v = true ↔ v ∈ s.stack
  stack_sorted : s.stack.Pairwise (fun a b => idx s b < idx s a)
  stack_vis : ∀ v ∈ s.stack, s.index v ≠ none
  cover : ∀ v, s.index v ≠ none → v ∈ s.stack ∨ ∃ c ∈ s.components, v ∈ c
  comp_vis : ∀ c ∈ s.components, ∀ v ∈ c, s.index v ≠ none ∧ v ∉ s.stack
  comp_ne : ∀ c ∈ s.components, c ≠ []
  comp_nodup : ∀ c ∈ s.components, c.Nodup
  comp_disj : s.components.Pairwise List.Disjoint
  comp_conn : ∀ c ∈ s.components, ∀ a ∈ c, ∀ b ∈ c, reach D a b
  comp_max : ∀ c ∈ s.components, ∀ a ∈ c, ∀ b, reach D a b → reach D b a → b ∈ c
  gray_stack : ∀ g ∈ gray, g ∈ s.stack
  black_closed : ∀ u, s.index u ≠ none → u ∉ gray → ∀ v, edge D u v → s.index v ≠ none
  gray_reach : ∀ g ∈ gray, ∀ y ∈ s.stack, idx s g ≤ idx s y → reach D g y
  stack_reach : ∀ y ∈ s.stack, ∃ g ∈ gray, idx s g ≤ idx s y ∧ reach D y g

/-- How a later state extends an earlier one: nodes indexed before keep their index
and lowlink, new indices start at the old counter. -/
structure Ext (s0 s : State) : Prop where
  index_eq : ∀ v, s0.index v ≠ none → s.index v = s0.index v
  lowlink_eq : ∀ v, s0.index v ≠ none → s.lowlink v = s0.lowlink v
  fresh : ∀ v i, s0.index v = none → s.index v = some i → s0.next_index ≤ i
  next_le : s0.next_index ≤ s.next_index

/-- What a completed call `strongconnect(x)` started in `s0` guarantees of its final
state `s1`. -/
structure Post (D : Graph) (gray : List String) (x : String) (s0 s1 : State) : Prop where
  inv : Inv D gray s1
  ext : Ext s0 s1
  idx_x : s1.index x = some s0.next_index
  next_lt : s0.next_index < s1.next_index
  seg : ∃ T, s1.stack = T ++ s0.stack ∧
    ∀ u ∈ T, ∀ y ∈ s0.stack, edge D u y → low s1 x ≤ idx s1 y
  low_case : low s1 x = s0.next_index ∨
    ∃ z ∈ s1.stack, idx s1 z = low s1 x ∧ reach D x z

/-- The invariant of the `for` loop over the dependencies of `node`; `s0` is the state
in which `strongconnect(node)` was called and `done` the dependencies already seen. -/
structure LoopInv (D : Graph) (gray : List String) (node : String) (s0 : State)
    (done : List String) (s : State) : Prop where
  inv : Inv D (node :: gray) s
  ext : Ext s0 s
  idx_node : s.index node = some s0.next_index
  next_lt : s0.next_index < s.next_index
  low_le : low s node ≤ s0.next_index
  low_wit : ∃ z ∈ s.stack, idx s z = low s node ∧ reach D node z
  seg : ∃ T, s.stack = T ++ node :: s0.stack ∧
    ∀ u ∈ T, ∀ y ∈ s0.stack, edge D u y → low s node ≤ idx s y
  low_done : ∀ d ∈ done, d ∈ s0.stack → low s node ≤ idx s d
  done_vis : ∀ d ∈ done, D.lookup d ≠ none → s.index d ≠ none

/-! ## The planner in `run`: owners, external imports and module units -/

/-- The comparison `operator<` of `std::string`: lexicographic on the characters. -/
def str_lt (a b : String) : Bool := decide (a.data < b.data)

/-- The call `m.emplace(k, v)` on a `std::map` given by its entries in key order: the
entry is inserted at its place, and nothing happens when the key is present. -/
def map_emplace {V : Type} (k : String) (v : V) : List (String × V) → List (String × V)
  | [] => [(k, v)]
  | (k', v') :: rest =>
    if str_lt k k' then (k, v) :: (k', v') :: rest
    else if k = k' then (k', v') :: rest
    else (k', v') :: map_emplace k v rest

/-- The call `s.emplace(k)` on a `std::set<std::string>` given by its elements in
order. -/
def set_emplace (k : String) : List String → List String
  | [] => [k]
  | k' :: rest =>
    if str_lt k k' then k :: k' :: rest
    else if k = k' then k' :: rest
    else k' :: set_emplace k rest

/-- Insertion of one element into a sorted list, before the first element that is not
smaller. -/
def sort_insert (x : String) : List String → List String
  | [] => [x]
  | y :: ys => if str_lt y x then y :: sort_insert x ys else x :: y :: ys

/-- The call `std::sort(component.begin(), component.end())`: the arrangement of the
elements in non-decreasing order (unique, as `operator<` is a total order). -/
def sort_strings : List String → List String
  | [] => []
  | x :: xs => sort_insert x (sort_strings xs)

/-- The two tables built by the planner. -/
structure Tables where
  members_by_owner : List (String × List String)
  owner_of : List (String × String)

/-- The loop `for (auto const& ns : component) owner_of.emplace(ns, owner)`. -/
def record_owner (owner : String) : List String → List (String × String) →
    List (String × String)
  | [], m => m
  | ns :: rest, m => record_owner owner rest (map_emplace ns owner m)

/-- The loop `for (auto& component : components)` of `run`: sorts each component, takes
its front as owner and fills both tables. -/
def build_tables : List (List String) → Tables → Except Fault Tables
  | [], t => .ok t
  | component :: rest, t =>
    match sort_strings component with
    | [] => .error Fault.front_of_empty_component
    | owner :: tail =>
      build_tables rest
        { members_by_owner := map_emplace owner (owner :: tail) t.members_by_owner
          owner_of := record_owner owner (owner :: tail) t.owner_of }

/-- A call of one of the three writers of per-namespace module units. -/
inductive WriteCall where
  | namespace_ixx (ns : String) (imports : List String)
  | scc_owner_ixx (owner : String) (namespaces : List String) (imports : List String)
  | reexport_ixx (ns : String) (target : String)
  deriving DecidableEq, Repr

/-- The loop `for (auto const& dep : module_imports.at(ns))` that fills
`external_imports`. -/
def add_external (owner_of : List (String × String)) (owner : String) :
    List String → List String → List String
  | [], ext => ext
  | dep :: rest, ext =>
    if owner_of.lookup dep = some owner then add_external owner_of owner rest ext
    else add_external owner_of owner rest (set_emplace dep ext)

/-- The loop `for (auto const& ns : members)` that fills `external_imports`. -/
def collect_external (D : Graph) (owner_of : List (String × String)) (owner : String) :
    List String → List String → Except Fault (List String)
  | [], ext => .ok ext
  | ns :: rest, ext =>
    match D.lookup ns with
    | none => .error Fault.at_missing_key
    | some deps => collect_external D owner_of owner rest (add_external owner_of owner deps ext)

/-- The loop `for (auto const& ns : members) if (ns != owner)
write_namespace_reexport_ixx(ns, owner)`. -/
def reexport_calls (owner : String) : List String → List WriteCall
  | [] => []
  | ns :: rest =>
    if ns ≠ owner then WriteCall.reexport_ixx ns owner :: reexport_calls owner rest
    else reexport_calls owner rest

/-- The loop `for (auto const& [owner, members] : members_by_owner)` of `run`: the
writer calls it makes, in order. -/
def emit_units (D : Graph) (owner_of : List (String × String)) :
    List (String × List String) → Except Fault (List WriteCall)
  | [] => .ok []
  | (owner, members) :: rest =>
    if members.length = 1 then
      match D.lookup owner with
      | none => .error Fault.at_missing_key
      | some imports =>
        match emit_units D owner_of rest with
        | .error e => .error e
        | .ok calls => .ok (WriteCall.namespace_ixx owner imports :: calls)
    else
      match collect_external D owner_of owner members [] with
      | .error e => .error e
      | .ok imports =>
        match emit_units D owner_of rest with
        | .error e => .error e
        | .ok calls =>
          .ok (WriteCall.scc_owner_ixx owner members imports ::
            (reexport_calls owner members ++ calls))

/-- The `if (settings.modules)` block at the end of `run`: the tables and the writer
calls for the dependency map `module_imports`. -/
def plan_modules (module_imports : Graph) : Except Fault (Tables × List WriteCall) :=
  match compute_strongly_connected_components module_imports with
  | .error e => .error e
  | .ok components =>
    match build_tables components { members_by_owner := [], owner_of := [] } with
    | .error e => .error e
    | .ok t =>
      match emit_units module_imports t.owner_of t.members_by_owner with
      | .error e => .error e
      | .ok calls => .ok (t, calls)

/-- The module a writer call creates (`winrt/<name>.ixx`). -/
def WriteCall.unit_name : WriteCall → String
  | .namespace_ixx ns _ => ns
  | .scc_owner_ixx owner _ _ => owner
  | .reexport_ixx ns _ => ns

/-- The namespace modules the unit written by a call imports. -/
def WriteCall.unit_imports : WriteCall → List String
  | .namespace_ixx _ imports => imports
  | .scc_owner_ixx _ _ imports => imports
  | .reexport_ixx _ target => [target]

/-- Unit `A` imports `B`: some writer call creates `A` with `B` among its imports. -/
def imports_rel (calls : List WriteCall) (A B : String) : Prop :=
  ∃ u ∈ calls, u.unit_name = A ∧ B ∈ u.unit_imports

/-! ## The text of a re-export stub -/

/-- Modelled from the spec: the writer's `write(fragment, args…)`, which is declared
outside the given sources, "appends with positional substitution": each `%` of the
fragment is replaced by the next argument. -/
def substitute : List Char → List String → List Char
  | [], _ => []
  | c :: rest, args =>
    if c = '%' then
      match args with
      | a :: args' => a.data ++ substitute rest args'
      | [] => substitute rest []
    else c :: substitute rest args

/-- The text `write_namespace_reexport_ixx(ns, target)` flushes to `winrt/<ns>.ixx`;
`preamble` is what the absent `write_preamble` has put into the writer. -/
def write_namespace_reexport_ixx (preamble : String) (ns target : String) : String :=
  preamble ++ String.mk (substitute
    ("// NOTE: This module does not define declarations of its own.\n" ++
     "// It re-exports all declarations from the '%' module. This is used to break cycles in the\n" ++
     "// WinRT namespace module dependency graph (SCC owner consolidation).\n" ++
     "//\n" ++
     "// Module dependencies:\n" ++
     "//   - % (re-exported)\n" ++
     "\n" ++
     "export module %;\n" ++
     "export import %;\n").data
    [target, target, ns, target])

/-- The file a writer call flushes to: `settings.output_folder + "winrt/" + name +
".ixx"`. -/
def WriteCall.path (output_folder : String) (u : WriteCall) : String :=
  output_folder ++ "winrt/" ++ u.unit_name ++ ".ixx"

/-- The lines of a text of which the line `cur` has been started. -/
def lines_from (cur : List Char) : List Char → List (List Char)
  | [] => [cur]
  | c :: rest => if c = '\n' then cur :: lines_from [] rest else lines_from (cur ++ [c]) rest

/-- The lines of a text: the pieces between line feeds. -/
def lines_of (text : List Char) : List (List Char) := lines_from [] text

/-- The lines of a text that are neither blank nor a `//` comment. -/
def directive_lines (text : List Char) : List (List Char) :=
  (lines_of text).filter (fun l => !l.isEmpty && !(l.take 2 == ['/', '/']))

/-! ## The dependency collector and the emission loop of `run` in module mode -/

/-- The loop of `get_namespace_module_imports` over `w.depends`. -/
def collect_imports {M T : Type} (has_projected_types : M → Bool)
    (namespaces : List (String × M)) (ns : String) :
    List (String × T) → List String → List String
  | [], imports => imports
  | depends :: rest, imports =>
    if depends.1 = ns then
      collect_imports has_projected_types namespaces ns rest imports
    else
      match namespaces.lookup depends.1 with
      | some members =>
        if has_projected_types members then
          collect_imports has_projected_types namespaces ns rest (imports ++ [depends.1])
        else
          collect_imports has_projected_types namespaces ns rest imports
      | none => collect_imports has_projected_types namespaces ns rest imports

/-- The function `get_namespace_module_imports(c, ns, w, imports)`: the new content of
`imports`. `namespaces` is `c.namespaces()`, `depends` is `w.depends` (entries in key
order) and `has_projected_types` is the helper of that name, which is declared outside
the given sources. -/
def get_namespace_module_imports {M T : Type} (has_projected_types : M → Bool)
    (namespaces : List (String × M)) (ns : String) (depends : List (String × T))
    (_imports : List String) : List String :=
  collect_imports has_projected_types namespaces ns depends []

/-- The call `combined.insert(imports.begin(), imports.end())` on a `std::set`. -/
def set_insert_range : List String → List String → List String
  | [], combined => combined
  | x :: rest, combined => set_insert_range rest (set_emplace x combined)

/-- The module-mode branch of the per-namespace task of `run`: the dependency list
stored for `ns`. `depends ns p` is the content of `w.depends` when phase `p` (0, 1, 2
for the impl headers, 3 for the projection header) of `ns` calls the collector; it is
produced by printers outside the given sources. -/
def namespace_task {M T : Type} (has_projected_types : M → Bool)
    (namespaces : List (String × M)) (depends : String → Nat → List (String × T))
    (ns : String) : List String :=
  let imports0 := get_namespace_module_imports has_projected_types namespaces ns (depends ns 0) []
  let combined0 := set_insert_range imports0 []
  let imports1 := get_namespace_module_imports has_projected_types namespaces ns (depends ns 1)
    imports0
  let combined1 := set_insert_range imports1 combined0
  let imports2 := get_namespace_module_imports has_projected_types namespaces ns (depends ns 2)
    imports1
  let combined2 := set_insert_range imports2 combined1
  let imports3 := get_namespace_module_imports has_projected_types namespaces ns (depends ns 3)
    imports2
  set_insert_range imports3 combined2

/-- The loop `for (auto&&[ns, members] : c.namespaces())` of `run` in module mode: the
namespaces whose headers are emitted, in order, and the dependency map
`module_imports`. `includes` is `settings.projection_filter.includes`. -/
def emission_loop {M T : Type} (has_projected_types : M → Bool) (includes : M → Bool)
    (namespaces : List (String × M)) (depends : String → Nat → List (String × T)) :
    List (String × M) → List String × Graph → List String × Graph
  | [], acc => acc
  | (ns, members) :: rest, acc =>
    if !has_projected_types members || !includes members then
      emission_loop has_projected_types includes namespaces depends rest acc
    else
      emission_loop has_projected_types includes namespaces depends rest
        (acc.1 ++ [ns],
         map_emplace ns (namespace_task has_projected_types namespaces depends ns) acc.2)

/-- The part of `run` that decides which files exist in module mode: the namespaces
whose headers are emitted and the writer calls for the module units. -/
def run_modules {M T : Type} (has_projected_types : M → Bool) (includes : M → Bool)
    (namespaces : List (String × M)) (depends : String → Nat → List (String × T)) :
    Except Fault (List String × List WriteCall) :=
  let emitted := emission_loop has_projected_types includes namespaces depends namespaces ([], [])
  match plan_modules emitted.2 with
  | .error e => .error e
  | .ok planned => .ok (emitted.1, planned.2)

/-- The invariant of the loop that builds the tables, after the components `pre`. -/
structure TablesInv (pre : List (List String)) (t : Tables) : Prop where
  mbo_sorted : (t.members_by_owner.map Prod.fst).Pairwise (fun a b => a < b)
  oo_sorted : (t.owner_of.map Prod.fst).Pairwise (fun a b => a < b)
  mbo_perm : (t.members_by_owner.map Prod.snd).Perm (pre.map sort_strings)
  mbo_head : ∀ p ∈ t.members_by_owner, p.2.head? = some p.1
  oo_mem : ∀ ns o, (ns, o) ∈ t.owner_of ↔
    ∃ c ∈ pre, ns ∈ c ∧ (sort_strings c).head? = some o

/-- The value of `external_imports` after the loop over `members`, when every
`module_imports.at(ns)` succeeds (a missing key contributes nothing here). -/
def external_of (D : Graph) (owner_of : List (String × String)) (owner : String) :
    List String → List String → List String
  | [], ext => ext
  | ns :: rest, ext =>
    external_of D owner_of owner rest (add_external owner_of owner ((D.lookup ns).getD []) ext)

/-- The writer calls made for one entry of `members_by_owner`, when every
`module_imports.at` succeeds. -/
def calls_of (D : Graph) (owner_of : List (String × String)) (p : String × List String) :
    List WriteCall :=
  if p.2.length = 1 then
    [WriteCall.namespace_ixx p.1 ((D.lookup p.1).getD [])]
  else
    WriteCall.scc_owner_ixx p.1 p.2 (external_of D owner_of p.1 p.2 []) ::
      reexport_calls p.1 p.2

/-- The list `imports` is what the unit of the entry `(o, ms)` of `members_by_owner` has
to import: strictly increasing, and made of the dependencies of the members whose owner is
not `o`, which are the dependencies of the members that are not members. -/
def external_imports_ok (D : Graph) (owner_of : List (String × String)) (o : String)
    (ms imports : List String) : Prop :=
  imports.Pairwise (fun a b => a < b) ∧
  (∀ M, M ∈ imports ↔
    (∃ N ∈ ms, ∃ deps, D.lookup N = some deps ∧ M ∈ deps) ∧ owner_of.lookup M ≠ some o) ∧
  (∀ M, M ∈ imports ↔ (∃ N ∈ ms, ∃ deps, D.lookup N = some deps ∧ M ∈ deps) ∧ M ∉ ms)

/-- The list `comps` is the decomposition of the graph into strongly connected
components. -/
structure SccDecomposition (D : Graph) (comps : List (List String)) : Prop where
  ne : ∀ c ∈ comps, c ≠ []
  nodup : ∀ c ∈ comps, c.Nodup
  disj : comps.Pairwise List.Disjoint
  cover : ∀ v, (∃ c ∈ comps, v ∈ c) ↔ v ∈ keys D
  conn : ∀ c ∈ comps, ∀ a ∈ c, ∀ b ∈ c, reach D a b
  max : ∀ c ∈ comps, ∀ a ∈ c, ∀ b, reach D a b → reach D b a → b ∈ c

/-- The test `get_namespace_module_imports` applies to an entry of `w.depends`: its key
is not the current namespace, is found in `c.namespaces()`, and what is found there has
projected types. -/
def is_module_import {M T : Type} (has_projected_types : M → Bool)
    (namespaces : List (String × M)) (ns : String) (depends : String × T) : Bool :=
  decide (depends.1 ≠ ns) &&
    (match namespaces.lookup depends.1 with
     | some members => has_projected_types members
     | none => false)

/-- A small dependency map: `A` and `B` depend on each other, `A` also on `C`. -/
def example_graph : Graph := [("A", ["B", "C"]), ("B", ["A"]), ("C", [])]

/-! ## Edges into namespaces that are no keys -/

/-- The dependency map `D` with every dependency that is not a key of `D` deleted from
every list (the map the spec calls the graph: "treat an edge as absent if its target is
not in the map"). -/
def without_absent_edges (D : Graph) : Graph :=
  D.map (fun p => (p.1, p.2.filter (fun d => (D.lookup d).isSome)))

/-! ## The headers a namespace header asks for -/

/-- The calls `w.write_depends(name, impl)` made by `write_namespace_1_h`, in order;
`depends` is `w.depends` and `ns` is `w.type_namespace`. Each call asks for the header of
level `impl` of `name`. -/
def write_namespace_1_h_depends {T : Type} (ns : String) (depends : List (String × T)) :
    List (String × Char) :=
  depends.map (fun d => (d.1, '0')) ++ [(ns, '0')]

/-- The calls `w.write_depends(name, impl)` made by `write_namespace_2_h`, in order;
`promote` is what `write_structs` returned. -/
def write_namespace_2_h_depends {T : Type} (ns : String) (depends : List (String × T))
    (promote : Bool) : List (String × Char) :=
  let impl := if promote then '2' else '1'
  depends.map (fun d => (d.1, impl)) ++ [(ns, '1')]

/-- The calls `w.write_depends(name, impl)` made by the loop at the end of
`write_namespace_h`, in order. -/
def write_namespace_h_depends {T : Type} (ns : String) (depends : List (String × T)) :
    List (String × Char) :=
  depends.map (fun d => (d.1, '2')) ++ [(ns, '2')]

/-! ## The config file -/

/-- The function `is_config_whitespace`: space, tab, carriage return, line feed. -/
def is_config_whitespace (c : Nat) : Bool :=
  c == 32 || c == 9 || c == 13 || c == 10

/-- The message of the error raised for a non-ASCII prefix. -/
def ascii_error : String := "Malformed CppWinRT.config: <prefix> values must be ASCII"

/-- The copying loop of `utf8_from_utf16` over the code units from `first` to `last`. -/
def copy_ascii : List Nat → List Nat → Except String (List Nat)
  | [], result => .ok result
  | ch :: rest, result =>
    if ch > 0x7F then .error ascii_error
    else copy_ascii rest (result ++ [ch])

/-- The function `utf8_from_utf16(value, length)`: `value` is `none` for a null pointer
and otherwise the code units found at the pointer; an error is the message passed to
`throw_invalid`. -/
def utf8_from_utf16 (value : Option (List Nat)) (length : Nat) : Except String (List Nat) :=
  match value with
  | none => .ok []
  | some buffer =>
    if length = 0 then .ok []
    else
      let first := (buffer.take length).dropWhile is_config_whitespace
      let trimmed := (first.reverse.dropWhile is_config_whitespace).reverse
      copy_ascii trimmed []

/-- The nodes an `IXmlReader` delivers, as far as `read_config_file` tells them apart:
an element with its local name and whether it is empty, an end tag with its local name, a
text or CDATA node with its value in UTF-16 code units, a whitespace node, any other
node. -/
inductive XmlNode where
  | element (name : String) (is_empty : Bool)
  | end_element (name : String)
  | text (value : List Nat)
  | cdata (value : List Nat)
  | whitespace
  | other

/-- The local variables of `read_config_file` together with `settings.include` and
`settings.exclude`. -/
structure ConfigState where
  in_include : Bool
  in_exclude : Bool
  saw_configuration : Bool
  include_prefixes : List String
  exclude_prefixes : List String

/-- The message of the error raised when no `configuration` element was seen. -/
def missing_configuration_error : String :=
  "Malformed CppWinRT.config file: missing <configuration> root element"

/-- The handling of the text or CDATA content of a `<prefix>` element: the value is
converted by `utf8_from_utf16` and, unless empty, inserted into `settings.include` or
`settings.exclude`. -/
def store_prefix (value : List Nat) (st : ConfigState) : Except String ConfigState :=
  match utf8_from_utf16 (some value) value.length with
  | .error e => .error e
  | .ok trimmed =>
    if trimmed.isEmpty then .ok st
    else if st.in_include then
      .ok { st with
        include_prefixes := set_emplace (String.mk (trimmed.map Char.ofNat)) st.include_prefixes }
    else
      .ok { st with
        exclude_prefixes := set_emplace (String.mk (trimmed.map Char.ofNat)) st.exclude_prefixes }

mutual

/-- The loop `while (S_OK == input.reader->Read(&node_type))` of `read_config_file`; the
list holds the nodes the reader still delivers. -/
def read_nodes : List XmlNode → ConfigState → Except String ConfigState
  | [], st => .ok st
  | XmlNode.element name is_empty :: rest, st =>
    if name = "configuration" then read_nodes rest { st with saw_configuration := true }
    else if name = "include" then
      read_nodes rest { st with in_include := true, in_exclude := false }
    else if name = "exclude" then
      read_nodes rest { st with in_exclude := true, in_include := false }
    else if name ≠ "prefix" ∨ (st.in_include = false ∧ st.in_exclude = false) then
      read_nodes rest st
    else if is_empty then read_nodes rest st
    else read_prefix_content rest st
  | XmlNode.end_element name :: rest, st =>
    if name = "include" then read_nodes rest { st with in_include := false }
    else if name = "exclude" then read_nodes rest { st with in_exclude := false }
    else read_nodes rest st
  | XmlNode.text _ :: rest, st => read_nodes rest st
  | XmlNode.cdata _ :: rest, st => read_nodes rest st
  | XmlNode.whitespace :: rest, st => read_nodes rest st
  | XmlNode.other :: rest, st => read_nodes rest st

/-- The reads `read_config_file` makes after the start tag of a `<prefix>` element:
whitespace nodes are skipped, a text or CDATA node is stored, any other node is dropped,
and the outer loop goes on; when the reader has no further node the outer loop ends. -/
def read_prefix_content : List XmlNode → ConfigState → Except String ConfigState
  | [], st => .ok st
  | XmlNode.whitespace :: rest, st => read_prefix_content rest st
  | XmlNode.text value :: rest, st =>
    match store_prefix value st with
    | .error e => .error e
    | .ok st1 => read_nodes rest st1
  | XmlNode.cdata value :: rest, st =>
    match store_prefix value st with
    | .error e => .error e
    | .ok st1 => read_nodes rest st1
  | XmlNode.element _ _ :: rest, st => read_nodes rest st
  | XmlNode.end_element _ :: rest, st => read_nodes rest st
  | XmlNode.other :: rest, st => read_nodes rest st

end

/-- The function `read_config_file` as compiled for Windows: `document` is `none` when
`open_xml_input` reports that there is nothing to read and otherwise the nodes the reader
delivers; the result is the new content of `settings.include` and `settings.exclude`.
(The branch compiled elsewhere opens no document.) -/
def read_config_file (document : Option (List XmlNode))
    (include_prefixes exclude_prefixes : List String) :
    Except String (List String × List String) :=
  match document with
  | none => .ok (include_prefixes, exclude_prefixes)
  | some nodes =>
    match read_nodes nodes
      { in_include := false, in_exclude := false, saw_configuration := false,
        include_prefixes := include_prefixes, exclude_prefixes := exclude_prefixes } with
    | .error e => .error e
    | .ok st =>
      if !st.saw_configuration then .error missing_configuration_error
      else .ok (st.include_prefixes, st.exclude_prefixes)

/-- The local name of the first element of a document: its root element. -/
def root_element : List XmlNode → Option String
  | [] => none
  | XmlNode.element name _ :: _ => some name
  | _ :: rest => root_element rest

/-! ## The driver `run` -/

/-- The option `-config` on the command line: absent, given without a value, or given
with the path of a file whose content is `document`. -/
inductive ConfigOption where
  | absent
  | empty_value
  | file (document : Option (List XmlNode))

/-- The option `-license` on the command line: absent, given without a value (the
built-in text is used), or given with a template file; `path` is
`absolute(template_path).string()`, and `lines` is `none` when the file cannot be opened
(`template_file.fail()`) and otherwise the lines `getline` reads from it. -/
inductive LicenseOption where
  | absent
  | default_text
  | template (path : String) (lines : Option (List String))

/-- The command line as far as this model of `run` looks at it; `usage` is
`!args || args.exists("help") || args.exists("?")`. A command line written without
`license` has no `-license` option. -/
structure Arguments where
  usage : Bool
  modules : Bool
  base : Bool
  reference : List String
  component : Bool
  config : ConfigOption
  license : LicenseOption := LicenseOption.absent

/-- The fields of `settings` this model of `run` looks at. -/
structure Settings where
  modules : Bool
  base : Bool
  reference : List String
  component : Bool
  include_prefixes : List String
  exclude_prefixes : List String

/-- The loop `while (getline(template_file, line_buf))` of `process_args`: every line of
the template becomes a `//` comment line of `settings.license_template`. -/
def comment_lines_of : List String → String → String
  | [], license_template => license_template
  | line_buf :: rest, license_template =>
    if line_buf.isEmpty then comment_lines_of rest (license_template ++ "//\n")
    else comment_lines_of rest (license_template ++ "// " ++ line_buf ++ "\n")

/-- The block `if (settings.license) { … }` of `process_args`: the value of
`settings.license_template`, or the error raised when the template file cannot be
read. -/
def license_template : LicenseOption → Except String String
  | LicenseOption.absent => .ok ""
  | LicenseOption.default_text =>
    .ok ("// Copyright (c) Microsoft Corporation. All rights reserved.\n" ++
         "// Licensed under the MIT License.\n")
  | LicenseOption.template path none =>
    .error ("Cannot read license template file '" ++ path ++ "'")
  | LicenseOption.template _ (some lines) => .ok (comment_lines_of lines "")

/-- The part of `process_args` after the config file has been read: the license block;
`settings` holds the fields set before. The license text is kept by the source in
`settings.license_template` for the absent `write_preamble`, whose output the writers of
this model take as `preamble`; here only its error matters. -/
def process_license (args : Arguments) (settings : Settings) : Except String Settings :=
  match license_template args.license with
  | .error e => .error e
  | .ok _ => .ok settings

/-- The function `process_args`: the settings taken from the command line and the config
file, then the license block. The steps that call code outside the given sources (file
lists, output folder, component folder) are taken to succeed; the values of `-include`,
`-filter` and `-exclude`, which raise nothing, are left out of `Arguments`. -/
def process_args (args : Arguments) : Except String Settings :=
  match args.config with
  | ConfigOption.absent =>
    process_license args
      { modules := args.modules, base := args.base, reference := args.reference,
        component := args.component, include_prefixes := [], exclude_prefixes := [] }
  | ConfigOption.empty_value => .error "Option 'config' requires exactly 1 value"
  | ConfigOption.file document =>
    match read_config_file document [] [] with
    | .error e => .error e
    | .ok prefixes =>
      process_license args
        { modules := args.modules, base := args.base, reference := args.reference,
          component := args.component, include_prefixes := prefixes.1,
          exclude_prefixes := prefixes.2 }

/-- The two assignments to `settings.base` in `run`. -/
def force_base (s : Settings) : Settings :=
  let s1 := { s with base := s.base || s.reference.isEmpty }
  { s1 with base := s1.base || s1.modules }

/-- The files `run` writes, by the call that writes them: `namespace_headers ns` is the
task writing `winrt/impl/<ns>.0.h`, `.1.h`, `.2.h` and `winrt/<ns>.h`; `winrt_ixx` is the
flush of the aggregate buffer to `winrt/winrt.ixx`; `component_files` is the block
writing the component scaffolding; `module_unit` is a call writing `winrt/<name>.ixx`. -/
inductive FileWrite where
  | numerics_ixx
  | base_ixx
  | namespace_headers (ns : String)
  | module_h
  | base_h
  | winrt_ixx (text : String)
  | component_files
  | module_unit (call : WriteCall)

/-- Whether a write is the flush to `winrt/winrt.ixx`. -/
def FileWrite.is_winrt_ixx : FileWrite → Bool
  | FileWrite.winrt_ixx _ => true
  | _ => false

/-- The string `strings::base_includes`: the content of `strings/base_includes.h`. -/
def base_includes : String :=
  "\n" ++
  "#include <intrin.h>\n" ++
  "#include <algorithm>\n" ++
  "#include <array>\n" ++
  "#include <atomic>\n" ++
  "#include <charconv>\n" ++
  "#include <chrono>\n" ++
  "#include <cstddef>\n" ++
  "#include <cstring>\n" ++
  "#include <cwchar>\n" ++
  "#include <cwctype>\n" ++
  "#include <exception>\n" ++
  "#include <iterator>\n" ++
  "#include <limits>\n" ++
  "#include <map>\n" ++
  "#include <memory>\n" ++
  "#include <optional>\n" ++
  "#include <stdexcept>\n" ++
  "#include <string_view>\n" ++
  "#include <string>\n" ++
  "#include <thread>\n" ++
  "#include <tuple>\n" ++
  "#include <type_traits>\n" ++
  "#include <unordered_map>\n" ++
  "#include <utility>\n" ++
  "#include <vector>\n" ++
  "\n" ++
  "#if __has_include(<version>)\n" ++
  "#include <version>\n" ++
  "#endif\n" ++
  "\n" ++
  "// <windowsnumerics.impl.h> pulls in large, hard-to-control legacy headers. In header builds we keep the\n" ++
  "// existing behavior, but in module builds it's provided by the winrt.numerics module.\n" ++
  "#ifndef WINRT_MODULE\n" ++
  "#if __has_include(<windowsnumerics.impl.h>)\n" ++
  "#define WINRT_IMPL_NUMERICS\n" ++
  "#include <directxmath.h>\n" ++
  "#endif\n" ++
  "\n" ++
  "#endif\n" ++
  "\n" ++
  "#ifndef WINRT_LEAN_AND_MEAN\n" ++
  "#include <ostream>\n" ++
  "#endif\n" ++
  "\n" ++
  "#ifdef __cpp_lib_span\n" ++
  "#include <span>\n" ++
  "#endif\n" ++
  "\n" ++
  "#ifdef __cpp_lib_format\n" ++
  "#include <format>\n" ++
  "#endif\n" ++
  "\n" ++
  "#ifdef __cpp_lib_source_location\n" ++
  "#include <source_location>\n" ++
  "#endif\n" ++
  "\n" ++
  "#ifdef __cpp_lib_coroutine\n" ++
  "#include <coroutine>\n" ++
  "#else\n" ++
  "#error C++/WinRT requires coroutine support, which is currently missing. Try enabling C++20 in your compiler.\n" ++
  "#endif\n" ++
  "\n"

/-- What `run` writes into the buffer `ixx` before the loop over the namespaces, in
non-module mode. -/
def ixx_head (preamble : String) : List Char :=
  preamble.data ++ "module;\n".data ++ base_includes.data ++
    "\nexport module winrt;\n#define WINRT_EXPORT export\n\n".data

/-- The loop `for (auto&&[ns, members] : c.namespaces())` of `run` in non-module mode:
the buffer `ixx` and the namespaces whose headers are emitted, in order. -/
def aggregate_loop {M : Type} (has_projected_types : M → Bool) (includes : M → Bool) :
    List (String × M) → List Char × List String → List Char × List String
  | [], acc => acc
  | (ns, members) :: rest, acc =>
    if !has_projected_types members || !includes members then
      aggregate_loop has_projected_types includes rest acc
    else
      aggregate_loop has_projected_types includes rest
        (acc.1 ++ substitute "#include \"winrt/%.h\"\n".data [ns], acc.2 ++ [ns])

/-- The block `if (settings.base) { … }` of `run`. -/
def base_files (s : Settings) (ixx : List Char) : List FileWrite :=
  if s.base then
    (if s.modules then [FileWrite.module_h] else []) ++ [FileWrite.base_h] ++
      (if !s.modules then [FileWrite.winrt_ixx (String.mk ixx)] else [])
  else []

/-- The block `if (settings.component) { … }` of `run`; `component_classes` tells whether
the component filter admits a class. -/
def component_block (s : Settings) (component_classes : Bool) : List FileWrite :=
  if s.component then (if component_classes then [FileWrite.component_files] else [])
  else []

/-- The part of `run` that writes files, from the declaration of the buffer `ixx` to the
planner: the writes in the order of the calls that make them. -/
def emit_files {M T : Type} (s : Settings) (component_classes : Bool) (preamble : String)
    (has_projected_types : M → Bool) (includes : M → Bool)
    (namespaces : List (String × M)) (depends : String → Nat → List (String × T)) :
    Except Fault (List FileWrite) :=
  if s.modules then
    match run_modules has_projected_types includes namespaces depends with
    | .error e => .error e
    | .ok planned =>
      .ok ([FileWrite.numerics_ixx, FileWrite.base_ixx] ++
        planned.1.map FileWrite.namespace_headers ++ base_files s [] ++
        component_block s component_classes ++ planned.2.map FileWrite.module_unit)
  else
    let filled := aggregate_loop has_projected_types includes namespaces
      (ixx_head preamble, [])
    .ok (filled.2.map FileWrite.namespace_headers ++ base_files s filled.1 ++
      component_block s component_classes)

/-- What `run` returns and leaves behind: the exit code, the text flushed to the console
by the final `flush_to_console` and the files written. -/
structure RunResult where
  result : Nat
  console : String
  writes : List FileWrite

/-- The function `run`. `usage_text` is what `print_usage` writes; the cache, the filters
and the printers are given as in `emit_files` and taken to raise no error. A fault of the
model is kept apart from the errors `run` catches. -/
def run {M T : Type} (args : Arguments) (usage_text : String) (component_classes : Bool)
    (preamble : String) (has_projected_types : M → Bool) (includes : M → Bool)
    (namespaces : List (String × M)) (depends : String → Nat → List (String × T)) :
    Except Fault RunResult :=
  if args.usage then .ok { result := 0, console := usage_text, writes := [] }
  else
    match process_args args with
    | .error message =>
      .ok { result := 1,
            console := String.mk (substitute "cppwinrt : error %\n".data [message]),
            writes := [] }
    | .ok settings =>
      match emit_files (force_base settings) component_classes preamble has_projected_types
          includes namespaces depends with
      | .error e => .error e
      | .ok writes => .ok { result := 0, console := "", writes := writes }

/-- A document whose root element is `settings` and whose only prefix value is the code
unit `0xE9`. -/
def bad_prefix_document : List XmlNode :=
  [XmlNode.element "settings" false, XmlNode.element "include" false,
   XmlNode.element "prefix" false, XmlNode.text [0xE9], XmlNode.end_element "prefix",
   XmlNode.end_element "include", XmlNode.end_element "settings"]

/-- A document whose root element is `settings` and holds an empty element
`configuration`. -/
def nested_configuration_document : List XmlNode :=
  [XmlNode.element "settings" false, XmlNode.element "configuration" true,
   XmlNode.end_element "settings"]

/-! ## The text of the module interface units -/

/-- The text `write_module_global_fragment` writes. -/
def write_module_global_fragment : List Char :=
  ("\n" ++
   "module;\n" ++
   "\n" ++
   "#define WINRT_MODULE\n" ++
   "#include <intrin.h>\n" ++
   "#include <cstddef>\n" ++
   "#include <version>\n" ++
   "#ifdef _DEBUG\n" ++
   "#include <crtdbg.h>\n" ++
   "#endif\n" ++
   "#include \"winrt/module.h\"\n" ++
   "\n").data

/-- A loop `for (auto&& x : list) { w.write(fragment, x); }`. -/
def write_loop (fragment : String) : List String → List Char
  | [] => []
  | x :: rest => substitute fragment.data [x] ++ write_loop fragment rest

/-- The text `write_namespace_ixx(ns, imports)` flushes to `winrt/<ns>.ixx`; `preamble`
is what the absent `write_preamble` has put into the writer. -/
def write_namespace_ixx (preamble : String) (ns : String) (imports : List String) : String :=
  preamble ++ String.mk (
    write_module_global_fragment ++
    substitute "export module %;\n\n".data [ns] ++
    "// Module dependencies:\n".data ++
    "//   - std\n".data ++
    "//   - winrt.base (re-exported)\n".data ++
    (if imports.isEmpty then "//   - (no additional namespace imports)\n".data
     else write_loop "//   - %\n" imports) ++
    ("\n" ++
     "// Namespace imports (below) are computed from type references in generated headers.\n").data ++
    ("\n" ++
     "import std;\n" ++
     "export import winrt.base;\n").data ++
    write_loop "import %;\n" imports ++
    ['\n'] ++
    substitute
      ("#include \"winrt/impl/%.0.h\"\n" ++
       "#include \"winrt/impl/%.1.h\"\n" ++
       "#include \"winrt/impl/%.2.h\"\n" ++
       "#include \"winrt/%.h\"\n").data
      [ns, ns, ns, ns])

/-- The loop of `write_namespace_scc_owner_ixx` that writes the forward declarations:
`namespaces` is `c.namespaces()` and `write_forward ns members` is the text the absent
printers (`wrap_type_namespace` and `write_forward` for the enums, interfaces, classes,
structs, delegates and contracts) write for one namespace. -/
def write_forward_declarations {M : Type} (has_projected_types : M → Bool)
    (namespaces : List (String × M)) (write_forward : String → M → List Char) :
    List String → List Char
  | [] => []
  | ns :: rest =>
    match namespaces.lookup ns with
    | none => write_forward_declarations has_projected_types namespaces write_forward rest
    | some members =>
      if !has_projected_types members then
        write_forward_declarations has_projected_types namespaces write_forward rest
      else
        write_forward ns members ++
          write_forward_declarations has_projected_types namespaces write_forward rest

/-- What `write_namespace_scc_owner_ixx` writes between the global module fragment and the
forward declarations. -/
def scc_owner_head (owner : String) (imports : List String) : List Char :=
  substitute "export module %;\n\n".data [owner] ++
  "// Module dependencies:\n".data ++
  "//   - std\n".data ++
  "//   - winrt.base (re-exported)\n".data ++
  (if imports.isEmpty then "//   - (no additional namespace imports)\n".data
   else write_loop "//   - %\n" imports) ++
  ("\n" ++
   "// This module is an SCC owner (cycle breaker); other SCC namespaces are emitted as re-export stubs.\n").data ++
  ("\n" ++
   "import std;\n" ++
   "export import winrt.base;\n").data ++
  write_loop "import %;\n" imports ++
  ['\n'] ++
  ("#pragma push_macro(\"WINRT_EXPORT\")\n" ++
   "#undef WINRT_EXPORT\n" ++
   "#define WINRT_EXPORT export\n" ++
   "\n").data

/-- What `write_namespace_scc_owner_ixx` writes after the forward declarations. -/
def scc_owner_tail (members : List String) : List Char :=
  ("#pragma pop_macro(\"WINRT_EXPORT\")\n" ++
   "\n").data ++
  write_loop "#include \"winrt/impl/%.0.h\"\n" members ++
  write_loop "#include \"winrt/impl/%.1.h\"\n" members ++
  write_loop "#include \"winrt/impl/%.2.h\"\n" members ++
  write_loop "#include \"winrt/%.h\"\n" members

/-- The text `write_namespace_scc_owner_ixx(c, owner, namespaces, imports)` flushes to
`winrt/<owner>.ixx`; `members` is the parameter `namespaces` of the function and
`namespaces` is `c.namespaces()`. -/
def write_namespace_scc_owner_ixx {M : Type} (preamble : String)
    (has_projected_types : M → Bool) (namespaces : List (String × M))
    (write_forward : String → M → List Char)
    (owner : String) (members : List String) (imports : List String) : String :=
  preamble ++ String.mk (
    write_module_global_fragment ++
    scc_owner_head owner imports ++
    write_forward_declarations has_projected_types namespaces write_forward members ++
    scc_owner_tail members)

/-- The lines of a text that begin with `#include`. -/
def include_lines (text : List Char) : List (List Char) :=
  (lines_of text).filter (fun l => l.take 8 == "#include".data)

/-! ## The FNV-1a hash of `winrt::impl::hash_data` -/

/-- The width of `std::size_t`: 64 bits when `_WIN64` is defined, 32 bits otherwise. -/
def size_t_bits (win64 : Bool) : Nat := if win64 then 64 else 32

/-- The constant `fnv_offset_basis` of `hash_data`. -/
def fnv_offset_basis (win64 : Bool) : Nat :=
  if win64 then 14695981039346656037 else 2166136261

/-- The constant `fnv_prime` of `hash_data`. -/
def fnv_prime (win64 : Bool) : Nat :=
  if win64 then 1099511628211 else 16777619

/-- The loop `for (std::size_t next = 0; next < bytes; ++next)` of `hash_data` over the
bytes still to be read: `result ^= buffer[next]; result *= fnv_prime;` in `std::size_t`
arithmetic. -/
def hash_loop (win64 : Bool) : List Nat → Nat → Nat
  | [], result => result
  | byte :: rest, result =>
    hash_loop win64 rest (((result ^^^ byte) * fnv_prime win64) % 2 ^ size_t_bits win64)

/-- The function `winrt::impl::hash_data(ptr, bytes)`; `buffer` holds the `bytes` bytes
found at `ptr`. -/
def hash_data (win64 : Bool) (buffer : List Nat) : Nat :=
  hash_loop win64 buffer (fnv_offset_basis win64)

/-! ## The test object `test_Release` -/

/-- The fields of `test_Release`, two `std::uint32_t`. -/
structure test_Release where
  m_release : Nat
  m_loudness : Nat

/-- A fresh object, as `make<test_Release>()` constructs it: both fields are
initialised to `0`. -/
def test_Release.make : test_Release := { m_release := 0, m_loudness := 0 }

/-- The overload `void Release(std::uint32_t value)`. -/
def test_Release.set_Release (o : test_Release) (value : Nat) : test_Release :=
  { o with m_release := value % 2 ^ 32 }

/-- The overload `std::uint32_t Release() const`. -/
def test_Release.Release (o : test_Release) : Nat := o.m_release

/-- The overload `void Loudness(std::uint32_t value)`. -/
def test_Release.set_Loudness (o : test_Release) (value : Nat) : test_Release :=
  { o with m_loudness := value % 2 ^ 32 }

/-- The overload `std::uint32_t Loudness() const`. -/
def test_Release.Loudness (o : test_Release) : Nat := o.m_loudness

/-! ## The search with its calls observed -/

/-- Two observations added to the search of `compute_strongly_connected_components`:
the nodes `strongconnect` has been called for, in the order of the calls, and the greatest
nesting depth at which a call has been made. -/
structure Trace where
  calls : List String
  depth : Nat

/-- The `for (auto&& dep : deps)` loop of `strongconnect` as in `visit_deps`, with the
observations passed along. -/
def visit_deps_traced (graph : Graph)
    (sc : String → State → Trace → Except Fault (State × Trace)) (node : String) :
    List String → State → Trace → Except Fault (State × Trace)
  | [], s, g => .ok (s, g)
  | dep :: rest, s, g =>
    if graph.lookup dep = none then
      visit_deps_traced graph sc node rest s g
    else if s.index dep = none then
      match sc dep s g with
      | .error e => .error e
      | .ok (s1, g1) =>
        let ln := subscript s1.lowlink node
        let ld := subscript ln.2 dep
        visit_deps_traced graph sc node rest
          { s1 with lowlink := assign ld.2 node (min ln.1 ld.1) } g1
    else if s.on_stack dep then
      let ln := subscript s.lowlink node
      let id := subscript s.index dep
      visit_deps_traced graph sc node rest
        { s with lowlink := assign ln.2 node (min ln.1 id.1), index := id.2 } g
    else
      visit_deps_traced graph sc node rest s g

/-- The lambda `strongconnect` as in `strongconnect`, observed: a call made at nesting
depth `level` (1 for a call from the outer loop) records its node and its depth, and
calls itself at depth `level + 1`. -/
def strongconnect_traced (graph : Graph) :
    Nat → Nat → String → State → Trace → Except Fault (State × Trace)
  | 0, _, _, _, _ => .error Fault.out_of_fuel
  | fuel + 1, level, node, s, g =>
    let s1 : State := pushed s node
    let g1 : Trace := { calls := g.calls ++ [node], depth := max g.depth level }
    match graph.lookup node with
    | none => .error Fault.at_missing_key
    | some deps =>
      match visit_deps_traced graph (strongconnect_traced graph fuel (level + 1)) node deps
          s1 g1 with
      | .error e => .error e
      | .ok (s2, g2) =>
        let ln := subscript s2.lowlink node
        let id := subscript s2.index node
        let s3 : State := { s2 with lowlink := ln.2, index := id.2 }
        if ln.1 ≠ id.1 then
          .ok (s3, g2)
        else
          match pop_component node s3.stack s3.on_stack [] with
          | .error e => .error e
          | .ok (stack, on_stack, component) =>
            .ok ({ s3 with stack := stack, on_stack := on_stack,
                           components := s3.components ++ [component] }, g2)

/-- The outer loop of `compute_strongly_connected_components` as in `visit_nodes`,
observed. -/
def visit_nodes_traced (graph : Graph) (fuel : Nat) :
    List String → State → Trace → Except Fault (State × Trace)
  | [], s, g => .ok (s, g)
  | node :: rest, s, g =>
    if s.index node = none then
      match strongconnect_traced graph fuel 1 node s g with
      | .error e => .error e
      | .ok (s1, g1) => visit_nodes_traced graph fuel rest s1 g1
    else
      visit_nodes_traced graph fuel rest s g

/-- The function `compute_strongly_connected_components`, observed: the final state of
the search and the observations. -/
def compute_strongly_connected_components_traced (graph : Graph) :
    Except Fault (State × Trace) :=
  visit_nodes_traced graph graph.length (graph.map Prod.fst) initial_state
    { calls := [], depth := 0 }

/-- What the observations have to do with the state of the search: the `i`-th call was
made for the node that has index `i`, the counter counts the calls, no call was nested
deeper than the counter, and every call was made for a key. -/
structure Traced (D : Graph) (s : State) (g : Trace) : Prop where
  len : g.calls.length = s.next_index
  idx_of_call : ∀ i v, g.calls[i]? = some v → s.index v = some i
  call_of_idx : ∀ v i, s.index v = some i → g.calls[i]? = some v
  depth_le : g.depth ≤ s.next_index
  call_key : ∀ v ∈ g.calls, D.lookup v ≠ none

/-- The chain `A → B → C`. -/
def chain_graph : Graph := [("A", ["B"]), ("B", ["C"]), ("C", [])]

/-! ## Basic facts about the maps -/

theorem lookup_ne_none_iff (D : Graph) (k : String) :
    D.lookup k ≠ none ↔ k ∈ keys D := by
  induction D with
  | nil => simp [keys]
  | cons p D ih =>
    obtain ⟨a, b⟩ := p
    by_cases h : k = a
    · subst h; simp [keys, List.lookup]
    · have h1 : (k == a) = false := by simpa using h
      simp only [List.lookup, h1, keys, List.map_cons, List.mem_cons, h, false_or]
      exact ih

theorem assign_other (m : IntMap) {k x : String} (v : Nat) (h : x ≠ k) :
    assign m k v x = m x := by
  simp [assign, h]

theorem edge_key_left {D : Graph} {u v : String} (h : edge D u v) : D.lookup u ≠ none := by
  obtain ⟨deps, h1, _, _⟩ := h
  simp [h1]

theorem idx_of_some {s : State} {v : String} {i : Nat} (h : s.index v = some i) :
    idx s v = i := by
  simp [idx, h]

theorem Ext.refl (s : State) : Ext s s :=
  ⟨fun _ _ => rfl, fun _ _ => rfl, fun v i h1 h2 => by simp [h1] at h2, le_refl _⟩

theorem Ext.vis {s0 s : State} (h : Ext s0 s) {v : String} (hv : s0.index v ≠ none) :
    s.index v ≠ none := by
  rw [h.index_eq v hv]; exact hv

theorem Ext.idx_eq {s0 s : State} (h : Ext s0 s) {v : String} (hv : s0.index v ≠ none) :
    idx s v = idx s0 v := by
  simp [idx, h.index_eq v hv]

theorem Ext.low_eq {s0 s : State} (h : Ext s0 s) {v : String} (hv : s0.index v ≠ none) :
    low s v = low s0 v := by
  simp [low, h.lowlink_eq v hv]

theorem Ext.trans {s0 s1 s2 : State} (h1 : Ext s0 s1) (h2 : Ext s1 s2) : Ext s0 s2 := by
  refine ⟨?_, ?_, ?_, le_trans h1.next_le h2.next_le⟩
  · intro v hv
    rw [h2.index_eq v (h1.vis hv), h1.index_eq v hv]
  · intro v hv
    rw [h2.lowlink_eq v (h1.vis hv), h1.lowlink_eq v hv]
  · intro v i hv hi
    by_cases h : s1.index v = none
    · exact le_trans h1.next_le (h2.fresh v i h hi)
    · rw [h2.index_eq v h] at hi
      exact h1.fresh v i hv hi

theorem unvisited_le_length (D : Graph) (s : State) : unvisited D s ≤ D.length := by
  unfold unvisited keys
  exact le_trans (List.length_filter_le _ _) (by simp)

theorem filter_length_lt_of_mono {l : List String} {p q : String → Bool}
    (hmono : ∀ a, q a = true → p a = true) {x : String} (hx : x ∈ l)
    (hp : p x = true) (hq : q x = false) :
    (l.filter q).length < (l.filter p).length := by
  have hle : ∀ l : List String, (l.filter q).length ≤ (l.filter p).length := by
    intro l
    induction l with
    | nil => simp
    | cons a l ih =>
      by_cases hqa : q a = true
      · simp [List.filter_cons, hqa, hmono a hqa, ih]
      · by_cases hpa : p a = true
        · simp [List.filter_cons, hqa, hpa]; omega
        · simp [List.filter_cons, hqa, hpa, ih]
  induction l with
  | nil => simp at hx
  | cons a l ih =>
    rcases List.mem_cons.1 hx with h | h
    · subst h
      have := hle l
      simp [List.filter_cons, hp, hq]; omega
    · have := ih h
      by_cases hqa : q a = true
      · simp [List.filter_cons, hqa, hmono a hqa, this]
      · by_cases hpa : p a = true
        · simp [List.filter_cons, hqa, hpa]; omega
        · simp [List.filter_cons, hqa, hpa, this]

theorem unvisited_lt {D : Graph} {s0 s : State}
    (hmono : ∀ v, s0.index v ≠ none → s.index v ≠ none) {x : String}
    (hx : D.lookup x ≠ none) (h0 : s0.index x = none) (h1 : s.index x ≠ none) :
    unvisited D s < unvisited D s0 := by
  unfold unvisited
  apply filter_length_lt_of_mono (x := x)
  · intro a ha
    by_contra hc
    have : s0.index a ≠ none := by
      intro h; simp [h] at hc
    have := hmono a this
    cases h : s.index a <;> simp_all
  · exact (lookup_ne_none_iff D x).1 hx
  · simp [h0]
  · cases h : s.index x <;> simp_all

/-! ## Entering a call -/

theorem pushed_index_other {s : State} {x v : String} (h : v ≠ x) :
    (pushed s x).index v = s.index v := by
  simp [pushed, emplace, h]

theorem pushed_index_self {s : State} {x : String} (hx : s.index x = none) :
    (pushed s x).index x = some s.next_index := by
  simp [pushed, emplace, hx]

theorem pushed_idx_of_vis {s : State} {x v : String} (hx : s.index x = none)
    (hv : s.index v ≠ none) : idx (pushed s x) v = idx s v := by
  have : v ≠ x := by rintro rfl; exact hv hx
  simp [idx, pushed_index_other this]

theorem pushed_vis {s : State} {x v : String} (hx : s.index x = none) :
    (pushed s x).index v ≠ none ↔ v = x ∨ s.index v ≠ none := by
  by_cases h : v = x
  · subst h; simp [pushed_index_self hx]
  · simp [pushed_index_other h, h]

theorem Inv.enter {D : Graph} {gray : List String} {s : State} {x : String}
    (h : Inv D gray s) (hk : D.lookup x ≠ none) (hx : s.index x = none)
    (hr : ∀ g ∈ gray, reach D g x) : Inv D (x :: gray) (pushed s x) := by
  have hlx : s.lowlink x = none := (h.low_dom x).2 hx
  have hidx_x : idx (pushed s x) x = s.next_index := idx_of_some (pushed_index_self hx)
  have hstk : ∀ v ∈ s.stack, idx (pushed s x) v = idx s v := fun v hv =>
    pushed_idx_of_vis hx (h.stack_vis v hv)
  have hstk_lt : ∀ v ∈ s.stack, idx s v < s.next_index := by
    intro v hv
    have := h.stack_vis v hv
    cases hi : s.index v with
    | none => exact absurd hi this
    | some i => rw [idx_of_some hi]; exact h.idx_lt v i hi
  constructor
  · intro v hv
    rcases (pushed_vis hx).1 hv with rfl | hv
    · exact hk
    · exact h.idx_key v hv
  · intro v i hv
    by_cases hvx : v = x
    · subst hvx
      rw [pushed_index_self hx] at hv
      simp only [Option.some.injEq] at hv
      simp [pushed, ← hv]
    · rw [pushed_index_other hvx] at hv
      have := h.idx_lt v i hv
      simp only [pushed]; omega
  · intro v
    by_cases hvx : v = x
    · subst hvx; simp [pushed, emplace, hx, hlx]
    · simpa [pushed, emplace, hvx] using h.low_dom v
  · intro v
    by_cases hvx : v = x
    · subst hvx; simp [pushed, set_flag]
    · simpa [pushed, set_flag, hvx] using h.flag v
  · show (x :: s.stack).Pairwise _
    rw [List.pairwise_cons]
    refine ⟨?_, ?_⟩
    · intro b hb
      rw [hidx_x, hstk b hb]
      exact hstk_lt b hb
    · refine h.stack_sorted.imp_of_mem ?_
      intro a b ha hb hab
      rw [hstk a ha, hstk b hb]; exact hab
  · intro v hv
    apply (pushed_vis hx).2
    rcases List.mem_cons.1 hv with h1 | h1
    · exact Or.inl h1
    · exact Or.inr (h.stack_vis v h1)
  · intro v hv
    rcases (pushed_vis hx).1 hv with rfl | hv
    · exact Or.inl (List.mem_cons_self _ _)
    · rcases h.cover v hv with h1 | h1
      · exact Or.inl (List.mem_cons_of_mem _ h1)
      · exact Or.inr h1
  · intro c hc v hv
    have := h.comp_vis c hc v hv
    refine ⟨(pushed_vis hx).2 (Or.inr this.1), ?_⟩
    show v ∉ x :: s.stack
    rw [List.mem_cons]
    rintro (rfl | h1)
    · exact this.1 hx
    · exact this.2 h1
  · exact h.comp_ne
  · exact h.comp_nodup
  · exact h.comp_disj
  · exact h.comp_conn
  · exact h.comp_max
  · intro g hg
    show g ∈ x :: s.stack
    rcases List.mem_cons.1 hg with h1 | h1
    · rw [h1]; exact List.mem_cons_self _ _
    · exact List.mem_cons_of_mem _ (h.gray_stack g h1)
  · intro u hu hug v huv
    rw [List.mem_cons, not_or] at hug
    rcases (pushed_vis hx).1 hu with h1 | h1
    · exact absurd h1 hug.1
    · exact (pushed_vis hx).2 (Or.inr (h.black_closed u h1 hug.2 v huv))
  · intro g hg y hy hle
    have hy' : y = x ∨ y ∈ s.stack := List.mem_cons.1 hy
    rcases List.mem_cons.1 hg with hgx | hg1
    · rcases hy' with hyx | hy1
      · rw [hgx, hyx]; exact Relation.ReflTransGen.refl
      · rw [hgx, hidx_x, hstk y hy1] at hle
        have := hstk_lt y hy1
        omega
    · rcases hy' with hyx | hy1
      · rw [hyx]; exact hr g hg1
      · rw [hstk g (h.gray_stack g hg1), hstk y hy1] at hle
        exact h.gray_reach g hg1 y hy1 hle
  · intro y hy
    rcases List.mem_cons.1 hy with rfl | hy
    · exact ⟨y, List.mem_cons_self _ _, le_refl _, Relation.ReflTransGen.refl⟩
    · obtain ⟨g, hg, hle, hrg⟩ := h.stack_reach y hy
      refine ⟨g, List.mem_cons_of_mem _ hg, ?_, hrg⟩
      rw [hstk g (h.gray_stack g hg), hstk y hy]; exact hle

/-! ## Leaving a call -/

theorem pop_component_spec (node : String) (S0 : List String) :
    ∀ (T : List String) (f : String → Bool) (acc : List String), node ∉ T →
      ∃ g, pop_component node (T ++ node :: S0) f acc = .ok (S0, g, acc ++ T ++ [node]) ∧
        ∀ v, g v = true ↔ (f v = true ∧ v ∉ T ∧ v ≠ node) := by
  intro T
  induction T with
  | nil =>
    intro f acc _
    refine ⟨set_flag f node false, by simp [pop_component], ?_⟩
    intro v
    by_cases h : v = node <;> simp [set_flag, h]
  | cons t T ih =>
    intro f acc hT
    rw [List.mem_cons, not_or] at hT
    obtain ⟨g, hg, hflag⟩ := ih (set_flag f t false) (acc ++ [t]) hT.2
    refine ⟨g, ?_, ?_⟩
    · have ht : t ≠ node := fun h => hT.1 h.symm
      have : pop_component node (t :: T ++ node :: S0) f acc =
          pop_component node (T ++ node :: S0) (set_flag f t false) (acc ++ [t]) := by
        show pop_component node (t :: (T ++ node :: S0)) f acc = _
        rw [pop_component, if_neg ht]
      rw [this, hg]
      simp
    · intro v
      rw [hflag v]
      by_cases h : v = t <;> simp [set_flag, h]

theorem edge_of_lookup {D : Graph} {u v : String} {deps : List String}
    (h : D.lookup u = some deps) : edge D u v ↔ v ∈ deps ∧ D.lookup v ≠ none := by
  constructor
  · rintro ⟨deps', h1, h2, h3⟩
    rw [h] at h1
    simp only [Option.some.injEq] at h1
    subst h1
    exact ⟨h2, h3⟩
  · rintro ⟨h2, h3⟩
    exact ⟨deps, h, h2, h3⟩

theorem max_of_closed {D : Graph} {c : List String} {comps : List (List String)}
    (hout : ∀ u ∈ c, ∀ v, edge D u v → v ∈ c ∨ ∃ c' ∈ comps, v ∈ c')
    (hmax : ∀ c' ∈ comps, ∀ a ∈ c', ∀ b, reach D a b → reach D b a → b ∈ c')
    (hdisj : ∀ c' ∈ comps, ∀ v ∈ c', v ∉ c) :
    ∀ a ∈ c, ∀ b, reach D a b → reach D b a → b ∈ c := by
  intro a ha b hab
  revert ha
  refine Relation.ReflTransGen.head_induction_on hab ?_ ?_
  · intro hb _; exact hb
  · intro a a' haa' ha'b ih ha hba
    rcases hout a ha a' haa' with h1 | ⟨c', hc', h1⟩
    · exact ih h1 (hba.tail haa')
    · have : a ∈ c' :=
        hmax c' hc' a' h1 a (ha'b.trans hba) (Relation.ReflTransGen.single haa')
      exact absurd ha (hdisj c' hc' a this)

theorem LoopInv.leave_nonroot {D : Graph} {gray : List String} {node : String}
    {s0 s : State} {deps : List String} (hL : LoopInv D gray node s0 deps s)
    (hdeps : D.lookup node = some deps) (hne : low s node ≠ idx s node) :
    Post D gray node s0 s := by
  have hi := hL.inv
  have hidx : idx s node = s0.next_index := idx_of_some hL.idx_node
  have hlt : low s node < idx s node := by
    have := hL.low_le; omega
  obtain ⟨z, hz, hzl, hzr⟩ := hL.low_wit
  obtain ⟨gz, hgz, hgzl, hgzr⟩ := hi.stack_reach z hz
  have hgz' : gz ∈ gray := by
    rcases List.mem_cons.1 hgz with h1 | h1
    · rw [h1] at hgzl; omega
    · exact h1
  refine ⟨?_, hL.ext, hL.idx_node, hL.next_lt, ?_, Or.inr ⟨z, hz, hzl, hzr⟩⟩
  · refine { hi with gray_stack := ?_, black_closed := ?_, gray_reach := ?_, stack_reach := ?_ }
    · intro g hg; exact hi.gray_stack g (List.mem_cons_of_mem _ hg)
    · intro u hu hug v huv
      by_cases hun : u = node
      · subst hun
        exact hL.done_vis v ((edge_of_lookup hdeps).1 huv).1 ((edge_of_lookup hdeps).1 huv).2
      · exact hi.black_closed u hu (by simp [hun, hug]) v huv
    · intro g hg y hy hle
      exact hi.gray_reach g (List.mem_cons_of_mem _ hg) y hy hle
    · intro y hy
      obtain ⟨g, hg, hle, hrg⟩ := hi.stack_reach y hy
      rcases List.mem_cons.1 hg with h1 | h1
      · subst h1
        exact ⟨gz, hgz', by omega, (hrg.trans hzr).trans hgzr⟩
      · exact ⟨g, h1, hle, hrg⟩
  · obtain ⟨T, hstk, hseg⟩ := hL.seg
    refine ⟨T ++ [node], by simp [hstk], ?_⟩
    intro u hu y hy huy
    rcases List.mem_append.1 hu with h1 | h1
    · exact hseg u h1 y hy huy
    · simp only [List.mem_singleton] at h1
      subst h1
      exact hL.low_done y ((edge_of_lookup hdeps).1 huy).1 hy

theorem LoopInv.leave_root {D : Graph} {gray : List String} {node : String}
    {s0 s : State} {deps : List String} (hL : LoopInv D gray node s0 deps s)
    (h0 : Inv D gray s0) (hdeps : D.lookup node = some deps)
    (heq : low s node = idx s node) {T : List String}
    (hstk : s.stack = T ++ node :: s0.stack) (g : String → Bool)
    (hg : ∀ v, g v = true ↔ (s.on_stack v = true ∧ v ∉ T ∧ v ≠ node)) :
    Post D gray node s0
      { s with stack := s0.stack, on_stack := g,
               components := s.components ++ [T ++ [node]] } := by
  have hi := hL.inv
  have hidx : idx s node = s0.next_index := idx_of_some hL.idx_node
  obtain ⟨T', hstk', hseg⟩ := hL.seg
  have hTT : T' = T := List.append_cancel_right (hstk'.symm.trans hstk)
  subst hTT
  have hs := hi.stack_sorted
  rw [hstk, List.pairwise_append, List.pairwise_cons] at hs
  obtain ⟨-, ⟨hnodeS, hS0sorted⟩, hTS⟩ := hs
  have hT_node : ∀ t ∈ T', idx s node < idx s t := fun t ht =>
    hTS t ht node (List.mem_cons_self _ _)
  have hT_S : ∀ t ∈ T', t ∉ s0.stack := by
    intro t ht hmem
    exact lt_irrefl _ (hTS t ht t (List.mem_cons_of_mem _ hmem))
  have hnode_S : node ∉ s0.stack := fun hmem => lt_irrefl _ (hnodeS node hmem)
  have hnode_T : node ∉ T' := fun hmem => lt_irrefl _ (hT_node node hmem)
  have hmem_stack : ∀ v, v ∈ s.stack ↔ v ∈ T' ∨ v = node ∨ v ∈ s0.stack := by
    intro v; rw [hstk]; simp
  have hmem_c : ∀ v, v ∈ T' ++ [node] ↔ v ∈ T' ∨ v = node := by
    intro v; simp
  have hc_stack : ∀ v, v ∈ T' ++ [node] → v ∈ s.stack := by
    intro v hv
    rw [hmem_stack]
    rcases (hmem_c v).1 hv with h1 | h1
    · exact Or.inl h1
    · exact Or.inr (Or.inl h1)
  have hc_S : ∀ v, v ∈ T' ++ [node] → v ∉ s0.stack := by
    intro v hv
    rcases (hmem_c v).1 hv with h1 | h1
    · exact hT_S v h1
    · rw [h1]; exact hnode_S
  have hc_ge : ∀ v, v ∈ T' ++ [node] → idx s node ≤ idx s v := by
    intro v hv
    rcases (hmem_c v).1 hv with h1 | h1
    · exact le_of_lt (hT_node v h1)
    · rw [h1]
  have hgray_lt : ∀ g' ∈ gray, idx s g' < idx s node := fun g' hg' =>
    hnodeS g' (h0.gray_stack g' hg')
  have hto_node : ∀ a ∈ s.stack, reach D a node := by
    intro a ha
    obtain ⟨g', hg', _, hr⟩ := hi.stack_reach a ha
    refine hr.trans (hi.gray_reach g' hg' node ?_ ?_)
    · rw [hmem_stack]; exact Or.inr (Or.inl rfl)
    · rcases List.mem_cons.1 hg' with h1 | h1
      · rw [h1]
      · exact le_of_lt (hgray_lt g' h1)
  have hnode_edges : ∀ v, edge D node v → s.index v ≠ none := fun v hv =>
    hL.done_vis v ((edge_of_lookup hdeps).1 hv).1 ((edge_of_lookup hdeps).1 hv).2
  have hout : ∀ u ∈ T' ++ [node], ∀ v, edge D u v →
      v ∈ T' ++ [node] ∨ ∃ c' ∈ s.components, v ∈ c' := by
    intro u hu v huv
    have hv : s.index v ≠ none := by
      rcases (hmem_c u).1 hu with h1 | h1
      · refine hi.black_closed u (hi.stack_vis u (hc_stack u hu)) ?_ v huv
        rw [List.mem_cons, not_or]
        refine ⟨fun h => hnode_T (h ▸ h1), fun h => hT_S u h1 (h0.gray_stack u h)⟩
      · rw [h1] at huv; exact hnode_edges v huv
    rcases hi.cover v hv with h1 | h1
    · rcases (hmem_stack v).1 h1 with h2 | h2 | h2
      · exact Or.inl ((hmem_c v).2 (Or.inl h2))
      · exact Or.inl ((hmem_c v).2 (Or.inr h2))
      · exfalso
        have hlt := hnodeS v h2
        have hle : low s node ≤ idx s v := by
          rcases (hmem_c u).1 hu with h3 | h3
          · exact hseg u h3 v h2 huv
          · rw [h3] at huv
            exact hL.low_done v ((edge_of_lookup hdeps).1 huv).1 h2
        omega
    · exact Or.inr h1
  have hinv : Inv D gray
      { s with stack := s0.stack, on_stack := g,
               components := s.components ++ [T' ++ [node]] } := by
    constructor
    · exact hi.idx_key
    · exact hi.idx_lt
    · exact hi.low_dom
    · intro v
      show g v = true ↔ v ∈ s0.stack
      rw [hg v, hi.flag v, hmem_stack]
      constructor
      · rintro ⟨h1 | h1 | h1, h2, h3⟩
        · exact absurd h1 h2
        · exact absurd h1 h3
        · exact h1
      · intro h1
        refine ⟨Or.inr (Or.inr h1), fun h => hT_S v h h1, fun h => hnode_S (h ▸ h1)⟩
    · exact hS0sorted
    · intro v hv
      exact hi.stack_vis v ((hmem_stack v).2 (Or.inr (Or.inr hv)))
    · intro v hv
      show v ∈ s0.stack ∨ ∃ c ∈ s.components ++ [T' ++ [node]], v ∈ c
      rcases hi.cover v hv with h1 | ⟨c, hc, h1⟩
      · rcases (hmem_stack v).1 h1 with h2 | h2 | h2
        · exact Or.inr ⟨_, by simp, (hmem_c v).2 (Or.inl h2)⟩
        · exact Or.inr ⟨_, by simp, (hmem_c v).2 (Or.inr h2)⟩
        · exact Or.inl h2
      · exact Or.inr ⟨c, List.mem_append_left _ hc, h1⟩
    · intro c hc v hv
      show s.index v ≠ none ∧ v ∉ s0.stack
      rcases List.mem_append.1 hc with h1 | h1
      · have := hi.comp_vis c h1 v hv
        exact ⟨this.1, fun h => this.2 ((hmem_stack v).2 (Or.inr (Or.inr h)))⟩
      · rw [List.mem_singleton] at h1
        subst h1
        exact ⟨hi.stack_vis v (hc_stack v hv), hc_S v hv⟩
    · intro c hc
      rcases List.mem_append.1 hc with h1 | h1
      · exact hi.comp_ne c h1
      · rw [List.mem_singleton] at h1
        subst h1
        simp
    · intro c hc
      rcases List.mem_append.1 hc with h1 | h1
      · exact hi.comp_nodup c h1
      · rw [List.mem_singleton] at h1
        subst h1
        have hnd : s.stack.Nodup :=
          hi.stack_sorted.imp (fun {a b} h hab => by rw [hab] at h; exact lt_irrefl _ h)
        rw [hstk] at hnd
        have hsub : (T' ++ [node]).Sublist (T' ++ node :: s0.stack) :=
          List.Sublist.append (List.Sublist.refl T') (by simp)
        exact hnd.sublist hsub
    · show (s.components ++ [T' ++ [node]]).Pairwise List.Disjoint
      rw [List.pairwise_append]
      refine ⟨hi.comp_disj, List.pairwise_singleton _ _, ?_⟩
      intro a ha b hb
      rw [List.mem_singleton] at hb
      subst hb
      intro v hva hvb
      exact (hi.comp_vis a ha v hva).2 (hc_stack v hvb)
    · intro c hc a ha b hb
      rcases List.mem_append.1 hc with h1 | h1
      · exact hi.comp_conn c h1 a ha b hb
      · rw [List.mem_singleton] at h1
        subst h1
        refine (hto_node a (hc_stack a ha)).trans ?_
        exact hi.gray_reach node (List.mem_cons_self _ _) b (hc_stack b hb) (hc_ge b hb)
    · intro c hc
      rcases List.mem_append.1 hc with h1 | h1
      · exact hi.comp_max c h1
      · rw [List.mem_singleton] at h1
        subst h1
        refine max_of_closed hout hi.comp_max ?_
        intro c' hc' v hv hvc
        exact (hi.comp_vis c' hc' v hv).2 (hc_stack v hvc)
    · exact h0.gray_stack
    · intro u hu hug v huv
      by_cases hun : u = node
      · rw [hun] at huv; exact hnode_edges v huv
      · exact hi.black_closed u hu (by simp [hun, hug]) v huv
    · intro g' hg' y hy hle
      exact hi.gray_reach g' (List.mem_cons_of_mem _ hg') y
        ((hmem_stack y).2 (Or.inr (Or.inr hy))) hle
    · intro y hy
      obtain ⟨g', hg', hle, hr⟩ := hi.stack_reach y ((hmem_stack y).2 (Or.inr (Or.inr hy)))
      rcases List.mem_cons.1 hg' with h1 | h1
      · exfalso
        rw [h1] at hle
        have := hnodeS y hy
        omega
      · exact ⟨g', h1, hle, hr⟩
  refine ⟨hinv, ⟨hL.ext.index_eq, hL.ext.lowlink_eq, hL.ext.fresh, hL.ext.next_le⟩,
    hL.idx_node, hL.next_lt, ⟨[], rfl, ?_⟩, Or.inl ?_⟩
  · intro u hu; simp at hu
  · show low s node = s0.next_index
    rw [heq, hidx]

/-! ## The loop over the dependencies -/

theorem Inv.update_low {D : Graph} {gray : List String} {s : State} {x : String}
    (h : Inv D gray s) (hx : s.index x ≠ none) (m : Nat) :
    Inv D gray { s with lowlink := assign s.lowlink x m } := by
  refine { h with low_dom := ?_ }
  intro v
  by_cases hv : v = x
  · subst hv; simp [assign, hx]
  · simpa [assign, hv] using h.low_dom v

theorem low_update_self (s : State) (x : String) (m : Nat) :
    low { s with lowlink := assign s.lowlink x m } x = m := by
  simp [low, assign]

theorem LoopInv.init {D : Graph} {gray : List String} {s0 : State} {x : String}
    (h : Inv D gray s0) (hk : D.lookup x ≠ none) (hx : s0.index x = none)
    (hr : ∀ g ∈ gray, reach D g x) : LoopInv D gray x s0 [] (pushed s0 x) := by
  have hlx : s0.lowlink x = none := (h.low_dom x).2 hx
  have hne : ∀ v, s0.index v ≠ none → v ≠ x := by
    rintro v hv rfl; exact hv hx
  have hlow : low (pushed s0 x) x = s0.next_index := by
    simp [low, pushed, emplace, hlx]
  refine ⟨h.enter hk hx hr, ⟨?_, ?_, ?_, ?_⟩, pushed_index_self hx, ?_, ?_, ?_, ?_, ?_, ?_⟩
  · intro v hv; exact pushed_index_other (hne v hv)
  · intro v hv; simp [pushed, emplace, hne v hv]
  · intro v i hv hi
    by_cases hvx : v = x
    · subst hvx
      rw [pushed_index_self hx] at hi
      simp only [Option.some.injEq] at hi
      omega
    · rw [pushed_index_other hvx, hv] at hi
      simp at hi
  · simp [pushed]
  · simp [pushed]
  · rw [hlow]
  · refine ⟨x, List.mem_cons_self _ _, ?_, Relation.ReflTransGen.refl⟩
    rw [hlow, idx_of_some (pushed_index_self hx)]
  · exact ⟨[], rfl, by intro u hu; simp at hu⟩
  · intro d hd; simp at hd
  · intro d hd; simp at hd

theorem LoopInv.snoc {D : Graph} {gray : List String} {node : String} {s0 s : State}
    {done : List String} (hL : LoopInv D gray node s0 done s) (dep : String)
    (h1 : dep ∈ s0.stack → low s node ≤ idx s dep)
    (h2 : D.lookup dep ≠ none → s.index dep ≠ none) :
    LoopInv D gray node s0 (done ++ [dep]) s := by
  refine { hL with low_done := ?_, done_vis := ?_ }
  · intro d hd
    rcases List.mem_append.1 hd with h | h
    · exact hL.low_done d h
    · rw [List.mem_singleton] at h; rw [h]; exact h1
  · intro d hd
    rcases List.mem_append.1 hd with h | h
    · exact hL.done_vis d h
    · rw [List.mem_singleton] at h; rw [h]; exact h2

theorem LoopInv.node_fresh {D : Graph} {gray : List String} {node : String} {s0 s : State}
    {done : List String} (hL : LoopInv D gray node s0 done s) (h0 : Inv D gray s0) :
    s0.index node = none := by
  by_contra hc
  have h1 := hL.ext.index_eq node hc
  rw [hL.idx_node] at h1
  have := h0.idx_lt node _ h1.symm
  omega

theorem LoopInv.lower {D : Graph} {gray : List String} {node : String} {s0 s : State}
    {done : List String} (hL : LoopInv D gray node s0 done s) (h0 : Inv D gray s0)
    (m : Nat) (hm : m ≤ low s node)
    (hw : ∃ z ∈ s.stack, idx s z = m ∧ reach D node z) :
    LoopInv D gray node s0 done { s with lowlink := assign s.lowlink node m } := by
  have hnode : s.index node ≠ none := by rw [hL.idx_node]; simp
  have hfresh := hL.node_fresh h0
  have hlow := low_update_self s node m
  refine ⟨hL.inv.update_low hnode m, ⟨hL.ext.index_eq, ?_, hL.ext.fresh, hL.ext.next_le⟩,
    hL.idx_node, hL.next_lt, ?_, ?_, ?_, ?_, hL.done_vis⟩
  · intro v hv
    have hvn : v ≠ node := by rintro rfl; exact hv hfresh
    show assign s.lowlink node m v = s0.lowlink v
    rw [assign_other _ _ hvn]
    exact hL.ext.lowlink_eq v hv
  · rw [hlow]; exact le_trans hm hL.low_le
  · rw [hlow]; exact hw
  · obtain ⟨T, hstk, hseg⟩ := hL.seg
    refine ⟨T, hstk, ?_⟩
    intro u hu y hy huy
    rw [hlow]
    exact le_trans hm (hseg u hu y hy huy)
  · intro d hd hds
    rw [hlow]
    exact le_trans hm (hL.low_done d hd hds)

theorem subscript_of_ne_none {m : IntMap} {k : String} (h : m k ≠ none) :
    subscript m k = ((m k).getD 0, m) := by
  cases hk : m k with
  | none => exact absurd hk h
  | some v => simp [subscript, hk]

theorem LoopInv.after_call {D : Graph} {gray : List String} {node dep : String}
    {s0 s s1 : State} {done : List String} (hL : LoopInv D gray node s0 done s)
    (h0 : Inv D gray s0) (hdu : s.index dep = none) (he : edge D node dep)
    (hP : Post D (node :: gray) dep s s1) :
    LoopInv D gray node s0 (done ++ [dep])
      { s1 with lowlink := assign s1.lowlink node (min (low s1 node) (low s1 dep)) } := by
  have hnode_s : s.index node ≠ none := by rw [hL.idx_node]; simp
  have hnode1 : s1.index node = some s0.next_index := by
    rw [hP.ext.index_eq node hnode_s]; exact hL.idx_node
  have hnode1' : s1.index node ≠ none := by rw [hnode1]; simp
  have hl : low s1 node = low s node := hP.ext.low_eq hnode_s
  have hfresh := hL.node_fresh h0
  obtain ⟨T, hstk, hseg⟩ := hL.seg
  obtain ⟨Tc, hstk1, hsegc⟩ := hP.seg
  have hidx_stack : ∀ y ∈ s.stack, idx s1 y = idx s y := fun y hy =>
    hP.ext.idx_eq (hL.inv.stack_vis y hy)
  have hS0_sub : ∀ y ∈ s0.stack, y ∈ s.stack := by
    intro y hy; rw [hstk]; simp [hy]
  have he01 := hL.ext.trans hP.ext
  have hlow := low_update_self s1 node (min (low s1 node) (low s1 dep))
  have hLI : LoopInv D gray node s0 done
      { s1 with lowlink := assign s1.lowlink node (min (low s1 node) (low s1 dep)) } := by
    refine ⟨hP.inv.update_low hnode1' _, ⟨he01.index_eq, ?_, he01.fresh, he01.next_le⟩,
      hnode1, lt_of_lt_of_le hL.next_lt hP.ext.next_le, ?_, ?_, ?_, ?_, ?_⟩
    · intro v hv
      have hvn : v ≠ node := by rintro rfl; exact hv hfresh
      show assign s1.lowlink node _ v = s0.lowlink v
      rw [assign_other _ _ hvn]
      exact he01.lowlink_eq v hv
    · rw [hlow]
      have := hL.low_le
      have := min_le_left (low s1 node) (low s1 dep)
      omega
    · rw [hlow]
      by_cases hlt : low s1 dep < low s1 node
      · rw [min_eq_right (le_of_lt hlt)]
        rcases hP.low_case with h1 | ⟨z, hz, hzi, hzr⟩
        · exfalso
          have := hL.low_le
          have := hL.next_lt
          omega
        · exact ⟨z, hz, hzi, (Relation.ReflTransGen.single he).trans hzr⟩
      · rw [min_eq_left (not_lt.1 hlt)]
        obtain ⟨z, hz, hzi, hzr⟩ := hL.low_wit
        refine ⟨z, ?_, ?_, hzr⟩
        · show z ∈ s1.stack
          rw [hstk1]; exact List.mem_append_right _ hz
        · show idx s1 z = low s1 node
          rw [hidx_stack z hz, hzi, hl]
    · refine ⟨Tc ++ T, ?_, ?_⟩
      · show s1.stack = _
        rw [hstk1, hstk]; simp
      · intro u hu y hy huy
        rw [hlow]
        show _ ≤ idx s1 y
        rcases List.mem_append.1 hu with h1 | h1
        · exact le_trans (min_le_right _ _) (hsegc u h1 y (hS0_sub y hy) huy)
        · have := hseg u h1 y hy huy
          rw [hidx_stack y (hS0_sub y hy)]
          have := min_le_left (low s1 node) (low s1 dep)
          omega
    · intro d hd hds
      rw [hlow]
      show _ ≤ idx s1 d
      have := hL.low_done d hd hds
      rw [hidx_stack d (hS0_sub d hds)]
      have := min_le_left (low s1 node) (low s1 dep)
      omega
    · intro d hd hk
      exact hP.ext.vis (hL.done_vis d hd hk)
  refine hLI.snoc dep ?_ ?_
  · intro hmem
    exact absurd hdu (hL.inv.stack_vis dep (hS0_sub dep hmem))
  · intro _
    show s1.index dep ≠ none
    rw [hP.idx_x]; simp

theorem visit_deps_spec {D : Graph} {fuel : Nat} {sc : String → State → Except Fault State}
    (hsc : ∀ gray s x, Inv D gray s → D.lookup x ≠ none → s.index x = none →
      (∀ g ∈ gray, reach D g x) → unvisited D s ≤ fuel →
      ∃ s1, sc x s = .ok s1 ∧ Post D gray x s s1)
    {gray : List String} {node : String} {s0 : State} {deps : List String}
    (h0 : Inv D gray s0) (hk : D.lookup node = some deps)
    (hr : ∀ g ∈ gray, reach D g node) (hfuel : unvisited D s0 ≤ fuel + 1) :
    ∀ (rest done : List String) (s : State), (∀ d ∈ rest, d ∈ deps) →
      LoopInv D gray node s0 done s →
      ∃ s', visit_deps D sc node rest s = .ok s' ∧
        LoopInv D gray node s0 (done ++ rest) s' := by
  intro rest
  induction rest with
  | nil =>
    intro done s _ hL
    exact ⟨s, rfl, by simpa using hL⟩
  | cons dep rest ih =>
    intro done s hsub hL
    have hdep : dep ∈ deps := hsub dep (List.mem_cons_self _ _)
    have hsub' : ∀ d ∈ rest, d ∈ deps := fun d hd => hsub d (List.mem_cons_of_mem _ hd)
    have happ : done ++ dep :: rest = (done ++ [dep]) ++ rest := by simp
    have hnode_s : s.index node ≠ none := by rw [hL.idx_node]; simp
    have hlow_s : s.lowlink node ≠ none := fun h => hnode_s ((hL.inv.low_dom node).1 h)
    rw [happ]
    by_cases hkd : D.lookup dep = none
    · have hstep : visit_deps D sc node (dep :: rest) s = visit_deps D sc node rest s := by
        rw [visit_deps, if_pos hkd]
      rw [hstep]
      refine ih (done ++ [dep]) s hsub' (hL.snoc dep ?_ ?_)
      · intro hmem
        obtain ⟨T, hstk, -⟩ := hL.seg
        have : dep ∈ s.stack := by rw [hstk]; simp [hmem]
        exact absurd hkd (hL.inv.idx_key dep (hL.inv.stack_vis dep this))
      · intro h; exact absurd hkd h
    · by_cases hvd : s.index dep = none
      · have he : edge D node dep := ⟨deps, hk, hdep, hkd⟩
        have hfu : unvisited D s ≤ fuel := by
          have hlt : unvisited D s < unvisited D s0 :=
            unvisited_lt (fun v hv => hL.ext.vis hv) (by simp [hk]) (hL.node_fresh h0) hnode_s
          omega
        obtain ⟨s1, hs1, hP⟩ := hsc (node :: gray) s dep hL.inv hkd hvd (by
          intro g hg
          rcases List.mem_cons.1 hg with h1 | h1
          · rw [h1]; exact Relation.ReflTransGen.single he
          · exact (hr g h1).tail he) hfu
        have hn1 : s1.lowlink node ≠ none := by
          rw [hP.ext.lowlink_eq node hnode_s]; exact hlow_s
        have hd1 : s1.lowlink dep ≠ none := by
          intro h
          have := (hP.inv.low_dom dep).1 h
          rw [hP.idx_x] at this
          simp at this
        have hstep : visit_deps D sc node (dep :: rest) s = visit_deps D sc node rest
            { s1 with lowlink := assign s1.lowlink node (min (low s1 node) (low s1 dep)) } := by
          rw [visit_deps, if_neg hkd, if_pos hvd, hs1]
          simp only [subscript_of_ne_none hn1, subscript_of_ne_none hd1]
          rfl
        rw [hstep]
        exact ih (done ++ [dep]) _ hsub' (hL.after_call h0 hvd he hP)
      · by_cases hos : s.on_stack dep = true
        · have hmem : dep ∈ s.stack := (hL.inv.flag dep).1 hos
          have hstep : visit_deps D sc node (dep :: rest) s = visit_deps D sc node rest
              { s with lowlink := assign s.lowlink node (min (low s node) (idx s dep)) } := by
            rw [visit_deps, if_neg hkd, if_neg hvd, if_pos hos]
            simp only [subscript_of_ne_none hlow_s, subscript_of_ne_none hvd]
            rfl
          rw [hstep]
          have he : edge D node dep := ⟨deps, hk, hdep, hkd⟩
          have hL' := hL.lower h0 (min (low s node) (idx s dep)) (min_le_left _ _) (by
            by_cases hlt : idx s dep < low s node
            · rw [min_eq_right (le_of_lt hlt)]
              exact ⟨dep, hmem, rfl, Relation.ReflTransGen.single he⟩
            · rw [min_eq_left (not_lt.1 hlt)]
              exact hL.low_wit)
          refine ih (done ++ [dep]) _ hsub' (hL'.snoc dep ?_ ?_)
          · intro _
            rw [low_update_self]
            exact min_le_right _ _
          · intro _; exact hvd
        · have hstep : visit_deps D sc node (dep :: rest) s = visit_deps D sc node rest s := by
            rw [visit_deps, if_neg hkd, if_neg hvd, if_neg hos]
          rw [hstep]
          refine ih (done ++ [dep]) s hsub' (hL.snoc dep ?_ ?_)
          · intro hmem
            obtain ⟨T, hstk, -⟩ := hL.seg
            have : dep ∈ s.stack := by rw [hstk]; simp [hmem]
            exact absurd ((hL.inv.flag dep).2 this) hos
          · intro _; exact hvd

/-! ## The recursive call and the outer loop -/

theorem unvisited_pos {D : Graph} {s : State} {x : String} (hk : D.lookup x ≠ none)
    (hx : s.index x = none) : 0 < unvisited D s := by
  unfold unvisited
  apply List.length_pos_of_mem (a := x)
  rw [List.mem_filter]
  exact ⟨(lookup_ne_none_iff D x).1 hk, by simp [hx]⟩

theorem LoopInv.seg_notin {D : Graph} {gray : List String} {node : String} {s0 s : State}
    {done : List String} (hL : LoopInv D gray node s0 done s) {T : List String}
    (hstk : s.stack = T ++ node :: s0.stack) : node ∉ T := by
  have hs := hL.inv.stack_sorted
  rw [hstk, List.pairwise_append] at hs
  intro hmem
  exact lt_irrefl _ (hs.2.2 node hmem node (List.mem_cons_self _ _))

theorem strongconnect_spec (D : Graph) :
    ∀ (fuel : Nat) (gray : List String) (s : State) (x : String), Inv D gray s →
      D.lookup x ≠ none → s.index x = none → (∀ g ∈ gray, reach D g x) →
      unvisited D s ≤ fuel →
      ∃ s1, strongconnect D fuel x s = .ok s1 ∧ Post D gray x s s1 := by
  intro fuel
  induction fuel with
  | zero =>
    intro gray s x _ hk hx _ hfuel
    have := unvisited_pos hk hx
    omega
  | succ fuel ih =>
    intro gray s x h0 hk hx hr hfuel
    obtain ⟨deps, hdeps⟩ := Option.ne_none_iff_exists'.1 hk
    obtain ⟨s2, hs2, hL⟩ := visit_deps_spec (ih) h0 hdeps hr hfuel deps [] (pushed s x)
      (fun d hd => hd) (LoopInv.init h0 hk hx hr)
    rw [List.nil_append] at hL
    have hi2 : s2.index x ≠ none := by rw [hL.idx_node]; simp
    have hl2 : s2.lowlink x ≠ none := fun h => hi2 ((hL.inv.low_dom x).1 h)
    by_cases hne : low s2 x ≠ idx s2 x
    · refine ⟨s2, ?_, hL.leave_nonroot hdeps hne⟩
      rw [strongconnect]
      simp only [hdeps, hs2, subscript_of_ne_none hl2, subscript_of_ne_none hi2]
      have hne' : (s2.lowlink x).getD 0 ≠ (s2.index x).getD 0 := hne
      rw [if_pos hne']
    · obtain ⟨T, hstk, -⟩ := hL.seg
      obtain ⟨g, hpop, hg⟩ := pop_component_spec x s.stack T s2.on_stack [] (hL.seg_notin hstk)
      rw [← hstk] at hpop
      refine ⟨_, ?_, hL.leave_root h0 hdeps (not_not.1 hne) hstk g hg⟩
      rw [strongconnect]
      simp only [hdeps, hs2, subscript_of_ne_none hl2, subscript_of_ne_none hi2]
      have hne' : ¬ (s2.lowlink x).getD 0 ≠ (s2.index x).getD 0 := hne
      rw [if_neg hne']
      simp only [hpop, List.nil_append]

theorem Inv.initial (D : Graph) : Inv D [] initial_state := by
  constructor <;> simp [initial_state]

theorem Inv.stack_nil {D : Graph} {s : State} (h : Inv D [] s) : s.stack = [] := by
  cases hs : s.stack with
  | nil => rfl
  | cons y ys =>
    obtain ⟨g, hg, -⟩ := h.stack_reach y (by rw [hs]; exact List.mem_cons_self _ _)
    simp at hg

theorem visit_nodes_spec (D : Graph) (fuel : Nat) (hfuel : D.length ≤ fuel) :
    ∀ (rest : List String) (s : State), Inv D [] s → (∀ n ∈ rest, D.lookup n ≠ none) →
      ∃ s', visit_nodes D fuel rest s = .ok s' ∧ Inv D [] s' ∧
        (∀ v, s.index v ≠ none → s'.index v ≠ none) ∧ ∀ n ∈ rest, s'.index n ≠ none := by
  intro rest
  induction rest with
  | nil =>
    intro s h _
    exact ⟨s, rfl, h, fun _ hv => hv, by simp⟩
  | cons n rest ih =>
    intro s h hkeys
    have hrest : ∀ m ∈ rest, D.lookup m ≠ none := fun m hm =>
      hkeys m (List.mem_cons_of_mem _ hm)
    by_cases hn : s.index n = none
    · obtain ⟨s1, hs1, hP⟩ := strongconnect_spec D fuel [] s n h
        (hkeys n (List.mem_cons_self _ _)) hn (by simp)
        (le_trans (unvisited_le_length D s) hfuel)
      obtain ⟨s', hs', hi', hmono, hall⟩ := ih s1 hP.inv hrest
      refine ⟨s', ?_, hi', fun v hv => hmono v (hP.ext.vis hv), ?_⟩
      · rw [visit_nodes, if_pos hn, hs1]
        exact hs'
      · intro m hm
        rcases List.mem_cons.1 hm with h1 | h1
        · rw [h1]; apply hmono; rw [hP.idx_x]; simp
        · exact hall m h1
    · obtain ⟨s', hs', hi', hmono, hall⟩ := ih s h hrest
      refine ⟨s', ?_, hi', hmono, ?_⟩
      · rw [visit_nodes, if_neg hn]
        exact hs'
      · intro m hm
        rcases List.mem_cons.1 hm with h1 | h1
        · rw [h1]; exact hmono n hn
        · exact hall m h1

/-- The components returned for a dependency map form its decomposition into strongly
connected components. -/
theorem compute_scc_spec (D : Graph) :
    ∃ comps, compute_strongly_connected_components D = .ok comps ∧
      (∀ c ∈ comps, c ≠ []) ∧ (∀ c ∈ comps, c.Nodup) ∧ comps.Pairwise List.Disjoint ∧
      (∀ v, (∃ c ∈ comps, v ∈ c) ↔ v ∈ keys D) ∧
      (∀ c ∈ comps, ∀ a ∈ c, ∀ b ∈ c, reach D a b) ∧
      (∀ c ∈ comps, ∀ a ∈ c, ∀ b, reach D a b → reach D b a → b ∈ c) := by
  obtain ⟨s, hs, hi, -, hall⟩ := visit_nodes_spec D D.length (le_refl _) (keys D)
    initial_state (Inv.initial D) (fun n hn => (lookup_ne_none_iff D n).2 hn)
  refine ⟨s.components, ?_, hi.comp_ne, hi.comp_nodup, hi.comp_disj, ?_, hi.comp_conn,
    hi.comp_max⟩
  · unfold compute_strongly_connected_components
    have : visit_nodes D D.length (List.map Prod.fst D) initial_state = .ok s := hs
    rw [this]
  · intro v
    constructor
    · rintro ⟨c, hc, hv⟩
      exact (lookup_ne_none_iff D v).1 (hi.idx_key v (hi.comp_vis c hc v hv).1)
    · intro hv
      rcases hi.cover v (hall v hv) with h1 | h1
      · rw [hi.stack_nil] at h1; simp at h1
      · exact h1

/-! ## Ordered containers and sorting -/

theorem str_lt_iff (a b : String) : str_lt a b = true ↔ a < b := by
  rw [String.lt_iff_toList_lt]
  simp [str_lt, String.toList]

theorem str_lt_false_iff (a b : String) : str_lt a b = false ↔ b ≤ a := by
  rw [← not_lt, ← str_lt_iff]
  simp

theorem str_lt_irrefl (a : String) : str_lt a a = false := by
  rw [str_lt_false_iff]

theorem sort_insert_cons_lt {x y : String} (ys : List String) (h : str_lt y x = true) :
    sort_insert x (y :: ys) = y :: sort_insert x ys := by
  simp [sort_insert, h]

theorem sort_insert_cons_ge {x y : String} (ys : List String) (h : str_lt y x = false) :
    sort_insert x (y :: ys) = x :: y :: ys := by
  simp [sort_insert, h]

theorem set_emplace_cons_lt {k y : String} (ys : List String) (h : str_lt k y = true) :
    set_emplace k (y :: ys) = k :: y :: ys := by
  simp [set_emplace, h]

theorem set_emplace_cons_eq (k : String) (ys : List String) :
    set_emplace k (k :: ys) = k :: ys := by
  simp [set_emplace, str_lt_irrefl]

theorem set_emplace_cons_gt {k y : String} (ys : List String) (h1 : str_lt k y = false)
    (h2 : k ≠ y) : set_emplace k (y :: ys) = y :: set_emplace k ys := by
  simp [set_emplace, h1, h2]

theorem map_emplace_cons_lt {V : Type} {k a : String} (v b : V) (ps : List (String × V))
    (h : str_lt k a = true) : map_emplace k v ((a, b) :: ps) = (k, v) :: (a, b) :: ps := by
  simp [map_emplace, h]

theorem map_emplace_cons_eq {V : Type} (k : String) (v b : V) (ps : List (String × V)) :
    map_emplace k v ((k, b) :: ps) = (k, b) :: ps := by
  simp [map_emplace, str_lt_irrefl]

theorem map_emplace_cons_gt {V : Type} {k a : String} (v b : V) (ps : List (String × V))
    (h1 : str_lt k a = false) (h2 : k ≠ a) :
    map_emplace k v ((a, b) :: ps) = (a, b) :: map_emplace k v ps := by
  simp [map_emplace, h1, h2]

theorem sort_insert_perm (x : String) (l : List String) :
    (sort_insert x l).Perm (x :: l) := by
  induction l with
  | nil => simp [sort_insert]
  | cons y ys ih =>
    rcases Bool.eq_false_or_eq_true (str_lt y x) with h | h
    · rw [sort_insert_cons_lt ys h]
      exact (List.Perm.cons y ih).trans (List.Perm.swap x y ys)
    · rw [sort_insert_cons_ge ys h]

theorem sort_strings_perm (l : List String) : (sort_strings l).Perm l := by
  induction l with
  | nil => exact List.Perm.refl _
  | cons x xs ih =>
    exact (sort_insert_perm x (sort_strings xs)).trans (List.Perm.cons x ih)

theorem sort_insert_sorted (x : String) (l : List String)
    (h : l.Pairwise (fun a b => a ≤ b)) : (sort_insert x l).Pairwise (fun a b => a ≤ b) := by
  induction l with
  | nil => simp [sort_insert]
  | cons y ys ih =>
    rw [List.pairwise_cons] at h
    rcases Bool.eq_false_or_eq_true (str_lt y x) with hyx | hyx
    · rw [sort_insert_cons_lt ys hyx, List.pairwise_cons]
      refine ⟨?_, ih h.2⟩
      intro b hb
      rcases List.mem_cons.1 ((sort_insert_perm x ys).mem_iff.1 hb) with h1 | h1
      · rw [h1]; exact le_of_lt ((str_lt_iff y x).1 hyx)
      · exact h.1 b h1
    · rw [sort_insert_cons_ge ys hyx]
      have hxy : x ≤ y := (str_lt_false_iff y x).1 hyx
      rw [List.pairwise_cons]
      refine ⟨?_, List.pairwise_cons.2 h⟩
      intro b hb
      rcases List.mem_cons.1 hb with h1 | h1
      · rw [h1]; exact hxy
      · exact le_trans hxy (h.1 b h1)

theorem sort_strings_sorted (l : List String) :
    (sort_strings l).Pairwise (fun a b => a ≤ b) := by
  induction l with
  | nil => simp [sort_strings]
  | cons x xs ih => exact sort_insert_sorted x _ ih

theorem sort_strings_sorted_lt {l : List String} (h : l.Nodup) :
    (sort_strings l).Pairwise (fun a b => a < b) :=
  List.Sorted.lt_of_le (sort_strings_sorted l) ((sort_strings_perm l).nodup_iff.2 h)

theorem mem_sort_strings {l : List String} {x : String} : x ∈ sort_strings l ↔ x ∈ l :=
  (sort_strings_perm l).mem_iff

theorem sort_strings_ne_nil {l : List String} (h : l ≠ []) : sort_strings l ≠ [] := by
  intro hs
  have := (sort_strings_perm l).length_eq
  rw [hs] at this
  exact h (List.length_eq_zero.1 this.symm)

theorem mem_set_emplace {k x : String} {l : List String} :
    x ∈ set_emplace k l ↔ x = k ∨ x ∈ l := by
  induction l with
  | nil => simp [set_emplace]
  | cons y ys ih =>
    rcases Bool.eq_false_or_eq_true (str_lt k y) with h1 | h1
    · rw [set_emplace_cons_lt ys h1]; simp
    · by_cases h2 : k = y
      · subst h2
        rw [set_emplace_cons_eq]
        simp
      · rw [set_emplace_cons_gt ys h1 h2, List.mem_cons, List.mem_cons, ih]
        tauto

theorem set_emplace_sorted {k : String} {l : List String}
    (h : l.Pairwise (fun a b => a < b)) : (set_emplace k l).Pairwise (fun a b => a < b) := by
  induction l with
  | nil => simp [set_emplace]
  | cons y ys ih =>
    have h' := List.pairwise_cons.1 h
    rcases Bool.eq_false_or_eq_true (str_lt k y) with h1 | h1
    · rw [set_emplace_cons_lt ys h1]
      have hky : k < y := (str_lt_iff k y).1 h1
      rw [List.pairwise_cons]
      refine ⟨?_, h⟩
      intro b hb
      rcases List.mem_cons.1 hb with h2 | h2
      · rw [h2]; exact hky
      · exact lt_trans hky (h'.1 b h2)
    · by_cases h2 : k = y
      · subst h2
        rw [set_emplace_cons_eq]
        exact h
      · rw [set_emplace_cons_gt ys h1 h2]
        have hyk : y < k :=
          lt_of_le_of_ne ((str_lt_false_iff k y).1 h1) (fun h => h2 h.symm)
        rw [List.pairwise_cons]
        refine ⟨?_, ih h'.2⟩
        intro b hb
        rcases mem_set_emplace.1 hb with h3 | h3
        · rw [h3]; exact hyk
        · exact h'.1 b h3

theorem map_emplace_keys {V : Type} (k : String) (v : V) (m : List (String × V)) :
    (map_emplace k v m).map Prod.fst = set_emplace k (m.map Prod.fst) := by
  induction m with
  | nil => simp [map_emplace, set_emplace]
  | cons p ps ih =>
    obtain ⟨a, b⟩ := p
    rcases Bool.eq_false_or_eq_true (str_lt k a) with h1 | h1
    · rw [map_emplace_cons_lt v b ps h1]
      simp only [List.map_cons]
      rw [set_emplace_cons_lt _ h1]
    · by_cases h2 : k = a
      · subst h2
        rw [map_emplace_cons_eq]
        simp only [List.map_cons]
        rw [set_emplace_cons_eq]
      · rw [map_emplace_cons_gt v b ps h1 h2]
        simp only [List.map_cons]
        rw [set_emplace_cons_gt _ h1 h2, ih]

theorem map_emplace_perm {V : Type} {k : String} (v : V) {m : List (String × V)}
    (h : k ∉ m.map Prod.fst) : (map_emplace k v m).Perm ((k, v) :: m) := by
  induction m with
  | nil => simp [map_emplace]
  | cons p ps ih =>
    obtain ⟨a, b⟩ := p
    simp only [List.map_cons, List.mem_cons, not_or] at h
    rcases Bool.eq_false_or_eq_true (str_lt k a) with h1 | h1
    · rw [map_emplace_cons_lt v b ps h1]
    · rw [map_emplace_cons_gt v b ps h1 h.1]
      exact (List.Perm.cons (a, b) (ih h.2)).trans (List.Perm.swap _ _ _)

theorem mem_of_lookup {V : Type} {m : List (String × V)} {k : String} {v : V}
    (h : m.lookup k = some v) : (k, v) ∈ m := by
  induction m with
  | nil => simp at h
  | cons p ps ih =>
    obtain ⟨a, b⟩ := p
    by_cases hk : k = a
    · subst hk
      simp only [List.lookup, beq_self_eq_true, Option.some.injEq] at h
      rw [h]; exact List.mem_cons_self _ _
    · have hk' : (k == a) = false := by simpa using hk
      simp only [List.lookup, hk'] at h
      exact List.mem_cons_of_mem _ (ih h)

theorem lookup_of_mem {V : Type} {m : List (String × V)} {k : String} {v : V}
    (hnd : (m.map Prod.fst).Nodup) (h : (k, v) ∈ m) : m.lookup k = some v := by
  induction m with
  | nil => simp at h
  | cons p ps ih =>
    obtain ⟨a, b⟩ := p
    simp only [List.map_cons, List.nodup_cons] at hnd
    rcases List.mem_cons.1 h with h1 | h1
    · simp only [Prod.mk.injEq] at h1
      simp [List.lookup, h1.1, h1.2]
    · have hk : k ≠ a := by
        rintro rfl
        exact hnd.1 (List.mem_map.2 ⟨(k, v), h1, rfl⟩)
      have hk' : (k == a) = false := by simpa using hk
      simp only [List.lookup, hk']
      exact ih hnd.2 h1

theorem sorted_lt_nodup {l : List String} (h : l.Pairwise (fun a b => a < b)) : l.Nodup :=
  h.imp (fun hab => ne_of_lt hab)

/-! ## The tables of the planner -/

theorem record_owner_spec (owner : String) :
    ∀ (ms : List String) (m : List (String × String)), ms.Nodup →
      (∀ x ∈ ms, x ∉ m.map Prod.fst) → (m.map Prod.fst).Pairwise (fun a b => a < b) →
      ((record_owner owner ms m).map Prod.fst).Pairwise (fun a b => a < b) ∧
      ∀ ns o, (ns, o) ∈ record_owner owner ms m ↔ (ns, o) ∈ m ∨ (ns ∈ ms ∧ o = owner) := by
  intro ms
  induction ms with
  | nil =>
    intro m _ _ hs
    exact ⟨hs, by simp [record_owner]⟩
  | cons x xs ih =>
    intro m hnd hnew hs
    rw [List.nodup_cons] at hnd
    have hx : x ∉ m.map Prod.fst := hnew x (List.mem_cons_self _ _)
    have hs' : ((map_emplace x owner m).map Prod.fst).Pairwise (fun a b => a < b) := by
      rw [map_emplace_keys]; exact set_emplace_sorted hs
    have hnew' : ∀ y ∈ xs, y ∉ (map_emplace x owner m).map Prod.fst := by
      intro y hy
      rw [map_emplace_keys, mem_set_emplace, not_or]
      refine ⟨?_, hnew y (List.mem_cons_of_mem _ hy)⟩
      rintro rfl
      exact hnd.1 hy
    obtain ⟨h1, h2⟩ := ih (map_emplace x owner m) hnd.2 hnew' hs'
    refine ⟨h1, ?_⟩
    intro ns o
    show (ns, o) ∈ record_owner owner xs (map_emplace x owner m) ↔ _
    rw [h2, (map_emplace_perm owner hx).mem_iff, List.mem_cons, List.mem_cons, Prod.mk.injEq]
    tauto

theorem head_mem_of_head? {l : List String} {o : String} (h : l.head? = some o) : o ∈ l := by
  cases l with
  | nil => simp at h
  | cons a as =>
    simp only [List.head?_cons, Option.some.injEq] at h
    rw [h]; exact List.mem_cons_self _ _

theorem TablesInv.key_mem {pre : List (List String)} {t : Tables} (h : TablesInv pre t)
    {k : String} (hk : k ∈ t.members_by_owner.map Prod.fst) : ∃ c ∈ pre, k ∈ c := by
  obtain ⟨p, hp, rfl⟩ := List.mem_map.1 hk
  have h1 : p.2 ∈ pre.map sort_strings :=
    h.mbo_perm.mem_iff.1 (List.mem_map.2 ⟨p, hp, rfl⟩)
  obtain ⟨c, hc, hcs⟩ := List.mem_map.1 h1
  refine ⟨c, hc, ?_⟩
  have := head_mem_of_head? (h.mbo_head p hp)
  rw [← hcs] at this
  exact mem_sort_strings.1 this

theorem TablesInv.owner_key_mem {pre : List (List String)} {t : Tables} (h : TablesInv pre t)
    {k : String} (hk : k ∈ t.owner_of.map Prod.fst) : ∃ c ∈ pre, k ∈ c := by
  obtain ⟨p, hp, rfl⟩ := List.mem_map.1 hk
  obtain ⟨c, hc, hm, -⟩ := (h.oo_mem p.1 p.2).1 hp
  exact ⟨c, hc, hm⟩

theorem TablesInv.empty : TablesInv [] { members_by_owner := [], owner_of := [] } := by
  constructor <;> simp

theorem build_tables_spec :
    ∀ (rest pre : List (List String)) (t : Tables), TablesInv pre t →
      (∀ c ∈ pre ++ rest, c ≠ []) → (∀ c ∈ pre ++ rest, c.Nodup) →
      (pre ++ rest).Pairwise List.Disjoint →
      ∃ t', build_tables rest t = .ok t' ∧ TablesInv (pre ++ rest) t' := by
  intro rest
  induction rest with
  | nil =>
    intro pre t h _ _ _
    exact ⟨t, rfl, by simpa using h⟩
  | cons c rest ih =>
    intro pre t h hne hnd hdisj
    have happ : pre ++ c :: rest = (pre ++ [c]) ++ rest := by simp
    have hc_mem : c ∈ pre ++ c :: rest := by simp
    have hc_ne := hne c hc_mem
    have hc_nd := hnd c hc_mem
    have hc_disj : ∀ c' ∈ pre, List.Disjoint c' c := by
      intro c' hc'
      exact (List.pairwise_append.1 hdisj).2.2 c' hc' c (List.mem_cons_self _ _)
    cases hs : sort_strings c with
    | nil => exact absurd hs (sort_strings_ne_nil hc_ne)
    | cons owner tail =>
      have hmem : ∀ x, x ∈ owner :: tail ↔ x ∈ c := by
        intro x; rw [← hs]; exact mem_sort_strings
      have howner : owner ∈ c := (hmem owner).1 (List.mem_cons_self _ _)
      have hkey : owner ∉ t.members_by_owner.map Prod.fst := by
        intro hk
        obtain ⟨c', hc', hk'⟩ := h.key_mem hk
        exact hc_disj c' hc' hk' howner
      have hnd' : (owner :: tail).Nodup := by
        rw [← hs]; exact (sort_strings_perm c).nodup_iff.2 hc_nd
      have hnew : ∀ x ∈ owner :: tail, x ∉ t.owner_of.map Prod.fst := by
        intro x hx hk
        obtain ⟨c', hc', hk'⟩ := h.owner_key_mem hk
        exact hc_disj c' hc' hk' ((hmem x).1 hx)
      obtain ⟨ho1, ho2⟩ := record_owner_spec owner (owner :: tail) t.owner_of hnd' hnew h.oo_sorted
      have hperm := map_emplace_perm (owner :: tail) hkey
      have hinv : TablesInv (pre ++ [c])
          { members_by_owner := map_emplace owner (owner :: tail) t.members_by_owner
            owner_of := record_owner owner (owner :: tail) t.owner_of } := by
        refine ⟨?_, ho1, ?_, ?_, ?_⟩
        · show ((map_emplace owner (owner :: tail) t.members_by_owner).map Prod.fst).Pairwise _
          rw [map_emplace_keys]; exact set_emplace_sorted h.mbo_sorted
        · show ((map_emplace owner (owner :: tail) t.members_by_owner).map Prod.snd).Perm _
          refine (hperm.map Prod.snd).trans ?_
          rw [List.map_append, List.map_cons, List.map_cons, List.map_nil, hs]
          exact (List.Perm.cons _ h.mbo_perm).trans (List.perm_append_singleton _ _).symm
        · intro p hp
          rcases List.mem_cons.1 (hperm.mem_iff.1 hp) with h1 | h1
          · rw [h1]; rfl
          · exact h.mbo_head p h1
        · intro ns o
          show (ns, o) ∈ record_owner owner (owner :: tail) t.owner_of ↔ _
          rw [ho2, h.oo_mem, hmem]
          constructor
          · rintro (⟨c', hc', h1, h2⟩ | ⟨h1, h2⟩)
            · exact ⟨c', List.mem_append_left _ hc', h1, h2⟩
            · exact ⟨c, by simp, h1, by rw [hs, h2]; rfl⟩
          · rintro ⟨c', hc', h1, h2⟩
            rcases List.mem_append.1 hc' with h3 | h3
            · exact Or.inl ⟨c', h3, h1, h2⟩
            · rw [List.mem_singleton] at h3
              subst h3
              rw [hs] at h2
              simp only [List.head?_cons, Option.some.injEq] at h2
              exact Or.inr ⟨h1, h2.symm⟩
      rw [happ] at hne hnd hdisj ⊢
      obtain ⟨t', ht', hi'⟩ := ih (pre ++ [c]) _ hinv hne hnd hdisj
      refine ⟨t', ?_, hi'⟩
      rw [build_tables, hs]
      exact ht'

/-! ## The writer calls of the planner -/

theorem add_external_spec (oo : List (String × String)) (owner : String) :
    ∀ (deps ext : List String), ext.Pairwise (fun a b => a < b) →
      (add_external oo owner deps ext).Pairwise (fun a b => a < b) ∧
      ∀ x, x ∈ add_external oo owner deps ext ↔
        x ∈ ext ∨ (x ∈ deps ∧ oo.lookup x ≠ some owner) := by
  intro deps
  induction deps with
  | nil =>
    intro ext h
    exact ⟨h, by simp [add_external]⟩
  | cons d ds ih =>
    intro ext h
    by_cases hd : oo.lookup d = some owner
    · have hstep : add_external oo owner (d :: ds) ext = add_external oo owner ds ext := by
        rw [add_external, if_pos hd]
      rw [hstep]
      refine ⟨(ih ext h).1, ?_⟩
      intro x
      rw [(ih ext h).2 x, List.mem_cons]
      constructor
      · rintro (h1 | ⟨h1, h2⟩)
        · exact Or.inl h1
        · exact Or.inr ⟨Or.inr h1, h2⟩
      · rintro (h1 | ⟨h1 | h1, h2⟩)
        · exact Or.inl h1
        · rw [h1] at h2; exact absurd hd h2
        · exact Or.inr ⟨h1, h2⟩
    · have hstep : add_external oo owner (d :: ds) ext =
          add_external oo owner ds (set_emplace d ext) := by
        rw [add_external, if_neg hd]
      rw [hstep]
      obtain ⟨h1, h2⟩ := ih (set_emplace d ext) (set_emplace_sorted h)
      refine ⟨h1, ?_⟩
      intro x
      rw [h2 x, mem_set_emplace, List.mem_cons]
      constructor
      · rintro ((h3 | h3) | ⟨h3, h4⟩)
        · exact Or.inr ⟨Or.inl h3, by rw [h3]; exact hd⟩
        · exact Or.inl h3
        · exact Or.inr ⟨Or.inr h3, h4⟩
      · rintro (h3 | ⟨h3 | h3, h4⟩)
        · exact Or.inl (Or.inr h3)
        · exact Or.inl (Or.inl h3)
        · exact Or.inr ⟨h3, h4⟩

theorem external_of_spec (D : Graph) (oo : List (String × String)) (owner : String) :
    ∀ (members ext : List String), ext.Pairwise (fun a b => a < b) →
      (external_of D oo owner members ext).Pairwise (fun a b => a < b) ∧
      ∀ x, x ∈ external_of D oo owner members ext ↔
        x ∈ ext ∨ ∃ ns ∈ members, x ∈ (D.lookup ns).getD [] ∧ oo.lookup x ≠ some owner := by
  intro members
  induction members with
  | nil =>
    intro ext h
    exact ⟨h, by simp [external_of]⟩
  | cons m ms ih =>
    intro ext h
    obtain ⟨h1, h2⟩ := add_external_spec oo owner ((D.lookup m).getD []) ext h
    obtain ⟨h3, h4⟩ := ih _ h1
    refine ⟨h3, ?_⟩
    intro x
    show x ∈ external_of D oo owner ms _ ↔ _
    rw [h4 x, h2 x]
    constructor
    · rintro ((h5 | h5) | ⟨ns, hns, h5⟩)
      · exact Or.inl h5
      · exact Or.inr ⟨m, List.mem_cons_self _ _, h5⟩
      · exact Or.inr ⟨ns, List.mem_cons_of_mem _ hns, h5⟩
    · rintro (h5 | ⟨ns, hns, h5⟩)
      · exact Or.inl (Or.inl h5)
      · rcases List.mem_cons.1 hns with h6 | h6
        · rw [h6] at h5; exact Or.inl (Or.inr h5)
        · exact Or.inr ⟨ns, h6, h5⟩

theorem collect_external_eq (D : Graph) (oo : List (String × String)) (owner : String) :
    ∀ (members ext : List String), (∀ ns ∈ members, D.lookup ns ≠ none) →
      collect_external D oo owner members ext = .ok (external_of D oo owner members ext) := by
  intro members
  induction members with
  | nil => intro ext _; rfl
  | cons m ms ih =>
    intro ext hk
    obtain ⟨deps, hdeps⟩ := Option.ne_none_iff_exists'.1 (hk m (List.mem_cons_self _ _))
    rw [collect_external, hdeps, external_of, hdeps]
    exact ih _ (fun ns hns => hk ns (List.mem_cons_of_mem _ hns))

theorem emit_units_eq (D : Graph) (oo : List (String × String)) :
    ∀ (mbo : List (String × List String)),
      (∀ p ∈ mbo, ∀ ns ∈ p.2, D.lookup ns ≠ none) → (∀ p ∈ mbo, p.1 ∈ p.2) →
      emit_units D oo mbo = .ok (mbo.flatMap (calls_of D oo)) := by
  intro mbo
  induction mbo with
  | nil => intro _ _; rfl
  | cons p ps ih =>
    intro hk ho
    obtain ⟨o, ms⟩ := p
    have hrest := ih (fun q hq => hk q (List.mem_cons_of_mem _ hq))
      (fun q hq => ho q (List.mem_cons_of_mem _ hq))
    have hkm : ∀ ns ∈ ms, D.lookup ns ≠ none := hk (o, ms) (List.mem_cons_self _ _)
    have hom : o ∈ ms := ho (o, ms) (List.mem_cons_self _ _)
    by_cases hlen : ms.length = 1
    · obtain ⟨deps, hdeps⟩ := Option.ne_none_iff_exists'.1 (hkm o hom)
      rw [emit_units, if_pos hlen, hdeps, hrest]
      simp [List.flatMap_cons, calls_of, hlen, hdeps]
    · rw [emit_units, if_neg hlen, collect_external_eq D oo o ms [] hkm, hrest]
      simp [List.flatMap_cons, calls_of, hlen]

theorem TablesInv.entry {comps : List (List String)} {t : Tables} (h : TablesInv comps t)
    {o : String} {ms : List String} (hp : (o, ms) ∈ t.members_by_owner) :
    ∃ c ∈ comps, ms = sort_strings c ∧ ∃ tail, ms = o :: tail := by
  have h1 : ms ∈ comps.map sort_strings :=
    h.mbo_perm.mem_iff.1 (List.mem_map.2 ⟨(o, ms), hp, rfl⟩)
  obtain ⟨c, hc, hcs⟩ := List.mem_map.1 h1
  refine ⟨c, hc, hcs.symm, ?_⟩
  have h2 := h.mbo_head (o, ms) hp
  cases ms with
  | nil => simp at h2
  | cons a as =>
    simp only [List.head?_cons, Option.some.injEq] at h2
    exact ⟨as, by rw [h2]⟩

theorem TablesInv.entry_of_comp {comps : List (List String)} {t : Tables}
    (h : TablesInv comps t) {c : List String} (hc : c ∈ comps) :
    ∃ o, (o, sort_strings c) ∈ t.members_by_owner := by
  have h1 : sort_strings c ∈ t.members_by_owner.map Prod.snd :=
    h.mbo_perm.mem_iff.2 (List.mem_map.2 ⟨c, hc, rfl⟩)
  obtain ⟨p, hp, hps⟩ := List.mem_map.1 h1
  exact ⟨p.1, by rw [← hps]; exact hp⟩

theorem TablesInv.lookup_owner {comps : List (List String)} {t : Tables}
    (h : TablesInv comps t) {ns o : String} :
    t.owner_of.lookup ns = some o ↔
      ∃ c ∈ comps, ns ∈ c ∧ (sort_strings c).head? = some o := by
  rw [← h.oo_mem]
  exact ⟨mem_of_lookup, lookup_of_mem (sorted_lt_nodup h.oo_sorted)⟩

/-- The planner never faults; its tables satisfy the table invariant for the components
found, and its writer calls are those of the entries of `members_by_owner` in order. -/
theorem plan_modules_spec (D : Graph) :
    ∃ comps t, compute_strongly_connected_components D = .ok comps ∧
      build_tables comps { members_by_owner := [], owner_of := [] } = .ok t ∧
      TablesInv comps t ∧
      plan_modules D = .ok (t, t.members_by_owner.flatMap (calls_of D t.owner_of)) ∧
      (∀ c ∈ comps, c ≠ []) ∧ (∀ c ∈ comps, c.Nodup) ∧ comps.Pairwise List.Disjoint ∧
      (∀ v, (∃ c ∈ comps, v ∈ c) ↔ v ∈ keys D) ∧
      (∀ c ∈ comps, ∀ a ∈ c, ∀ b ∈ c, reach D a b) ∧
      (∀ c ∈ comps, ∀ a ∈ c, ∀ b, reach D a b → reach D b a → b ∈ c) := by
  obtain ⟨comps, hc, hne, hnd, hdisj, hcover, hconn, hmax⟩ := compute_scc_spec D
  obtain ⟨t, ht, hinv⟩ := build_tables_spec comps [] _ TablesInv.empty
    (by simpa using hne) (by simpa using hnd) (by simpa using hdisj)
  rw [List.nil_append] at hinv
  refine ⟨comps, t, hc, ht, hinv, ?_, hne, hnd, hdisj, hcover, hconn, hmax⟩
  have hemit := emit_units_eq D t.owner_of t.members_by_owner (by
    rintro ⟨o, ms⟩ hp ns hns
    obtain ⟨c, hcm, hms, -⟩ := hinv.entry hp
    rw [lookup_ne_none_iff]
    apply (hcover ns).1
    refine ⟨c, hcm, ?_⟩
    have : ns ∈ sort_strings c := by rw [← hms]; exact hns
    exact mem_sort_strings.1 this) (by
    rintro ⟨o, ms⟩ hp
    obtain ⟨-, -, -, tail, htail⟩ := hinv.entry hp
    show o ∈ ms
    rw [htail]; exact List.mem_cons_self _ _)
  unfold plan_modules
  rw [hc]
  simp only [ht, hemit]

theorem mem_reexport_calls {owner : String} {ms : List String} {u : WriteCall} :
    u ∈ reexport_calls owner ms ↔ ∃ ns ∈ ms, ns ≠ owner ∧ u = WriteCall.reexport_ixx ns owner := by
  induction ms with
  | nil => simp [reexport_calls]
  | cons m ms ih =>
    by_cases h : m = owner
    · have : reexport_calls owner (m :: ms) = reexport_calls owner ms := by
        simp [reexport_calls, h]
      rw [this, ih]
      constructor
      · rintro ⟨ns, h1, h2, h3⟩
        exact ⟨ns, List.mem_cons_of_mem _ h1, h2, h3⟩
      · rintro ⟨ns, h1, h2, h3⟩
        rcases List.mem_cons.1 h1 with h4 | h4
        · exact absurd (h4.trans h) h2
        · exact ⟨ns, h4, h2, h3⟩
    · have : reexport_calls owner (m :: ms) =
          WriteCall.reexport_ixx m owner :: reexport_calls owner ms := by
        simp [reexport_calls, h]
      rw [this, List.mem_cons, ih]
      constructor
      · rintro (h1 | ⟨ns, h1, h2, h3⟩)
        · exact ⟨m, List.mem_cons_self _ _, h, h1⟩
        · exact ⟨ns, List.mem_cons_of_mem _ h1, h2, h3⟩
      · rintro ⟨ns, h1, h2, h3⟩
        rcases List.mem_cons.1 h1 with h4 | h4
        · rw [h4] at h3; exact Or.inl h3
        · exact Or.inr ⟨ns, h4, h2, h3⟩

theorem mem_calls_of {D : Graph} {oo : List (String × String)} {o : String}
    {ms : List String} {u : WriteCall} :
    u ∈ calls_of D oo (o, ms) ↔
      (ms.length = 1 ∧ u = WriteCall.namespace_ixx o ((D.lookup o).getD [])) ∨
      (ms.length ≠ 1 ∧ (u = WriteCall.scc_owner_ixx o ms (external_of D oo o ms []) ∨
        ∃ ns ∈ ms, ns ≠ o ∧ u = WriteCall.reexport_ixx ns o)) := by
  by_cases hlen : ms.length = 1
  · simp [calls_of, hlen]
  · simp only [calls_of, hlen, if_false, List.mem_cons, mem_reexport_calls, false_and,
      false_or, ne_eq, not_false_eq_true, true_and]

theorem TablesInv.lookup_owner_entry {comps : List (List String)} {t : Tables}
    (h : TablesInv comps t) (hdisj : comps.Pairwise List.Disjoint)
    {o : String} {ms : List String} (hp : (o, ms) ∈ t.members_by_owner) (M : String) :
    t.owner_of.lookup M = some o ↔ M ∈ ms := by
  obtain ⟨c, hc, hms, tail, htail⟩ := h.entry hp
  have hhead : (sort_strings c).head? = some o := by rw [← hms, htail]; rfl
  have hoc : o ∈ c := mem_sort_strings.1 (head_mem_of_head? hhead)
  rw [h.lookup_owner]
  constructor
  · rintro ⟨c', hc', hM, hh⟩
    have hoc' : o ∈ c' := mem_sort_strings.1 (head_mem_of_head? hh)
    have hcc : c' = c := by
      by_contra hne
      exact hdisj.forall (fun _ _ hd => hd.symm) hc' hc hne hoc' hoc
    rw [hms, mem_sort_strings, ← hcc]
    exact hM
  · intro hM
    rw [hms, mem_sort_strings] at hM
    exact ⟨c, hc, hM, hhead⟩

theorem entry_imports_ok {D : Graph} {comps : List (List String)} {t : Tables}
    (hD : ∀ N deps, D.lookup N = some deps → deps.Pairwise (fun a b => a < b) ∧ N ∉ deps)
    (h : TablesInv comps t) (hdisj : comps.Pairwise List.Disjoint)
    (hkeys : ∀ c ∈ comps, ∀ v ∈ c, D.lookup v ≠ none)
    {o : String} {ms : List String} (hp : (o, ms) ∈ t.members_by_owner) :
    external_imports_ok D t.owner_of o ms
      (if ms.length = 1 then (D.lookup o).getD [] else external_of D t.owner_of o ms []) := by
  obtain ⟨c, hc, hms, tail, htail⟩ := h.entry hp
  have hlook := h.lookup_owner_entry hdisj hp
  have hmkey : ∀ N ∈ ms, D.lookup N ≠ none := by
    intro N hN
    rw [hms] at hN
    exact hkeys c hc N (mem_sort_strings.1 hN)
  have hsecond : ∀ (imports : List String),
      (∀ M, M ∈ imports ↔
        (∃ N ∈ ms, ∃ deps, D.lookup N = some deps ∧ M ∈ deps) ∧ t.owner_of.lookup M ≠ some o) →
      (∀ M, M ∈ imports ↔ (∃ N ∈ ms, ∃ deps, D.lookup N = some deps ∧ M ∈ deps) ∧ M ∉ ms) := by
    intro imports hi M
    rw [hi M, ne_eq, hlook M]
  by_cases hlen : ms.length = 1
  · rw [if_pos hlen]
    have hms1 : ms = [o] := by
      rw [htail] at hlen ⊢
      simp only [List.length_cons, add_left_eq_self, List.length_eq_zero] at hlen
      rw [hlen]
    obtain ⟨deps, hdeps⟩ := Option.ne_none_iff_exists'.1
      (hmkey o (by rw [hms1]; exact List.mem_singleton_self _))
    have hfirst : ∀ M, M ∈ (D.lookup o).getD [] ↔
        (∃ N ∈ ms, ∃ deps, D.lookup N = some deps ∧ M ∈ deps) ∧
          t.owner_of.lookup M ≠ some o := by
      intro M
      rw [hdeps, ne_eq, hlook M, hms1]
      simp only [Option.getD_some, List.mem_singleton, exists_eq_left, hdeps,
        Option.some.injEq]
      constructor
      · intro hM
        refine ⟨⟨deps, rfl, hM⟩, ?_⟩
        rintro rfl
        exact (hD M deps hdeps).2 hM
      · rintro ⟨⟨deps', h1, h2⟩, -⟩
        rw [h1]; exact h2
    refine ⟨?_, hfirst, hsecond _ hfirst⟩
    rw [hdeps]
    exact (hD o deps hdeps).1
  · rw [if_neg hlen]
    obtain ⟨h1, h2⟩ := external_of_spec D t.owner_of o ms [] List.Pairwise.nil
    have hfirst : ∀ M, M ∈ external_of D t.owner_of o ms [] ↔
        (∃ N ∈ ms, ∃ deps, D.lookup N = some deps ∧ M ∈ deps) ∧
          t.owner_of.lookup M ≠ some o := by
      intro M
      rw [h2 M]
      constructor
      · rintro (h3 | ⟨N, hN, h3, h4⟩)
        · simp at h3
        · obtain ⟨deps, hdeps⟩ := Option.ne_none_iff_exists'.1 (hmkey N hN)
          rw [hdeps] at h3
          exact ⟨⟨N, hN, deps, hdeps, h3⟩, h4⟩
      · rintro ⟨⟨N, hN, deps, hdeps, h3⟩, h4⟩
        exact Or.inr ⟨N, hN, by rw [hdeps]; exact h3, h4⟩
    exact ⟨h1, hfirst, hsecond _ hfirst⟩

/-! ## The import relation between the units -/

theorem entry_same {comps : List (List String)} {t : Tables} (h : TablesInv comps t)
    (hdisj : comps.Pairwise List.Disjoint) {o o' x : String} {ms ms' : List String}
    (hp : (o, ms) ∈ t.members_by_owner) (hp' : (o', ms') ∈ t.members_by_owner)
    (hx : x ∈ ms) (hx' : x ∈ ms') : o = o' ∧ ms = ms' := by
  obtain ⟨c, hc, hms, tail, htail⟩ := h.entry hp
  obtain ⟨c', hc', hms', tail', htail'⟩ := h.entry hp'
  have hcc : c = c' := by
    by_contra hne
    rw [hms, mem_sort_strings] at hx
    rw [hms', mem_sort_strings] at hx'
    exact hdisj.forall (fun _ _ hd => hd.symm) hc hc' hne hx hx'
  have hmm : ms = ms' := by rw [hms, hms', hcc]
  refine ⟨?_, hmm⟩
  rw [htail, htail'] at hmm
  exact (List.cons.inj hmm).1

theorem entry_scc {D : Graph} {comps : List (List String)} {t : Tables}
    (h : TablesInv comps t) (hS : SccDecomposition D comps) {o : String} {ms : List String}
    (hp : (o, ms) ∈ t.members_by_owner) :
    o ∈ ms ∧ (∀ a ∈ ms, D.lookup a ≠ none) ∧ (∀ a ∈ ms, ∀ b ∈ ms, reach D a b) ∧
      ∀ a ∈ ms, ∀ b, reach D a b → reach D b a → b ∈ ms := by
  obtain ⟨c, hc, hms, tail, htail⟩ := h.entry hp
  have hm : ∀ x, x ∈ ms ↔ x ∈ c := by
    intro x; rw [hms]; exact mem_sort_strings
  refine ⟨by rw [htail]; exact List.mem_cons_self _ _, ?_, ?_, ?_⟩
  · intro a ha
    exact (lookup_ne_none_iff D a).2 ((hS.cover a).1 ⟨c, hc, (hm a).1 ha⟩)
  · intro a ha b hb
    exact hS.conn c hc a ((hm a).1 ha) b ((hm b).1 hb)
  · intro a ha b hab hba
    exact (hm b).2 (hS.max c hc a ((hm a).1 ha) b hab hba)

theorem imports_rel_cases {D : Graph} {oo : List (String × String)}
    {mbo : List (String × List String)} {A B : String}
    (h : imports_rel (mbo.flatMap (calls_of D oo)) A B) :
    ∃ o ms, (o, ms) ∈ mbo ∧
      ((ms.length = 1 ∧ A = o ∧ B ∈ (D.lookup o).getD []) ∨
       (ms.length ≠ 1 ∧ A = o ∧ B ∈ external_of D oo o ms []) ∨
       (ms.length ≠ 1 ∧ A ∈ ms ∧ A ≠ o ∧ B = o)) := by
  obtain ⟨u, hu, hname, hB⟩ := h
  obtain ⟨⟨o, ms⟩, hp, hmem⟩ := List.mem_flatMap.1 hu
  refine ⟨o, ms, hp, ?_⟩
  rw [mem_calls_of] at hmem
  rcases hmem with ⟨hlen, rfl⟩ | ⟨hlen, rfl | ⟨ns, hns, hne, rfl⟩⟩
  · exact Or.inl ⟨hlen, hname.symm, hB⟩
  · exact Or.inr (Or.inl ⟨hlen, hname.symm, hB⟩)
  · refine Or.inr (Or.inr ⟨hlen, ?_, ?_, ?_⟩)
    · rw [← hname]; exact hns
    · rw [← hname]; exact hne
    · simpa [WriteCall.unit_imports] using hB

theorem imports_rel_reach {D : Graph} {comps : List (List String)} {t : Tables}
    (h : TablesInv comps t) (hS : SccDecomposition D comps) {A B : String}
    (hi : imports_rel (t.members_by_owner.flatMap (calls_of D t.owner_of)) A B) :
    D.lookup A ≠ none ∧ (D.lookup B ≠ none → reach D A B) := by
  obtain ⟨o, ms, hp, hcase⟩ := imports_rel_cases hi
  obtain ⟨ho, hkey, hconn, -⟩ := entry_scc h hS hp
  rcases hcase with ⟨-, rfl, hB⟩ | ⟨-, rfl, hB⟩ | ⟨-, hA, -, rfl⟩
  · refine ⟨hkey A ho, fun hBk => ?_⟩
    obtain ⟨deps, hdeps⟩ := Option.ne_none_iff_exists'.1 (hkey A ho)
    rw [hdeps] at hB
    exact Relation.ReflTransGen.single ⟨deps, hdeps, hB, hBk⟩
  · refine ⟨hkey A ho, fun hBk => ?_⟩
    rcases ((external_of_spec D t.owner_of A ms [] List.Pairwise.nil).2 B).1 hB with
      h1 | ⟨N, hN, h1, -⟩
    · simp at h1
    · obtain ⟨deps, hdeps⟩ := Option.ne_none_iff_exists'.1 (hkey N hN)
      rw [hdeps] at h1
      exact (hconn A ho N hN).tail ⟨deps, hdeps, h1, hBk⟩
  · exact ⟨hkey A hA, fun _ => hconn A hA B ho⟩

theorem imports_chain_reach {D : Graph} {comps : List (List String)} {t : Tables}
    (h : TablesInv comps t) (hS : SccDecomposition D comps) {X Y : String}
    (hc : Relation.ReflTransGen
      (imports_rel (t.members_by_owner.flatMap (calls_of D t.owner_of))) X Y)
    (hY : D.lookup Y ≠ none) : D.lookup X ≠ none ∧ reach D X Y := by
  refine Relation.ReflTransGen.head_induction_on hc ?_ ?_
  · exact ⟨hY, Relation.ReflTransGen.refl⟩
  · intro a c hac _ ih
    have := imports_rel_reach h hS hac
    exact ⟨this.1, (this.2 ih.1).trans ih.2⟩

theorem imports_rel_stub {D : Graph} {comps : List (List String)} {t : Tables}
    (hself : ∀ N deps, D.lookup N = some deps → N ∉ deps)
    (h : TablesInv comps t) (hS : SccDecomposition D comps) {A B : String}
    (hi : imports_rel (t.members_by_owner.flatMap (calls_of D t.owner_of)) A B)
    (hBA : reach D B A) :
    ∃ o ms, (o, ms) ∈ t.members_by_owner ∧ A ∈ ms ∧ A ≠ o ∧ B = o := by
  have hAk := (imports_rel_reach h hS hi).1
  have hBk : D.lookup B ≠ none := by
    rcases Relation.ReflTransGen.cases_head hBA with h1 | ⟨c, h1, -⟩
    · rw [h1]; exact hAk
    · exact edge_key_left h1
  have hAB := (imports_rel_reach h hS hi).2 hBk
  obtain ⟨o, ms, hp, hcase⟩ := imports_rel_cases hi
  obtain ⟨ho, hkey, hconn, hmax⟩ := entry_scc h hS hp
  have hlook := h.lookup_owner_entry hS.disj hp
  rcases hcase with ⟨hlen, rfl, hB⟩ | ⟨-, rfl, hB⟩ | ⟨-, hA, hne, rfl⟩
  · exfalso
    have hBm : B ∈ ms := hmax A ho B hAB hBA
    obtain ⟨-, -, -, tail, htail⟩ := h.entry hp
    have hms1 : ms = [A] := by
      rw [htail] at hlen ⊢
      simp only [List.length_cons, add_left_eq_self, List.length_eq_zero] at hlen
      rw [hlen]
    rw [hms1, List.mem_singleton] at hBm
    obtain ⟨deps, hdeps⟩ := Option.ne_none_iff_exists'.1 hAk
    rw [hdeps] at hB
    rw [hBm] at hB
    exact hself A deps hdeps hB
  · exfalso
    have hBm : B ∈ ms := hmax A ho B hAB hBA
    rcases ((external_of_spec D t.owner_of A ms [] List.Pairwise.nil).2 B).1 hB with
      h1 | ⟨N, -, -, h2⟩
    · simp at h1
    · exact h2 ((hlook B).2 hBm)
  · exact ⟨B, ms, hp, hA, hne, rfl⟩

/-! ## The text of a re-export stub, line by line -/

theorem lines_from_segment {a : List Char} (h : '\n' ∉ a) (cur b : List Char) :
    lines_from cur (a ++ b) = lines_from (cur ++ a) b := by
  induction a generalizing cur with
  | nil => simp
  | cons c cs ih =>
    rw [List.mem_cons, not_or] at h
    have hc : c ≠ '\n' := fun hc => h.1 hc.symm
    rw [List.cons_append, lines_from, if_neg hc, ih h.2]
    simp

theorem lines_from_newline (cur b : List Char) :
    lines_from cur ('\n' :: b) = cur :: lines_from [] b := by
  simp [lines_from]

set_option maxRecDepth 100000 in
theorem reexport_body_eq (ns target : String) :
    substitute
      ("// NOTE: This module does not define declarations of its own.\n" ++
     "// It re-exports all declarations from the '%' module. This is used to break cycles in the\n" ++
     "// WinRT namespace module dependency graph (SCC owner consolidation).\n" ++
     "//\n" ++
     "// Module dependencies:\n" ++
     "//   - % (re-exported)\n" ++
     "\n" ++
     "export module %;\n" ++
     "export import %;\n").data
      [target, target, ns, target] =
      ("// NOTE: This module does not define declarations of its own.".data ++
      ('\n' :: ("// It re-exports all declarations from the '".data ++ (target.data ++
      ("' module. This is used to break cycles in the".data ++
      ('\n' :: ("// WinRT namespace module dependency graph (SCC owner consolidation).".data ++
      ('\n' :: ("//".data ++ ('\n' :: ("// Module dependencies:".data ++
      ('\n' :: ("//   - ".data ++ (target.data ++ (" (re-exported)".data ++
      ('\n' :: ('\n' :: ("export module ".data ++ (ns.data ++ (";".data ++
      ('\n' :: ("export import ".data ++ (target.data ++ (";".data ++
      ('\n' :: []))))))))))))))))))))))))) := by
  rfl

set_option maxRecDepth 100000 in
theorem reexport_directive_lines (ns target : String) (hn : '\n' ∉ ns.data)
    (ht : '\n' ∉ target.data) :
    directive_lines (substitute
      ("// NOTE: This module does not define declarations of its own.\n" ++
     "// It re-exports all declarations from the '%' module. This is used to break cycles in the\n" ++
     "// WinRT namespace module dependency graph (SCC owner consolidation).\n" ++
     "//\n" ++
     "// Module dependencies:\n" ++
     "//   - % (re-exported)\n" ++
     "\n" ++
     "export module %;\n" ++
     "export import %;\n").data
      [target, target, ns, target]) =
      [("export module " ++ ns ++ ";").data, ("export import " ++ target ++ ";").data] := by
  rw [reexport_body_eq, directive_lines, lines_of]
  rw [lines_from_segment (by decide),
    lines_from_newline,
    lines_from_segment (by decide),
    lines_from_segment ht,
    lines_from_segment (by decide),
    lines_from_newline,
    lines_from_segment (by decide),
    lines_from_newline,
    lines_from_segment (by decide),
    lines_from_newline,
    lines_from_segment (by decide),
    lines_from_newline,
    lines_from_segment (by decide),
    lines_from_segment ht,
    lines_from_segment (by decide),
    lines_from_newline,
    lines_from_newline,
    lines_from_segment (by decide),
    lines_from_segment hn,
    lines_from_segment (by decide),
    lines_from_newline,
    lines_from_segment (by decide),
    lines_from_segment ht,
    lines_from_segment (by decide),
    lines_from_newline]
  rfl

theorem TablesInv.owner_le {comps : List (List String)} {t : Tables} (h : TablesInv comps t)
    {o : String} {ms : List String} (hp : (o, ms) ∈ t.members_by_owner) :
    ∀ m ∈ ms, o ≤ m := by
  obtain ⟨c, -, hms, tail, htail⟩ := h.entry hp
  have hsorted : ms.Pairwise (fun a b => a ≤ b) := by
    rw [hms]; exact sort_strings_sorted c
  intro m hm
  rw [htail] at hm hsorted
  rcases List.mem_cons.1 hm with h1 | h1
  · rw [h1]
  · exact (List.pairwise_cons.1 hsorted).1 m h1

/-! ## The names of the units and the emission loop -/

theorem reexport_calls_names (o : String) (ms : List String) :
    (reexport_calls o ms).map WriteCall.unit_name = ms.filter (fun ns => decide (ns ≠ o)) := by
  induction ms with
  | nil => rfl
  | cons m ms ih =>
    by_cases h : m = o
    · have : reexport_calls o (m :: ms) = reexport_calls o ms := by simp [reexport_calls, h]
      rw [this, ih]
      simp [h]
    · have : reexport_calls o (m :: ms) =
          WriteCall.reexport_ixx m o :: reexport_calls o ms := by simp [reexport_calls, h]
      rw [this, List.map_cons, ih]
      simp [h, WriteCall.unit_name]

theorem calls_of_names (D : Graph) (oo : List (String × String)) {o : String}
    {ms tail : List String} (htail : ms = o :: tail) (hnd : ms.Nodup) :
    (calls_of D oo (o, ms)).map WriteCall.unit_name = ms := by
  rw [htail] at hnd
  have hot : o ∉ tail := (List.nodup_cons.1 hnd).1
  by_cases hlen : ms.length = 1
  · have hms1 : ms = [o] := by
      rw [htail] at hlen ⊢
      simp only [List.length_cons, add_left_eq_self, List.length_eq_zero] at hlen
      rw [hlen]
    simp [calls_of, hlen, WriteCall.unit_name, hms1]
  · have hfilter : ms.filter (fun ns => decide (ns ≠ o)) = tail := by
      rw [htail, List.filter_cons]
      simp only [ne_eq, not_true_eq_false, decide_False, Bool.false_eq_true, if_false]
      rw [List.filter_eq_self]
      intro a ha
      simp only [decide_eq_true_eq]
      rintro rfl
      exact hot ha
    simp only [calls_of, hlen, if_false, List.map_cons, WriteCall.unit_name,
      reexport_calls_names, hfilter]
    exact htail.symm

theorem flatMap_calls_names (D : Graph) (oo : List (String × String)) :
    ∀ (mbo : List (String × List String)),
      (∀ p ∈ mbo, p.2.Nodup ∧ ∃ tail, p.2 = p.1 :: tail) →
      (mbo.flatMap (calls_of D oo)).map WriteCall.unit_name = (mbo.map Prod.snd).flatten := by
  intro mbo
  induction mbo with
  | nil => intro _; rfl
  | cons p ps ih =>
    intro h
    obtain ⟨o, ms⟩ := p
    obtain ⟨hnd, tail, htail⟩ := h (o, ms) (List.mem_cons_self _ _)
    rw [List.flatMap_cons, List.map_append, calls_of_names D oo htail hnd,
      ih (fun q hq => h q (List.mem_cons_of_mem _ hq))]
    simp

/-- The units written by the planner are named after the keys of the dependency map, each
key naming exactly one unit. -/
theorem plan_unit_names (D : Graph) :
    ∃ t calls, plan_modules D = .ok (t, calls) ∧
      (calls.map WriteCall.unit_name).Nodup ∧
      ∀ x, x ∈ calls.map WriteCall.unit_name ↔ x ∈ keys D := by
  obtain ⟨comps, t, -, -, hinv, hplan, -, hnd, hdisj, hcover, -, -⟩ := plan_modules_spec D
  have hnames := flatMap_calls_names D t.owner_of t.members_by_owner (by
    rintro ⟨o, ms⟩ hp
    obtain ⟨c, hc, hms, tail, htail⟩ := hinv.entry hp
    exact ⟨by rw [hms]; exact (sort_strings_perm c).nodup_iff.2 (hnd c hc), tail, htail⟩)
  refine ⟨t, _, hplan, ?_, ?_⟩
  · rw [hnames, List.nodup_flatten]
    constructor
    · intro ms hms
      obtain ⟨c, hc, rfl⟩ := List.mem_map.1 (hinv.mbo_perm.mem_iff.1 hms)
      exact (sort_strings_perm c).nodup_iff.2 (hnd c hc)
    · rw [hinv.mbo_perm.pairwise_iff (fun hd => hd.symm), List.pairwise_map]
      refine hdisj.imp ?_
      intro a b hab x hxa hxb
      exact hab (mem_sort_strings.1 hxa) (mem_sort_strings.1 hxb)
  · intro x
    rw [hnames, List.mem_flatten, ← hcover x]
    constructor
    · rintro ⟨ms, hms, hx⟩
      obtain ⟨c, hc, rfl⟩ := List.mem_map.1 (hinv.mbo_perm.mem_iff.1 hms)
      exact ⟨c, hc, mem_sort_strings.1 hx⟩
    · rintro ⟨c, hc, hx⟩
      exact ⟨sort_strings c, hinv.mbo_perm.mem_iff.2 (List.mem_map.2 ⟨c, hc, rfl⟩),
        mem_sort_strings.2 hx⟩

theorem mem_map_emplace_imp {V : Type} {k k' : String} {v v' : V} {m : List (String × V)}
    (h : (k, v) ∈ map_emplace k' v' m) : (k, v) = (k', v') ∨ (k, v) ∈ m := by
  induction m with
  | nil => simpa [map_emplace] using h
  | cons p ps ih =>
    obtain ⟨a, b⟩ := p
    rcases Bool.eq_false_or_eq_true (str_lt k' a) with h1 | h1
    · rw [map_emplace_cons_lt v' b ps h1] at h
      exact List.mem_cons.1 h
    · by_cases h2 : k' = a
      · subst h2
        rw [map_emplace_cons_eq] at h
        exact Or.inr h
      · rw [map_emplace_cons_gt v' b ps h1 h2] at h
        rcases List.mem_cons.1 h with h3 | h3
        · exact Or.inr (h3 ▸ List.mem_cons_self _ _)
        · rcases ih h3 with h4 | h4
          · exact Or.inl h4
          · exact Or.inr (List.mem_cons_of_mem _ h4)

theorem emission_loop_spec {M T : Type} (hpt inc : M → Bool) (nss : List (String × M))
    (dep : String → Nat → List (String × T)) :
    ∀ (rest : List (String × M)) (acc : List String × Graph),
      (emission_loop hpt inc nss dep rest acc).1 =
        acc.1 ++ (rest.filter (fun p => hpt p.2 && inc p.2)).map Prod.fst ∧
      (∀ k, k ∈ keys (emission_loop hpt inc nss dep rest acc).2 ↔
        k ∈ keys acc.2 ∨ k ∈ (rest.filter (fun p => hpt p.2 && inc p.2)).map Prod.fst) ∧
      (∀ k deps, (k, deps) ∈ (emission_loop hpt inc nss dep rest acc).2 →
        (k, deps) ∈ acc.2 ∨ deps = namespace_task hpt nss dep k) := by
  intro rest
  induction rest with
  | nil =>
    intro acc
    refine ⟨by simp [emission_loop], by simp [emission_loop], ?_⟩
    intro k deps hk
    exact Or.inl hk
  | cons p ps ih =>
    intro acc
    obtain ⟨ns, members⟩ := p
    by_cases hc : (hpt members && inc members) = true
    · have hcond : (!hpt members || !inc members) = false := by
        simp only [Bool.and_eq_true] at hc
        simp [hc.1, hc.2]
      have hstep : emission_loop hpt inc nss dep ((ns, members) :: ps) acc =
          emission_loop hpt inc nss dep ps
            (acc.1 ++ [ns], map_emplace ns (namespace_task hpt nss dep ns) acc.2) := by
        rw [emission_loop, hcond]; rfl
      rw [hstep]
      obtain ⟨h1, h2, h3⟩ := ih (acc.1 ++ [ns], map_emplace ns (namespace_task hpt nss dep ns) acc.2)
      refine ⟨?_, ?_, ?_⟩
      · rw [h1]; simp [List.filter_cons, hc]
      · intro k
        rw [h2 k]
        simp only [keys, map_emplace_keys, mem_set_emplace, List.filter_cons, hc, if_true,
          List.map_cons, List.mem_cons]
        tauto
      · intro k deps hk
        rcases h3 k deps hk with h4 | h4
        · rcases mem_map_emplace_imp h4 with h5 | h5
          · simp only [Prod.mk.injEq] at h5
            exact Or.inr (by rw [h5.2, h5.1])
          · exact Or.inl h5
        · exact Or.inr h4
    · have hcond : (!hpt members || !inc members) = true := by
        cases h1 : hpt members <;> cases h2 : inc members <;> simp_all
      have hstep : emission_loop hpt inc nss dep ((ns, members) :: ps) acc =
          emission_loop hpt inc nss dep ps acc := by
        rw [emission_loop, hcond]; rfl
      rw [hstep]
      obtain ⟨h1, h2, h3⟩ := ih acc
      refine ⟨?_, ?_, h3⟩
      · rw [h1]; simp [List.filter_cons, hc]
      · intro k
        rw [h2 k]; simp [List.filter_cons, hc]

theorem ixx_path_injective (out : String) {a b : String}
    (h : out ++ "winrt/" ++ a ++ ".ixx" = out ++ "winrt/" ++ b ++ ".ixx") : a = b := by
  have h1 := congrArg String.data h
  simp only [String.data_append] at h1
  have h2 := List.append_cancel_right h1
  rw [List.append_assoc, List.append_assoc] at h2
  have h3 := List.append_cancel_left (List.append_cancel_left h2)
  exact String.ext h3

/-! ## The dependency collector -/

theorem collect_imports_eq {M T : Type} (hpt : M → Bool) (nss : List (String × M))
    (ns : String) :
    ∀ (depends : List (String × T)) (imports : List String),
      collect_imports hpt nss ns depends imports =
        imports ++ (depends.filter (is_module_import hpt nss ns)).map Prod.fst := by
  intro depends
  induction depends with
  | nil => intro imports; simp [collect_imports]
  | cons d ds ih =>
    intro imports
    by_cases h1 : d.1 = ns
    · have hgood : is_module_import hpt nss ns d = false := by simp [is_module_import, h1]
      rw [collect_imports, if_pos h1, ih, List.filter_cons, hgood]
      simp
    · cases hl : nss.lookup d.1 with
      | none =>
        have hgood : is_module_import hpt nss ns d = false := by simp [is_module_import, hl]
        rw [collect_imports, if_neg h1]
        simp only [hl]
        rw [ih, List.filter_cons, hgood]
        simp
      | some members =>
        by_cases h2 : hpt members = true
        · have hgood : is_module_import hpt nss ns d = true := by
            simp [is_module_import, hl, h1, h2]
          rw [collect_imports, if_neg h1]
          simp only [hl, h2, if_true]
          rw [ih, List.filter_cons, hgood]
          simp
        · have hgood : is_module_import hpt nss ns d = false := by
            simp [is_module_import, hl, h2]
          rw [collect_imports, if_neg h1]
          simp only [hl, h2]
          rw [List.filter_cons, hgood]
          simpa using ih imports

theorem mem_module_imports {M T : Type} (hpt : M → Bool) (nss : List (String × M))
    (ns : String) (depends : List (String × T)) (imports : List String) (x : String) :
    x ∈ get_namespace_module_imports hpt nss ns depends imports ↔
      x ∈ depends.map Prod.fst ∧ x ≠ ns ∧
        ∃ members, nss.lookup x = some members ∧ hpt members = true := by
  rw [get_namespace_module_imports, collect_imports_eq, List.nil_append]
  simp only [List.mem_map, List.mem_filter, is_module_import, Bool.and_eq_true,
    decide_eq_true_eq]
  constructor
  · rintro ⟨d, ⟨hd, hne, hm⟩, rfl⟩
    refine ⟨⟨d, hd, rfl⟩, hne, ?_⟩
    cases hl : nss.lookup d.1 with
    | none => rw [hl] at hm; simp at hm
    | some members => rw [hl] at hm; exact ⟨members, rfl, hm⟩
  · rintro ⟨⟨d, hd, rfl⟩, hne, members, hl, hm⟩
    exact ⟨d, ⟨hd, hne, by rw [hl]; exact hm⟩, rfl⟩

theorem mem_set_insert_range {x : String} :
    ∀ (l s : List String), x ∈ set_insert_range l s ↔ x ∈ l ∨ x ∈ s := by
  intro l
  induction l with
  | nil => intro s; simp [set_insert_range]
  | cons a as ih =>
    intro s
    rw [set_insert_range, ih, mem_set_emplace, List.mem_cons]
    tauto

theorem mem_namespace_task {M T : Type} (hpt : M → Bool) (nss : List (String × M))
    (dep : String → Nat → List (String × T)) (ns x : String) :
    x ∈ namespace_task hpt nss dep ns ↔
      ∃ p, p < 4 ∧ x ∈ get_namespace_module_imports hpt nss ns (dep ns p) [] := by
  simp only [namespace_task, mem_set_insert_range, get_namespace_module_imports,
    List.not_mem_nil, or_false]
  constructor
  · rintro (h | h | h | h)
    · exact ⟨3, by omega, h⟩
    · exact ⟨2, by omega, h⟩
    · exact ⟨1, by omega, h⟩
    · exact ⟨0, by omega, h⟩
  · rintro ⟨p, hp, h⟩
    have : p = 0 ∨ p = 1 ∨ p = 2 ∨ p = 3 := by omega
    rcases this with rfl | rfl | rfl | rfl
    · exact Or.inr (Or.inr (Or.inr h))
    · exact Or.inr (Or.inr (Or.inl h))
    · exact Or.inr (Or.inl h)
    · exact Or.inl h

theorem plan_imports_subset (D : Graph) :
    ∃ t calls, plan_modules D = .ok (t, calls) ∧
      ∀ u ∈ calls, (∀ ns target, u ≠ WriteCall.reexport_ixx ns target) →
        ∀ x ∈ u.unit_imports, ∃ N deps, D.lookup N = some deps ∧ x ∈ deps := by
  obtain ⟨comps, t, -, -, -, hplan, -, -, -, -, -, -⟩ := plan_modules_spec D
  refine ⟨t, _, hplan, ?_⟩
  intro u hu hnot x hx
  obtain ⟨⟨o, ms⟩, -, hmem⟩ := List.mem_flatMap.1 hu
  rw [mem_calls_of] at hmem
  rcases hmem with ⟨-, rfl⟩ | ⟨-, rfl | ⟨ns, -, -, rfl⟩⟩
  · cases hl : D.lookup o with
    | none => simp [WriteCall.unit_imports, hl] at hx
    | some deps =>
      simp only [WriteCall.unit_imports, hl, Option.getD_some] at hx
      exact ⟨o, deps, hl, hx⟩
  · simp only [WriteCall.unit_imports] at hx
    rcases ((external_of_spec D t.owner_of o ms [] List.Pairwise.nil).2 x).1 hx with
      h1 | ⟨N, -, h1, -⟩
    · simp at h1
    · cases hl : D.lookup N with
      | none => simp [hl] at h1
      | some deps =>
        rw [hl] at h1
        exact ⟨N, deps, hl, h1⟩
  · exact absurd rfl (hnot ns o)

/-! ## Deleting the edges into namespaces that are no keys -/

theorem lookup_map_snd (f : List String → List String) (D : Graph) (k : String) :
    (D.map (fun p => (p.1, f p.2))).lookup k = (D.lookup k).map f := by
  induction D with
  | nil => rfl
  | cons p ps ih =>
    obtain ⟨a, b⟩ := p
    by_cases h : k = a
    · subst h; simp [List.lookup]
    · have h1 : (k == a) = false := by simpa using h
      simp only [List.map_cons, List.lookup, h1]
      exact ih

theorem lookup_without_absent_edges (D : Graph) (k : String) :
    (without_absent_edges D).lookup k =
      (D.lookup k).map (fun l => l.filter (fun d => (D.lookup d).isSome)) :=
  lookup_map_snd _ D k

theorem lookup_without_absent_edges_none (D : Graph) (k : String) :
    (without_absent_edges D).lookup k = none ↔ D.lookup k = none := by
  rw [lookup_without_absent_edges]
  cases D.lookup k <;> simp

theorem visit_deps_without_absent_edges (D : Graph)
    (sc : String → State → Except Fault State) (node : String) :
    ∀ (deps : List String) (s : State),
      visit_deps (without_absent_edges D) sc node
          (deps.filter (fun d => (D.lookup d).isSome)) s =
        visit_deps D sc node deps s := by
  intro deps
  induction deps with
  | nil => intro s; rfl
  | cons dep rest ih =>
    intro s
    by_cases hk : D.lookup dep = none
    · have hf : (D.lookup dep).isSome = false := by simp [hk]
      rw [List.filter_cons, hf]
      simp only [Bool.false_eq_true, if_false]
      rw [ih s]
      conv_rhs => rw [visit_deps, if_pos hk]
    · have hf : (D.lookup dep).isSome = true := by
        cases h : D.lookup dep with
        | none => exact absurd h hk
        | some v => rfl
      have hk' : ¬ (without_absent_edges D).lookup dep = none := by
        rw [lookup_without_absent_edges_none]; exact hk
      rw [List.filter_cons, hf]
      simp only [if_true]
      rw [visit_deps]
      conv_rhs => rw [visit_deps]
      simp only [if_neg hk, if_neg hk', ih]

theorem strongconnect_without_absent_edges (D : Graph) :
    ∀ (fuel : Nat) (node : String) (s : State),
      strongconnect (without_absent_edges D) fuel node s = strongconnect D fuel node s := by
  intro fuel
  induction fuel with
  | zero => intro node s; rfl
  | succ fuel ih =>
    intro node s
    have hfun : strongconnect (without_absent_edges D) fuel = strongconnect D fuel :=
      funext (fun n => funext (ih n))
    rw [strongconnect, strongconnect, lookup_without_absent_edges]
    cases D.lookup node with
    | none => rfl
    | some deps =>
      simp only [Option.map_some']
      rw [hfun, visit_deps_without_absent_edges]

theorem visit_nodes_without_absent_edges (D : Graph) (fuel : Nat) :
    ∀ (nodes : List String) (s : State),
      visit_nodes (without_absent_edges D) fuel nodes s = visit_nodes D fuel nodes s := by
  intro nodes
  induction nodes with
  | nil => intro s; rfl
  | cons n rest ih =>
    intro s
    rw [visit_nodes, visit_nodes, strongconnect_without_absent_edges]
    simp only [ih]

/-! ## The dependency list stored for a namespace -/

theorem set_insert_range_sorted :
    ∀ (l s : List String), s.Pairwise (fun a b => a < b) →
      (set_insert_range l s).Pairwise (fun a b => a < b) := by
  intro l
  induction l with
  | nil => intro s h; exact h
  | cons a as ih =>
    intro s h
    exact ih _ (set_emplace_sorted h)

theorem namespace_task_sorted {M T : Type} (hpt : M → Bool) (nss : List (String × M))
    (dep : String → Nat → List (String × T)) (ns : String) :
    (namespace_task hpt nss dep ns).Pairwise (fun a b => a < b) := by
  unfold namespace_task
  exact set_insert_range_sorted _ _ (set_insert_range_sorted _ _
    (set_insert_range_sorted _ _ (set_insert_range_sorted _ _ List.Pairwise.nil)))

/-! ## A single directed cycle -/

theorem chain_reach {r : String → String → Prop} :
    ∀ (rest : List String) (a z : String),
      (∀ p ∈ (a :: rest).zip (rest ++ [z]), r p.1 p.2) →
      ∀ x ∈ a :: rest, Relation.ReflTransGen r a x ∧ Relation.TransGen r x z := by
  intro rest
  induction rest with
  | nil =>
    intro a z h x hx
    rw [List.mem_singleton] at hx
    subst hx
    exact ⟨Relation.ReflTransGen.refl,
      Relation.TransGen.single (h (x, z) (by simp))⟩
  | cons b rest ih =>
    intro a z h x hx
    have hab : r a b := h (a, b) (by simp)
    have hrest : ∀ p ∈ (b :: rest).zip (rest ++ [z]), r p.1 p.2 := by
      intro p hp
      exact h p (by
        rw [List.cons_append, List.zip_cons_cons]
        exact List.mem_cons_of_mem _ hp)
    rcases List.mem_cons.1 hx with h1 | h1
    · subst h1
      exact ⟨Relation.ReflTransGen.refl,
        Relation.TransGen.head hab (ih b z hrest b (List.mem_cons_self _ _)).2⟩
    · obtain ⟨h2, h3⟩ := ih b z hrest x h1
      exact ⟨Relation.ReflTransGen.head hab h2, h3⟩

theorem zip_partner (l m : List String) (h : l.length ≤ m.length) {x : String}
    (hx : x ∈ l) : ∃ y, (x, y) ∈ l.zip m := by
  induction l generalizing m with
  | nil => simp at hx
  | cons a as ih =>
    cases m with
    | nil => simp at h
    | cons b bs =>
      rcases List.mem_cons.1 hx with h1 | h1
      · exact ⟨b, by rw [h1]; simp⟩
      · obtain ⟨y, hy⟩ := ih bs (by simpa using h) h1
        exact ⟨y, by rw [List.zip_cons_cons]; exact List.mem_cons_of_mem _ hy⟩

theorem sort_strings_eq_of_perm {l1 l2 : List String} (h : l1.Perm l2) :
    sort_strings l1 = sort_strings l2 :=
  List.eq_of_perm_of_sorted
    (((sort_strings_perm l1).trans h).trans (sort_strings_perm l2).symm)
    (sort_strings_sorted l1) (sort_strings_sorted l2)

theorem reexport_calls_tail (o : String) :
    ∀ (tail : List String), (∀ x ∈ tail, x ≠ o) →
      reexport_calls o tail = tail.map (fun ns => WriteCall.reexport_ixx ns o) := by
  intro tail
  induction tail with
  | nil => intro _; rfl
  | cons x xs ih =>
    intro h
    have hx : x ≠ o := h x (List.mem_cons_self _ _)
    rw [reexport_calls, if_pos hx, ih (fun y hy => h y (List.mem_cons_of_mem _ hy))]
    rfl

theorem single_component {comps : List (List String)} {c0 : List String}
    (hne : c0 ≠ []) (hdisj : comps.Pairwise List.Disjoint) (hmem : c0 ∈ comps)
    (hall : ∀ c ∈ comps, c = c0) : comps = [c0] := by
  cases comps with
  | nil => simp at hmem
  | cons x xs =>
    have hx : x = c0 := hall x (List.mem_cons_self _ _)
    subst hx
    cases xs with
    | nil => rfl
    | cons y ys =>
      exfalso
      have hy : y = x := hall y (by simp)
      have hd : List.Disjoint x y := (List.pairwise_cons.1 hdisj).1 y (List.mem_cons_self _ _)
      rw [hy] at hd
      cases x with
      | nil => exact hne rfl
      | cons a as => exact hd (List.mem_cons_self _ _) (List.mem_cons_self _ _)

/-! ## The conversion of a prefix value -/

theorem copy_ascii_error_iff :
    ∀ (l result : List Nat),
      (copy_ascii l result = .error ascii_error ↔ ∃ c ∈ l, 0x7F < c) ∧
      ∀ e, copy_ascii l result = .error e → e = ascii_error := by
  intro l
  induction l with
  | nil =>
    intro result
    simp [copy_ascii]
  | cons ch rest ih =>
    intro result
    by_cases h : ch > 0x7F
    · have hstep : copy_ascii (ch :: rest) result = .error ascii_error := by
        rw [copy_ascii, if_pos h]
      rw [hstep]
      refine ⟨⟨fun _ => ⟨ch, List.mem_cons_self _ _, h⟩, fun _ => rfl⟩, ?_⟩
      intro e he
      injection he with he
      exact he.symm
    · have hstep : copy_ascii (ch :: rest) result = copy_ascii rest (result ++ [ch]) := by
        rw [copy_ascii, if_neg h]
      rw [hstep]
      refine ⟨?_, (ih _).2⟩
      rw [(ih _).1]
      constructor
      · rintro ⟨c, hc, hgt⟩
        exact ⟨c, List.mem_cons_of_mem _ hc, hgt⟩
      · rintro ⟨c, hc, hgt⟩
        rcases List.mem_cons.1 hc with h1 | h1
        · rw [h1] at hgt; exact absurd hgt h
        · exact ⟨c, h1, hgt⟩

theorem mem_dropWhile_of_not {p : Nat → Bool} {c : Nat} (hp : p c = false) :
    ∀ (l : List Nat), c ∈ l → c ∈ l.dropWhile p := by
  intro l
  induction l with
  | nil => intro h; exact h
  | cons a as ih =>
    intro h
    by_cases ha : p a = true
    · rw [List.dropWhile_cons_of_pos ha]
      rcases List.mem_cons.1 h with h1 | h1
      · rw [h1, ha] at hp; exact absurd hp (by simp)
      · exact ih h1
    · rw [List.dropWhile_cons_of_neg ha]
      exact h

theorem not_whitespace_of_large {c : Nat} (h : 0x7F < c) : is_config_whitespace c = false := by
  simp only [is_config_whitespace, Bool.or_eq_false_iff, beq_eq_false_iff_ne, ne_eq]
  omega

theorem mem_trimmed_iff_of_large {c : Nat} (h : 0x7F < c) (l : List Nat) :
    c ∈ ((l.dropWhile is_config_whitespace).reverse.dropWhile is_config_whitespace).reverse ↔
      c ∈ l := by
  have hw := not_whitespace_of_large h
  constructor
  · intro hc
    rw [List.mem_reverse] at hc
    have h1 := (List.dropWhile_suffix is_config_whitespace).subset hc
    rw [List.mem_reverse] at h1
    exact (List.dropWhile_suffix is_config_whitespace).subset h1
  · intro hc
    rw [List.mem_reverse]
    apply mem_dropWhile_of_not hw
    rw [List.mem_reverse]
    exact mem_dropWhile_of_not hw l hc

/-! ## Reading a config file that has no `configuration` element -/

theorem utf8_from_utf16_ascii {value : List Nat} (h : ∀ c ∈ value, c ≤ 0x7F) (length : Nat) :
    ∃ r, utf8_from_utf16 (some value) length = .ok r := by
  cases hres : utf8_from_utf16 (some value) length with
  | ok r => exact ⟨r, rfl⟩
  | error e =>
    exfalso
    by_cases hl : length = 0
    · subst hl
      simp [utf8_from_utf16] at hres
    · simp only [utf8_from_utf16, hl, if_false] at hres
      have he := (copy_ascii_error_iff _ _).2 e hres
      rw [he] at hres
      obtain ⟨c, hc, hgt⟩ := (copy_ascii_error_iff _ _).1.1 hres
      have hc1 := (mem_trimmed_iff_of_large hgt _).1 hc
      have := h c (List.mem_of_mem_take hc1)
      omega

theorem store_prefix_ascii {value : List Nat} (h : ∀ c ∈ value, c ≤ 0x7F) (st : ConfigState) :
    ∃ st1, store_prefix value st = .ok st1 ∧ st1.saw_configuration = st.saw_configuration := by
  obtain ⟨r, hr⟩ := utf8_from_utf16_ascii h value.length
  unfold store_prefix
  rw [hr]
  by_cases he : r.isEmpty = true
  · exact ⟨st, by simp [he], rfl⟩
  · by_cases hi : st.in_include = true
    · exact ⟨{ st with
        include_prefixes := set_emplace (String.mk (r.map Char.ofNat)) st.include_prefixes },
        by simp [he, hi], rfl⟩
    · exact ⟨{ st with
        exclude_prefixes := set_emplace (String.mk (r.map Char.ofNat)) st.exclude_prefixes },
        by simp [he, hi], rfl⟩

theorem read_nodes_unseen :
    ∀ (nodes : List XmlNode),
      (∀ name is_empty, XmlNode.element name is_empty ∈ nodes → name ≠ "configuration") →
      (∀ value, XmlNode.text value ∈ nodes ∨ XmlNode.cdata value ∈ nodes →
        ∀ c ∈ value, c ≤ 0x7F) →
      ∀ st : ConfigState, st.saw_configuration = false →
        (∃ st1, read_nodes nodes st = .ok st1 ∧ st1.saw_configuration = false) ∧
        (∃ st1, read_prefix_content nodes st = .ok st1 ∧ st1.saw_configuration = false) := by
  intro nodes
  induction nodes with
  | nil =>
    intro _ _ st hst
    exact ⟨⟨st, by rw [read_nodes], hst⟩, ⟨st, by rw [read_prefix_content], hst⟩⟩
  | cons node rest ih =>
    intro hnone hascii st hst
    have hnone1 : ∀ name is_empty, XmlNode.element name is_empty ∈ rest →
        name ≠ "configuration" :=
      fun name is_empty h => hnone name is_empty (List.mem_cons_of_mem _ h)
    have hascii1 : ∀ value, XmlNode.text value ∈ rest ∨ XmlNode.cdata value ∈ rest →
        ∀ c ∈ value, c ≤ 0x7F :=
      fun value h => hascii value (h.imp (List.mem_cons_of_mem _) (List.mem_cons_of_mem _))
    have ih1 := ih hnone1 hascii1
    cases node with
    | element name is_empty =>
      have hname : name ≠ "configuration" := hnone name is_empty (List.mem_cons_self _ _)
      refine ⟨?_, ?_⟩
      · rw [read_nodes, if_neg hname]
        split_ifs
        · exact (ih1 _ (by exact hst)).1
        · exact (ih1 _ (by exact hst)).1
        · exact (ih1 _ (by exact hst)).1
        · exact (ih1 _ (by exact hst)).1
        · exact (ih1 _ (by exact hst)).2
      · rw [read_prefix_content]
        exact (ih1 _ (by exact hst)).1
    | end_element name =>
      refine ⟨?_, ?_⟩
      · rw [read_nodes]
        split_ifs
        · exact (ih1 _ (by exact hst)).1
        · exact (ih1 _ (by exact hst)).1
        · exact (ih1 _ (by exact hst)).1
      · rw [read_prefix_content]
        exact (ih1 _ (by exact hst)).1
    | text value =>
      refine ⟨?_, ?_⟩
      · rw [read_nodes]
        exact (ih1 _ (by exact hst)).1
      · obtain ⟨st1, h1, h2⟩ :=
          store_prefix_ascii (hascii value (Or.inl (List.mem_cons_self _ _))) st
        rw [read_prefix_content, h1]
        exact (ih1 _ (h2.trans hst)).1
    | cdata value =>
      refine ⟨?_, ?_⟩
      · rw [read_nodes]
        exact (ih1 _ (by exact hst)).1
      · obtain ⟨st1, h1, h2⟩ :=
          store_prefix_ascii (hascii value (Or.inr (List.mem_cons_self _ _))) st
        rw [read_prefix_content, h1]
        exact (ih1 _ (h2.trans hst)).1
    | whitespace =>
      refine ⟨?_, ?_⟩
      · rw [read_nodes]
        exact (ih1 _ (by exact hst)).1
      · rw [read_prefix_content]
        exact (ih1 _ (by exact hst)).2
    | other =>
      refine ⟨?_, ?_⟩
      · rw [read_nodes]
        exact (ih1 _ (by exact hst)).1
      · rw [read_prefix_content]
        exact (ih1 _ (by exact hst)).1

theorem read_config_file_unseen {nodes : List XmlNode}
    (hnone : ∀ name is_empty, XmlNode.element name is_empty ∈ nodes → name ≠ "configuration")
    (hascii : ∀ value, XmlNode.text value ∈ nodes ∨ XmlNode.cdata value ∈ nodes →
      ∀ c ∈ value, c ≤ 0x7F)
    (include_prefixes exclude_prefixes : List String) :
    read_config_file (some nodes) include_prefixes exclude_prefixes =
      .error missing_configuration_error := by
  obtain ⟨st1, h1, h2⟩ := (read_nodes_unseen nodes hnone hascii
    { in_include := false, in_exclude := false, saw_configuration := false,
      include_prefixes := include_prefixes, exclude_prefixes := exclude_prefixes } rfl).1
  simp only [read_config_file, h1, h2]
  rfl

/-! ## The files written by `run` -/

theorem run_modules_returns {M T : Type} (hpt inc : M → Bool) (nss : List (String × M))
    (dep : String → Nat → List (String × T)) :
    ∃ planned, run_modules hpt inc nss dep = .ok planned := by
  obtain ⟨comps, t, -, -, -, hplan, -⟩ :=
    plan_modules_spec (emission_loop hpt inc nss dep nss ([], [])).2
  exact ⟨_, by simp only [run_modules, hplan]; rfl⟩

theorem lines_from_lines (line : String → List Char) :
    ∀ (ms : List String), (∀ m ∈ ms, '\n' ∉ line m) → ∀ rest : List Char,
      lines_from [] (ms.flatMap (fun m => line m ++ ['\n']) ++ rest) =
        ms.map line ++ lines_from [] rest := by
  intro ms
  induction ms with
  | nil => intro _ rest; rfl
  | cons m ms ih =>
    intro h rest
    rw [List.flatMap_cons, List.append_assoc, List.append_assoc, List.singleton_append,
      lines_from_segment (h m (List.mem_cons_self _ _)), lines_from_newline, List.nil_append,
      ih (fun x hx => h x (List.mem_cons_of_mem _ hx)), List.map_cons, List.cons_append]

theorem no_newline_between {a c : String} (ha : '\n' ∉ a.data) (hc : '\n' ∉ c.data)
    {b : String} (hb : '\n' ∉ b.data) : '\n' ∉ (a ++ b ++ c).data := by
  simp only [String.data_append, List.mem_append, not_or]
  exact ⟨⟨ha, hb⟩, hc⟩

set_option maxRecDepth 100000 in
theorem root_include_eq (ns : String) :
    substitute "#include \"winrt/%.h\"\n".data [ns] =
      ("#include \"winrt/" ++ ns ++ ".h\"").data ++ ['\n'] := by
  simp only [String.data_append, List.append_assoc]
  rfl

theorem aggregate_loop_spec {M : Type} (hpt inc : M → Bool) :
    ∀ (rest : List (String × M)) (acc : List Char × List String),
      aggregate_loop hpt inc rest acc =
        (acc.1 ++ ((rest.filter (fun p => hpt p.2 && inc p.2)).map Prod.fst).flatMap
            (fun ns => ("#include \"winrt/" ++ ns ++ ".h\"").data ++ ['\n']),
         acc.2 ++ (rest.filter (fun p => hpt p.2 && inc p.2)).map Prod.fst) := by
  intro rest
  induction rest with
  | nil => intro acc; simp [aggregate_loop]
  | cons p rest ih =>
    intro acc
    obtain ⟨ns, members⟩ := p
    by_cases h : (hpt members && inc members) = true
    · have h1 : (!hpt members || !inc members) = false := by
        rw [Bool.and_eq_true] at h
        simp [h.1, h.2]
      rw [aggregate_loop, h1, if_neg (by simp), ih, List.filter_cons_of_pos (by exact h),
        root_include_eq]
      simp
    · have h1 : (!hpt members || !inc members) = true := by
        cases h2 : hpt members <;> cases h3 : inc members <;> simp_all
      rw [aggregate_loop, h1, if_pos rfl, ih, List.filter_cons_of_neg (by exact h)]

theorem filter_winrt_ixx_headers (l : List String) :
    (l.map FileWrite.namespace_headers).filter FileWrite.is_winrt_ixx = [] := by
  rw [List.filter_eq_nil_iff]
  intro a ha
  obtain ⟨ns, -, rfl⟩ := List.mem_map.1 ha
  simp [FileWrite.is_winrt_ixx]

theorem filter_winrt_ixx_rest (s : Settings) (component_classes : Bool) (txt : List Char) :
    (base_files s txt ++ component_block s component_classes).filter FileWrite.is_winrt_ixx =
      if s.base = true ∧ s.modules = false then [FileWrite.winrt_ixx (String.mk txt)]
      else [] := by
  cases hb : s.base <;> cases hm : s.modules <;> cases hc : s.component <;>
    cases component_classes <;>
    simp [base_files, component_block, FileWrite.is_winrt_ixx, hb, hm, hc]

theorem force_base_no_modules (base component : Bool)
    (reference include_prefixes exclude_prefixes : List String) :
    ((force_base { modules := false, base := base, reference := reference,
                   component := component, include_prefixes := include_prefixes,
                   exclude_prefixes := exclude_prefixes }).base = true ∧
     (force_base { modules := false, base := base, reference := reference,
                   component := component, include_prefixes := include_prefixes,
                   exclude_prefixes := exclude_prefixes }).modules = false) ↔
      (base = true ∨ reference = []) := by
  simp [force_base]

theorem emitted_sorted {M : Type} (p : String × M → Bool) {nss : List (String × M)}
    (h : (nss.map Prod.fst).Pairwise (fun a b => a < b)) :
    ((nss.filter p).map Prod.fst).Pairwise (fun a b => a < b) :=
  h.sublist ((List.filter_sublist nss).map Prod.fst)

/-! ## The text of a module interface unit, piece by piece -/

theorem lines_from_ne_nil (cur a : List Char) : lines_from cur a ≠ [] := by
  induction a generalizing cur with
  | nil => simp [lines_from]
  | cons c t ih =>
    rw [lines_from]
    split_ifs
    · simp
    · exact ih _

theorem lines_from_append (a : List Char) :
    ∀ (cur b : List Char), lines_from cur (a ++ b) =
      (lines_from cur a).dropLast ++ lines_from ((lines_from cur a).getLastD []) b := by
  induction a with
  | nil => intro cur b; simp [lines_from]
  | cons c t ih =>
    intro cur b
    rw [List.cons_append, lines_from, lines_from]
    split_ifs with hc
    · obtain ⟨x, xs, hx⟩ := List.exists_cons_of_ne_nil (lines_from_ne_nil [] t)
      rw [ih, hx]
      simp
    · exact ih _ _

theorem lines_from_piece {a : List Char} {L : List (List Char)}
    (h : lines_from [] a = L ++ [[]]) (b : List Char) :
    lines_from [] (a ++ b) = L ++ lines_from [] b := by
  rw [lines_from_append, h]
  simp

theorem directive_lines_piece {a : List Char} {L D : List (List Char)}
    (h : lines_from [] a = L ++ [[]])
    (hf : L.filter (fun l : List Char => !l.isEmpty && !(l.take 2 == ['/', '/'])) = D)
    (b : List Char) : directive_lines (a ++ b) = D ++ directive_lines b := by
  rw [directive_lines, lines_of, lines_from_piece h, List.filter_append, hf]
  rfl

theorem directive_lines_last {a : List Char} {L D : List (List Char)}
    (h : lines_from [] a = L ++ [[]])
    (hf : L.filter (fun l : List Char => !l.isEmpty && !(l.take 2 == ['/', '/'])) = D) :
    directive_lines a = D := by
  rw [directive_lines, lines_of, h, List.filter_append, hf]
  simp

theorem write_loop_eq (fragment : String) (line : String → List Char)
    (h : ∀ x, substitute fragment.data [x] = line x ++ ['\n']) :
    ∀ ms : List String, write_loop fragment ms = ms.flatMap (fun m => line m ++ ['\n']) := by
  intro ms
  induction ms with
  | nil => rfl
  | cons m ms ih => rw [write_loop, ih, h, List.flatMap_cons]

theorem write_loop_lines (fragment : String) (line : String → List Char)
    (h : ∀ x, substitute fragment.data [x] = line x ++ ['\n'])
    (ms : List String) (hms : ∀ m ∈ ms, '\n' ∉ line m) :
    lines_from [] (write_loop fragment ms) = ms.map line ++ [[]] := by
  have h1 := lines_from_lines line ms hms []
  rw [List.append_nil] at h1
  rw [write_loop_eq fragment line h, h1]
  rfl

theorem no_newline_after {a : String} (ha : '\n' ∉ a.data) {b : String} (hb : '\n' ∉ b.data) :
    '\n' ∉ (a ++ b).data := by
  simp only [String.data_append, List.mem_append, not_or]
  exact ⟨ha, hb⟩

set_option maxRecDepth 100000 in
theorem import_line_eq (m : String) :
    substitute "import %;\n".data [m] = ("import " ++ m ++ ";").data ++ ['\n'] := by
  simp only [String.data_append, List.append_assoc]
  rfl

set_option maxRecDepth 100000 in
theorem comment_line_eq (m : String) :
    substitute "//   - %\n".data [m] = ("//   - " ++ m).data ++ ['\n'] := by
  simp only [String.data_append, List.append_assoc]
  rfl

set_option maxRecDepth 100000 in
theorem impl0_include_eq (m : String) :
    substitute "#include \"winrt/impl/%.0.h\"\n".data [m] =
      ("#include \"winrt/impl/" ++ m ++ ".0.h\"").data ++ ['\n'] := by
  simp only [String.data_append, List.append_assoc]
  rfl

set_option maxRecDepth 100000 in
theorem impl1_include_eq (m : String) :
    substitute "#include \"winrt/impl/%.1.h\"\n".data [m] =
      ("#include \"winrt/impl/" ++ m ++ ".1.h\"").data ++ ['\n'] := by
  simp only [String.data_append, List.append_assoc]
  rfl

set_option maxRecDepth 100000 in
theorem impl2_include_eq (m : String) :
    substitute "#include \"winrt/impl/%.2.h\"\n".data [m] =
      ("#include \"winrt/impl/" ++ m ++ ".2.h\"").data ++ ['\n'] := by
  simp only [String.data_append, List.append_assoc]
  rfl

theorem import_lines (imports : List String) (hi : ∀ m ∈ imports, '\n' ∉ m.data) :
    lines_from [] (write_loop "import %;\n" imports) =
      imports.map (fun m => ("import " ++ m ++ ";").data) ++ [[]] :=
  write_loop_lines _ _ import_line_eq imports
    (fun m hm => no_newline_between (by decide) (by decide) (hi m hm))

theorem comment_lines (imports : List String) (hi : ∀ m ∈ imports, '\n' ∉ m.data) :
    lines_from [] (write_loop "//   - %\n" imports) =
      imports.map (fun m => ("//   - " ++ m).data) ++ [[]] :=
  write_loop_lines _ _ comment_line_eq imports
    (fun m hm => no_newline_after (by decide) (hi m hm))

theorem import_lines_directive (imports : List String) :
    (imports.map (fun m => ("import " ++ m ++ ";").data)).filter (fun l : List Char => !l.isEmpty && !(l.take 2 == ['/', '/'])) =
      imports.map (fun m => ("import " ++ m ++ ";").data) := by
  rw [List.filter_eq_self]
  intro l hl
  obtain ⟨m, -, rfl⟩ := List.mem_map.1 hl
  rfl

theorem comment_lines_directive (imports : List String) :
    (imports.map (fun m => ("//   - " ++ m).data)).filter (fun l : List Char => !l.isEmpty && !(l.take 2 == ['/', '/'])) = [] := by
  rw [List.filter_eq_nil_iff]
  intro l hl
  obtain ⟨m, -, rfl⟩ := List.mem_map.1 hl
  simp only [Bool.not_eq_true]
  rfl

set_option maxRecDepth 100000 in
theorem global_fragment_lines :
    lines_from [] write_module_global_fragment =
      [[], "module;".data, [], "#define WINRT_MODULE".data, "#include <intrin.h>".data,
       "#include <cstddef>".data, "#include <version>".data, "#ifdef _DEBUG".data,
       "#include <crtdbg.h>".data, "#endif".data, "#include \"winrt/module.h\"".data, []] ++
        [[]] := by
  rfl

theorem dependency_comment_lines (imports : List String) (hi : ∀ m ∈ imports, '\n' ∉ m.data) :
    ∃ L, lines_from []
        (if imports.isEmpty then "//   - (no additional namespace imports)\n".data
         else write_loop "//   - %\n" imports) = L ++ [[]] ∧
      L.filter (fun l : List Char => !l.isEmpty && !(l.take 2 == ['/', '/'])) = [] := by
  cases imports with
  | nil => exact ⟨["//   - (no additional namespace imports)".data], rfl, rfl⟩
  | cons m ms =>
    refine ⟨_, ?_, comment_lines_directive (m :: ms)⟩
    rw [List.isEmpty_cons, if_neg (by simp)]
    exact comment_lines (m :: ms) hi

set_option maxRecDepth 100000 in
theorem export_module_lines (ns : String) (hn : '\n' ∉ ns.data) :
    lines_from [] (substitute "export module %;\n\n".data [ns]) =
      [("export module " ++ ns ++ ";").data, []] ++ [[]] := by
  have h : substitute "export module %;\n\n".data [ns] =
      ("export module ".data ++ (ns.data ++ (";".data ++ ('\n' :: ('\n' :: []))))) := rfl
  rw [h, lines_from_segment (by decide),
    lines_from_segment hn,
    lines_from_segment (by decide),
    lines_from_newline,
    lines_from_newline]
  rfl

set_option maxRecDepth 100000 in
theorem four_includes_lines (ns : String) (hn : '\n' ∉ ns.data) :
    lines_from [] (substitute ("#include \"winrt/impl/%.0.h\"\n" ++
       "#include \"winrt/impl/%.1.h\"\n" ++
       "#include \"winrt/impl/%.2.h\"\n" ++
       "#include \"winrt/%.h\"\n").data [ns, ns, ns, ns]) =
      [("#include \"winrt/impl/" ++ ns ++ ".0.h\"").data, ("#include \"winrt/impl/" ++ ns ++ ".1.h\"").data, ("#include \"winrt/impl/" ++ ns ++ ".2.h\"").data, ("#include \"winrt/" ++ ns ++ ".h\"").data] ++ [[]] := by
  have h : substitute ("#include \"winrt/impl/%.0.h\"\n" ++
       "#include \"winrt/impl/%.1.h\"\n" ++
       "#include \"winrt/impl/%.2.h\"\n" ++
       "#include \"winrt/%.h\"\n").data [ns, ns, ns, ns] =
      ("#include \"winrt/impl/".data ++ (ns.data ++ (".0.h\"".data ++ ('\n' :: ("#include \"winrt/impl/".data ++ (ns.data ++ (".1.h\"".data ++ ('\n' :: ("#include \"winrt/impl/".data ++ (ns.data ++ (".2.h\"".data ++ ('\n' :: ("#include \"winrt/".data ++ (ns.data ++ (".h\"".data ++ ('\n' :: [])))))))))))))))) := rfl
  rw [h, lines_from_segment (by decide),
    lines_from_segment hn,
    lines_from_segment (by decide),
    lines_from_newline,
    lines_from_segment (by decide),
    lines_from_segment hn,
    lines_from_segment (by decide),
    lines_from_newline,
    lines_from_segment (by decide),
    lines_from_segment hn,
    lines_from_segment (by decide),
    lines_from_newline,
    lines_from_segment (by decide),
    lines_from_segment hn,
    lines_from_segment (by decide),
    lines_from_newline]
  rfl

theorem include_lines_maps (f : String → List Char)
    (hf : ∀ m, (f m).take 8 = "#include".data) (ms : List String) :
    (ms.map f).filter (fun l => l.take 8 == "#include".data) = ms.map f := by
  rw [List.filter_eq_self]
  intro l hl
  obtain ⟨m, -, rfl⟩ := List.mem_map.1 hl
  rw [hf]
  rfl

set_option maxRecDepth 100000 in
theorem scc_owner_head_directive_lines (owner : String) (imports : List String)
    (ho : '\n' ∉ owner.data) (hi : ∀ m ∈ imports, '\n' ∉ m.data) :
    directive_lines (scc_owner_head owner imports) =
      [("export module " ++ owner ++ ";").data, "import std;".data,
       "export import winrt.base;".data] ++
      imports.map (fun m => ("import " ++ m ++ ";").data) ++
      ["#pragma push_macro(\"WINRT_EXPORT\")".data, "#undef WINRT_EXPORT".data,
       "#define WINRT_EXPORT export".data] := by
  obtain ⟨L, hL, hLf⟩ := dependency_comment_lines imports hi
  simp only [scc_owner_head, List.append_assoc]
  rw [directive_lines_piece (export_module_lines owner ho) rfl,
    directive_lines_piece (show lines_from [] "// Module dependencies:\n".data =
      ["// Module dependencies:".data] ++ [[]] from rfl) rfl,
    directive_lines_piece (show lines_from [] "//   - std\n".data =
      ["//   - std".data] ++ [[]] from rfl) rfl,
    directive_lines_piece (show lines_from [] "//   - winrt.base (re-exported)\n".data =
      ["//   - winrt.base (re-exported)".data] ++ [[]] from rfl) rfl,
    directive_lines_piece hL hLf,
    directive_lines_piece (show lines_from [] ("\n" ++
   "// This module is an SCC owner (cycle breaker); other SCC namespaces are emitted as re-export stubs.\n").data =
      [[], "// This module is an SCC owner (cycle breaker); other SCC namespaces are emitted as re-export stubs.".data] ++ [[]] from rfl) rfl,
    directive_lines_piece (show lines_from [] ("\n" ++
   "import std;\n" ++
   "export import winrt.base;\n").data =
      [[], "import std;".data, "export import winrt.base;".data] ++ [[]] from rfl) rfl,
    directive_lines_piece (import_lines imports hi) (import_lines_directive imports),
    directive_lines_piece (show lines_from [] ['\n'] = [[]] ++ [[]] from rfl) rfl,
    directive_lines_last (show lines_from [] ("#pragma push_macro(\"WINRT_EXPORT\")\n" ++
   "#undef WINRT_EXPORT\n" ++
   "#define WINRT_EXPORT export\n" ++
   "\n").data =
      ["#pragma push_macro(\"WINRT_EXPORT\")".data, "#undef WINRT_EXPORT".data,
       "#define WINRT_EXPORT export".data, []] ++ [[]] from rfl) rfl]
  rfl

set_option maxRecDepth 100000 in
theorem scc_owner_tail_lines (members : List String) (hm : ∀ m ∈ members, '\n' ∉ m.data) :
    lines_of (scc_owner_tail members) =
      ["#pragma pop_macro(\"WINRT_EXPORT\")".data, []] ++
      members.map (fun m => ("#include \"winrt/impl/" ++ m ++ ".0.h\"").data) ++
      members.map (fun m => ("#include \"winrt/impl/" ++ m ++ ".1.h\"").data) ++
      members.map (fun m => ("#include \"winrt/impl/" ++ m ++ ".2.h\"").data) ++
      members.map (fun m => ("#include \"winrt/" ++ m ++ ".h\"").data) ++ [[]] := by
  have h0 := write_loop_lines _ _ impl0_include_eq members
    (fun m h => no_newline_between (by decide) (by decide) (hm m h))
  have h1 := write_loop_lines _ _ impl1_include_eq members
    (fun m h => no_newline_between (by decide) (by decide) (hm m h))
  have h2 := write_loop_lines _ _ impl2_include_eq members
    (fun m h => no_newline_between (by decide) (by decide) (hm m h))
  have h3 := write_loop_lines _ _ root_include_eq members
    (fun m h => no_newline_between (by decide) (by decide) (hm m h))
  simp only [lines_of, scc_owner_tail, List.append_assoc]
  rw [lines_from_piece (show lines_from [] ("#pragma pop_macro(\"WINRT_EXPORT\")\n" ++
   "\n").data = ["#pragma pop_macro(\"WINRT_EXPORT\")".data, []] ++ [[]] from rfl),
    lines_from_piece h0, lines_from_piece h1, lines_from_piece h2, h3]

set_option maxRecDepth 100000 in
theorem scc_owner_tail_include_lines (members : List String)
    (hm : ∀ m ∈ members, '\n' ∉ m.data) :
    include_lines (scc_owner_tail members) =
      members.map (fun m => ("#include \"winrt/impl/" ++ m ++ ".0.h\"").data) ++
      members.map (fun m => ("#include \"winrt/impl/" ++ m ++ ".1.h\"").data) ++
      members.map (fun m => ("#include \"winrt/impl/" ++ m ++ ".2.h\"").data) ++
      members.map (fun m => ("#include \"winrt/" ++ m ++ ".h\"").data) := by
  rw [include_lines, scc_owner_tail_lines members hm]
  simp only [List.filter_append]
  rw [include_lines_maps (fun m => ("#include \"winrt/impl/" ++ m ++ ".0.h\"").data)
      (fun _ => rfl),
    include_lines_maps (fun m => ("#include \"winrt/impl/" ++ m ++ ".1.h\"").data)
      (fun _ => rfl),
    include_lines_maps (fun m => ("#include \"winrt/impl/" ++ m ++ ".2.h\"").data)
      (fun _ => rfl),
    include_lines_maps (fun m => ("#include \"winrt/" ++ m ++ ".h\"").data) (fun _ => rfl),
    (show List.filter (fun l => l.take 8 == "#include".data)
      ["#pragma pop_macro(\"WINRT_EXPORT\")".data, []] = [] from rfl),
    (show List.filter (fun l => l.take 8 == "#include".data) [[]] = [] from rfl),
    List.nil_append, List.append_nil]

/-! ## The hash loop -/

theorem hash_loop_append (win64 : Bool) (b : List Nat) :
    ∀ (c : List Nat) (result : Nat),
      hash_loop win64 (b ++ c) result = hash_loop win64 c (hash_loop win64 b result) := by
  induction b with
  | nil => intro c result; rfl
  | cons x b ih =>
    intro c result
    rw [List.cons_append, hash_loop, hash_loop, ih]

/-! ## The trimming of a prefix value -/

theorem copy_ascii_ok :
    ∀ (l result : List Nat), (∀ c ∈ l, c ≤ 0x7F) → copy_ascii l result = .ok (result ++ l) := by
  intro l
  induction l with
  | nil => intro result _; simp [copy_ascii]
  | cons ch rest ih =>
    intro result h
    have hch : ¬ ch > 0x7F := Nat.not_lt.2 (h ch (List.mem_cons_self _ _))
    rw [copy_ascii, if_neg hch, ih _ (fun c hc => h c (List.mem_cons_of_mem _ hc))]
    simp

theorem head?_dropWhile_false (p : Nat → Bool) (l : List Nat) (c : Nat)
    (h : (l.dropWhile p).head? = some c) : p c = false := by
  have h1 := List.head?_dropWhile_not p l
  rw [h] at h1
  exact h1

theorem dropWhile_of_head_false (p : Nat → Bool) (l : List Nat)
    (h : ∀ c, l.head? = some c → p c = false) : l.dropWhile p = l := by
  cases l with
  | nil => rfl
  | cons a t =>
    have ha : ¬ p a = true := by rw [h a rfl]; simp
    exact List.dropWhile_cons_of_neg ha

theorem trimmed_spec (units : List Nat) :
    ∃ pre suf,
      units = pre ++
        ((units.dropWhile is_config_whitespace).reverse.dropWhile is_config_whitespace).reverse
        ++ suf ∧
      (∀ c ∈ pre, is_config_whitespace c = true) ∧
      (∀ c ∈ suf, is_config_whitespace c = true) ∧
      (∀ c, ((units.dropWhile is_config_whitespace).reverse.dropWhile
        is_config_whitespace).reverse.head? = some c → is_config_whitespace c = false) ∧
      (∀ c, ((units.dropWhile is_config_whitespace).reverse.dropWhile
        is_config_whitespace).reverse.getLast? = some c → is_config_whitespace c = false) := by
  have hsplit : units.dropWhile is_config_whitespace =
      ((units.dropWhile is_config_whitespace).reverse.dropWhile is_config_whitespace).reverse ++
      ((units.dropWhile is_config_whitespace).reverse.takeWhile
        is_config_whitespace).reverse := by
    rw [← List.reverse_append, List.takeWhile_append_dropWhile, List.reverse_reverse]
  refine ⟨units.takeWhile is_config_whitespace,
    ((units.dropWhile is_config_whitespace).reverse.takeWhile is_config_whitespace).reverse,
    ?_, fun c hc => List.mem_takeWhile_imp hc,
    fun c hc => List.mem_takeWhile_imp (List.mem_reverse.1 hc), ?_, ?_⟩
  · rw [List.append_assoc, ← hsplit, List.takeWhile_append_dropWhile]
  · intro c hc
    apply head?_dropWhile_false is_config_whitespace units c
    rw [hsplit, List.head?_append, hc]
    rfl
  · intro c hc
    rw [List.getLast?_reverse] at hc
    exact head?_dropWhile_false _ _ c hc

theorem trimmed_fixed (r : List Nat)
    (hhead : ∀ c, r.head? = some c → is_config_whitespace c = false)
    (hlast : ∀ c, r.getLast? = some c → is_config_whitespace c = false) :
    ((r.dropWhile is_config_whitespace).reverse.dropWhile is_config_whitespace).reverse = r := by
  rw [dropWhile_of_head_false _ r hhead,
    dropWhile_of_head_false _ r.reverse (by rw [List.head?_reverse]; exact hlast),
    List.reverse_reverse]

/-! ## The exit code of `run` -/

theorem visit_deps_traced_erase (D : Graph)
    (sct : String → State → Trace → Except Fault (State × Trace))
    (sc : String → State → Except Fault State)
    (h : ∀ x s g, (sct x s g).map Prod.fst = sc x s) (node : String) :
    ∀ (rest : List String) (s : State) (g : Trace),
      (visit_deps_traced D sct node rest s g).map Prod.fst = visit_deps D sc node rest s := by
  intro rest
  induction rest with
  | nil => intro s g; rfl
  | cons dep rest ih =>
    intro s g
    rw [visit_deps_traced, visit_deps]
    split_ifs with h1 h2 h3
    · exact ih _ _
    · have hx := h dep s g
      cases hr : sct dep s g with
      | error e =>
        rw [hr] at hx
        rw [← hx]
        rfl
      | ok r =>
        rw [hr] at hx
        rw [← hx]
        exact ih _ _
    · exact ih _ _
    · exact ih _ _

theorem strongconnect_traced_erase (D : Graph) :
    ∀ (fuel level : Nat) (node : String) (s : State) (g : Trace),
      (strongconnect_traced D fuel level node s g).map Prod.fst =
        strongconnect D fuel node s := by
  intro fuel
  induction fuel with
  | zero => intro level node s g; rfl
  | succ fuel ih =>
    intro level node s g
    rw [strongconnect_traced, strongconnect]
    cases hl : D.lookup node with
    | none => rfl
    | some deps =>
      have hv := visit_deps_traced_erase D (strongconnect_traced D fuel (level + 1))
        (strongconnect D fuel) (fun x s g => ih (level + 1) x s g) node deps (pushed s node)
        { calls := g.calls ++ [node], depth := max g.depth level }
      simp only
      cases hr : visit_deps_traced D (strongconnect_traced D fuel (level + 1)) node deps
          (pushed s node) { calls := g.calls ++ [node], depth := max g.depth level } with
      | error e =>
        rw [hr] at hv
        rw [← hv]
        rfl
      | ok r =>
        rw [hr] at hv
        rw [← hv]
        obtain ⟨s2, g2⟩ := r
        simp only [Except.map]
        split_ifs with h1
        · rfl
        · cases pop_component node s2.stack s2.on_stack [] with
          | error e => rfl
          | ok p => rfl

theorem visit_nodes_traced_erase (D : Graph) (fuel : Nat) :
    ∀ (rest : List String) (s : State) (g : Trace),
      (visit_nodes_traced D fuel rest s g).map Prod.fst = visit_nodes D fuel rest s := by
  intro rest
  induction rest with
  | nil => intro s g; rfl
  | cons node rest ih =>
    intro s g
    rw [visit_nodes_traced, visit_nodes]
    split_ifs with h1
    · have hx := strongconnect_traced_erase D fuel 1 node s g
      cases hr : strongconnect_traced D fuel 1 node s g with
      | error e =>
        rw [hr] at hx
        rw [← hx]
        rfl
      | ok r =>
        rw [hr] at hx
        rw [← hx]
        exact ih _ _
    · exact ih _ _


theorem getElem?_lt_of_some {l : List String} {i : Nat} {v : String} (h : l[i]? = some v) :
    i < l.length := by
  obtain ⟨hi, -⟩ := List.getElem?_eq_some.1 h
  exact hi

theorem Traced.congr {D : Graph} {s s1 : State} {g : Trace} (h : Traced D s g)
    (hi : s1.index = s.index) (hn : s1.next_index = s.next_index) : Traced D s1 g :=
  ⟨by rw [hn]; exact h.len, by rw [hi]; exact h.idx_of_call, by rw [hi]; exact h.call_of_idx,
    by rw [hn]; exact h.depth_le, h.call_key⟩

theorem Traced.call_entered {D : Graph} {s : State} {g : Trace} (h : Traced D s g) {node : String}
    (hx : s.index node = none) (hk : D.lookup node ≠ none) {level : Nat}
    (hl : level ≤ s.next_index + 1) :
    Traced D (pushed s node) { calls := g.calls ++ [node], depth := max g.depth level } := by
  refine ⟨?_, ?_, ?_, ?_, ?_⟩
  · simp [pushed, h.len]
  · intro i v hv
    by_cases hi : i < g.calls.length
    · rw [List.getElem?_append_left hi] at hv
      have h1 := h.idx_of_call i v hv
      have hne : v ≠ node := by
        rintro rfl
        rw [hx] at h1
        exact Option.noConfusion h1
      rw [pushed_index_other hne]
      exact h1
    · have hlen := getElem?_lt_of_some hv
      simp only [List.length_append, List.length_singleton] at hlen
      have hi2 : i = g.calls.length := by omega
      subst hi2
      rw [List.getElem?_concat_length] at hv
      injection hv with hv
      subst hv
      rw [pushed_index_self hx, h.len]
  · intro v i hv
    by_cases hne : v = node
    · subst hne
      rw [pushed_index_self hx] at hv
      injection hv with hv
      subst hv
      rw [← h.len]
      exact List.getElem?_concat_length _ _
    · rw [pushed_index_other hne] at hv
      have h1 := h.call_of_idx v i hv
      rw [List.getElem?_append_left (getElem?_lt_of_some h1)]
      exact h1
  · have := h.depth_le
    simp only [pushed]
    omega
  · intro v hv
    rcases List.mem_append.1 hv with h1 | h1
    · exact h.call_key v h1
    · rw [List.mem_singleton.1 h1]
      exact hk

theorem visit_deps_traced_spec {D : Graph} (level : Nat)
    {sc : String → State → Trace → Except Fault (State × Trace)}
    (hsc : ∀ x s g s1 g1, Traced D s g → s.index x = none → level ≤ s.next_index →
      sc x s g = .ok (s1, g1) →
      Traced D s1 g1 ∧ (∀ v i, s.index v = some i → s1.index v = some i) ∧
        s.next_index ≤ s1.next_index)
    (node : String) :
    ∀ (rest : List String) (s : State) (g : Trace) (s1 : State) (g1 : Trace),
      Traced D s g → level ≤ s.next_index →
      visit_deps_traced D sc node rest s g = .ok (s1, g1) →
      Traced D s1 g1 ∧ (∀ v i, s.index v = some i → s1.index v = some i) ∧
        s.next_index ≤ s1.next_index := by
  intro rest
  induction rest with
  | nil =>
    intro s g s1 g1 h _ hr
    rw [visit_deps_traced] at hr
    injection hr with hr
    injection hr with h1 h2
    subst h1
    subst h2
    exact ⟨h, fun _ _ hv => hv, le_refl _⟩
  | cons dep rest ih =>
    intro s g s1 g1 h hl hr
    rw [visit_deps_traced] at hr
    split_ifs at hr with h1 h2 h3
    · exact ih s g s1 g1 h hl hr
    · cases hc : sc dep s g with
      | error e =>
        rw [hc] at hr
        exact Except.noConfusion hr
      | ok r =>
        obtain ⟨s2, g2⟩ := r
        rw [hc] at hr
        simp only at hr
        obtain ⟨ht, hm, hn⟩ := hsc dep s g s2 g2 h h2 hl hc
        obtain ⟨ht3, hm3, hn3⟩ := ih _ g2 s1 g1 (by exact ht.congr rfl rfl)
          (by exact le_trans hl hn) hr
        exact ⟨ht3, fun v i hv => hm3 v i (hm v i hv), le_trans hn hn3⟩
    · have hsub : (subscript s.index dep).2 = s.index := by
        rw [subscript_of_ne_none h2]
      simp only at hr
      obtain ⟨ht3, hm3, hn3⟩ := ih _ g s1 g1 (by exact h.congr hsub rfl) (by exact hl) hr
      refine ⟨ht3, fun v i hv => hm3 v i ?_, hn3⟩
      show (subscript s.index dep).2 v = some i
      rw [hsub]
      exact hv
    · exact ih s g s1 g1 h hl hr

theorem strongconnect_traced_spec (D : Graph) :
    ∀ (fuel level : Nat) (node : String) (s : State) (g : Trace) (s1 : State) (g1 : Trace),
      Traced D s g → s.index node = none → level ≤ s.next_index + 1 →
      strongconnect_traced D fuel level node s g = .ok (s1, g1) →
      Traced D s1 g1 ∧ (∀ v i, s.index v = some i → s1.index v = some i) ∧
        s.next_index ≤ s1.next_index := by
  intro fuel
  induction fuel with
  | zero =>
    intro level node s g s1 g1 _ _ _ hr
    exact Except.noConfusion hr
  | succ fuel ih =>
    intro level node s g s1 g1 h hx hl hr
    rw [strongconnect_traced] at hr
    cases hk : D.lookup node with
    | none =>
      rw [hk] at hr
      exact Except.noConfusion hr
    | some deps =>
      rw [hk] at hr
      simp only at hr
      have hkey : D.lookup node ≠ none := by rw [hk]; simp
      have hent := h.call_entered hx hkey hl
      cases hv : visit_deps_traced D (strongconnect_traced D fuel (level + 1)) node deps
          (pushed s node) { calls := g.calls ++ [node], depth := max g.depth level } with
      | error e =>
        rw [hv] at hr
        exact Except.noConfusion hr
      | ok r =>
        obtain ⟨s2, g2⟩ := r
        rw [hv] at hr
        simp only at hr
        obtain ⟨ht2, hm2, hn2⟩ := visit_deps_traced_spec level
          (fun x s' g' s1' g1' ht hx' hl' hc =>
            ih (level + 1) x s' g' s1' g1' ht hx' (by omega) hc)
          node deps (pushed s node) _ s2 g2 hent (by simp only [pushed]; omega) hv
        have hnode : s2.index node ≠ none := by
          rw [hm2 node s.next_index (pushed_index_self hx)]
          simp
        have hsub : (subscript s2.index node).2 = s2.index := by
          rw [subscript_of_ne_none hnode]
        have hmono : ∀ v i, s.index v = some i → s2.index v = some i := by
          intro v i hvi
          apply hm2
          have hne : v ≠ node := by
            rintro rfl
            rw [hx] at hvi
            exact Option.noConfusion hvi
          rw [pushed_index_other hne]
          exact hvi
        have hnext : s.next_index ≤ s2.next_index := by
          have : (pushed s node).next_index = s.next_index + 1 := rfl
          omega
        split_ifs at hr with h1
        · injection hr with hr
          injection hr with ha hb
          subst ha
          subst hb
          exact ⟨ht2.congr hsub rfl, fun v i hvi => by
            show (subscript s2.index node).2 v = some i
            rw [hsub]; exact hmono v i hvi, hnext⟩
        · cases hp : pop_component node s2.stack s2.on_stack [] with
          | error e =>
            rw [hp] at hr
            exact Except.noConfusion hr
          | ok p =>
            obtain ⟨stack, on_stack, component⟩ := p
            rw [hp] at hr
            injection hr with hr
            injection hr with ha hb
            subst ha
            subst hb
            exact ⟨ht2.congr hsub rfl, fun v i hvi => by
              show (subscript s2.index node).2 v = some i
              rw [hsub]; exact hmono v i hvi, hnext⟩

theorem visit_nodes_traced_spec (D : Graph) (fuel : Nat) :
    ∀ (rest : List String) (s : State) (g : Trace) (s1 : State) (g1 : Trace),
      Traced D s g → visit_nodes_traced D fuel rest s g = .ok (s1, g1) → Traced D s1 g1 := by
  intro rest
  induction rest with
  | nil =>
    intro s g s1 g1 h hr
    rw [visit_nodes_traced] at hr
    injection hr with hr
    injection hr with h1 h2
    subst h1
    subst h2
    exact h
  | cons node rest ih =>
    intro s g s1 g1 h hr
    rw [visit_nodes_traced] at hr
    split_ifs at hr with h1
    · cases hc : strongconnect_traced D fuel 1 node s g with
      | error e =>
        rw [hc] at hr
        exact Except.noConfusion hr
      | ok r =>
        obtain ⟨s2, g2⟩ := r
        rw [hc] at hr
        exact ih s2 g2 s1 g1
          (strongconnect_traced_spec D fuel 1 node s g s2 g2 h h1 (by omega) hc).1 hr
    · exact ih s g s1 g1 h hr

theorem Traced.at_start (D : Graph) : Traced D initial_state { calls := [], depth := 0 } := by
  constructor <;> simp [initial_state]

theorem Traced.nodup {D : Graph} {s : State} {g : Trace} (h : Traced D s g) :
    g.calls.Nodup := by
  rw [List.nodup_iff_getElem?_ne_getElem?]
  intro i j hij hj heq
  obtain ⟨v, hv⟩ : ∃ v, g.calls[j]? = some v :=
    ⟨g.calls[j], List.getElem?_eq_getElem hj⟩
  have h1 := h.idx_of_call j v hv
  have h2 := h.idx_of_call i v (heq.trans hv)
  rw [h1] at h2
  injection h2 with h2
  omega

theorem compute_traced_spec (D : Graph) :
    ∃ s g, compute_strongly_connected_components_traced D = .ok (s, g) ∧
      compute_strongly_connected_components D = .ok s.components ∧
      Traced D s g ∧ ∀ k ∈ keys D, s.index k ≠ none := by
  obtain ⟨s, hs, -, -, hall⟩ := visit_nodes_spec D D.length (le_refl _) (keys D)
    initial_state (Inv.initial D) (fun n hn => (lookup_ne_none_iff D n).2 hn)
  have he := visit_nodes_traced_erase D D.length (keys D) initial_state
    { calls := [], depth := 0 }
  cases hr : visit_nodes_traced D D.length (keys D) initial_state
      { calls := [], depth := 0 } with
  | error e =>
    rw [hr, hs] at he
    exact Except.noConfusion he
  | ok r =>
    obtain ⟨s1, g1⟩ := r
    rw [hr, hs] at he
    have hs1 : s1 = s := by
      injection he
    subst hs1
    refine ⟨s1, g1, hr, ?_, visit_nodes_traced_spec D D.length (keys D) _ _ s1 g1
      (Traced.at_start D) hr, hall⟩
    unfold compute_strongly_connected_components
    have : visit_nodes D D.length (List.map Prod.fst D) initial_state = .ok s1 := hs
    rw [this]

theorem Traced.calls_perm {D : Graph} {s : State} {g : Trace} (h : Traced D s g)
    (hall : ∀ k ∈ keys D, s.index k ≠ none) :
    (∀ k, k ∈ g.calls ↔ k ∈ keys D) ∧ g.calls.Perm (keys D).dedup := by
  have hmem : ∀ k, k ∈ g.calls ↔ k ∈ keys D := by
    intro k
    constructor
    · intro hk
      exact (lookup_ne_none_iff D k).1 (h.call_key k hk)
    · intro hk
      cases hi : s.index k with
      | none => exact absurd hi (hall k hk)
      | some i => exact List.getElem?_mem (h.call_of_idx k i hi)
  refine ⟨hmem, (List.perm_ext_iff_of_nodup h.nodup (List.nodup_dedup _)).2 ?_⟩
  intro k
  rw [hmem, List.mem_dedup]

/-! ## Maps that differ in the order of their dependency lists -/

theorem sorted_lt_ext {l1 l2 : List String} (h1 : l1.Pairwise (fun a b => a < b))
    (h2 : l2.Pairwise (fun a b => a < b)) (hm : ∀ x, x ∈ l1 ↔ x ∈ l2) : l1 = l2 :=
  List.eq_of_perm_of_sorted
    ((List.perm_ext_iff_of_nodup (sorted_lt_nodup h1) (sorted_lt_nodup h2)).2 hm)
    (h1.imp le_of_lt) (h2.imp le_of_lt)

theorem sorted_keys_ext {V : Type} :
    ∀ {l1 l2 : List (String × V)}, (l1.map Prod.fst).Pairwise (fun a b => a < b) →
      (l2.map Prod.fst).Pairwise (fun a b => a < b) → (∀ p, p ∈ l1 ↔ p ∈ l2) → l1 = l2 := by
  intro l1
  induction l1 with
  | nil =>
    intro l2 _ _ hm
    cases l2 with
    | nil => rfl
    | cons q l2 => exact absurd ((hm q).2 (List.mem_cons_self _ _)) (by simp)
  | cons p l1 ih =>
    intro l2 h1 h2 hm
    cases l2 with
    | nil => exact absurd ((hm p).1 (List.mem_cons_self _ _)) (by simp)
    | cons q l2 =>
      rw [List.map_cons, List.pairwise_cons] at h1 h2
      have hlt1 : ∀ x ∈ l1, p.1 < x.1 := fun x hx => h1.1 x.1 (List.mem_map.2 ⟨x, hx, rfl⟩)
      have hlt2 : ∀ x ∈ l2, q.1 < x.1 := fun x hx => h2.1 x.1 (List.mem_map.2 ⟨x, hx, rfl⟩)
      have hpq : p = q := by
        have hp := (hm p).1 (List.mem_cons_self _ _)
        have hq := (hm q).2 (List.mem_cons_self _ _)
        rcases List.mem_cons.1 hp with hp | hp
        · exact hp
        · rcases List.mem_cons.1 hq with hq | hq
          · exact hq.symm
          · exact absurd (hlt1 q hq) (lt_asymm (hlt2 p hp))
      subst hpq
      rw [ih h1.2 h2.2]
      intro x
      constructor
      · intro hx
        rcases List.mem_cons.1 ((hm x).1 (List.mem_cons_of_mem _ hx)) with h | h
        · rw [h] at hx
          exact absurd (hlt1 p hx) (lt_irrefl _)
        · exact h
      · intro hx
        rcases List.mem_cons.1 ((hm x).2 (List.mem_cons_of_mem _ hx)) with h | h
        · rw [h] at hx
          exact absurd (hlt2 p hx) (lt_irrefl _)
        · exact h

theorem edge_congr {D1 D2 : Graph} (hkeys : keys D1 = keys D2)
    (hdeps : ∀ k deps1 deps2, D1.lookup k = some deps1 → D2.lookup k = some deps2 →
      ∀ x, x ∈ deps1 ↔ x ∈ deps2) {u v : String} (h : edge D1 u v) : edge D2 u v := by
  obtain ⟨deps1, hl, hv, hk⟩ := h
  have hu2 : D2.lookup u ≠ none := by
    rw [lookup_ne_none_iff, ← hkeys, ← lookup_ne_none_iff, hl]
    simp
  cases hl2 : D2.lookup u with
  | none => exact absurd hl2 hu2
  | some deps2 =>
    refine ⟨deps2, hl2, (hdeps u deps1 deps2 hl hl2 v).1 hv, ?_⟩
    rw [lookup_ne_none_iff, ← hkeys, ← lookup_ne_none_iff]
    exact hk

theorem reach_congr {D1 D2 : Graph} (hkeys : keys D1 = keys D2)
    (hdeps : ∀ k deps1 deps2, D1.lookup k = some deps1 → D2.lookup k = some deps2 →
      ∀ x, x ∈ deps1 ↔ x ∈ deps2) {u v : String} (h : reach D1 u v) : reach D2 u v :=
  Relation.ReflTransGen.mono (fun _ _ he => edge_congr hkeys hdeps he) h

theorem component_congr {D1 D2 : Graph} {comps1 comps2 : List (List String)}
    (hS1 : SccDecomposition D1 comps1) (hS2 : SccDecomposition D2 comps2)
    (hkeys : keys D1 = keys D2)
    (h12 : ∀ u v, reach D1 u v → reach D2 u v) (h21 : ∀ u v, reach D2 u v → reach D1 u v)
    {c1 : List String} (hc1 : c1 ∈ comps1) :
    ∃ c2 ∈ comps2, sort_strings c1 = sort_strings c2 ∧ ∀ x, x ∈ c1 ↔ x ∈ c2 := by
  obtain ⟨a, rest, hc⟩ := List.exists_cons_of_ne_nil (hS1.ne c1 hc1)
  have ha : a ∈ c1 := by rw [hc]; exact List.mem_cons_self _ _
  have hak : a ∈ keys D2 := by rw [← hkeys]; exact (hS1.cover a).1 ⟨c1, hc1, ha⟩
  obtain ⟨c2, hc2, ha2⟩ := (hS2.cover a).2 hak
  have hm : ∀ x, x ∈ c1 ↔ x ∈ c2 := by
    intro x
    constructor
    · intro hx
      exact hS2.max c2 hc2 a ha2 x (h12 _ _ (hS1.conn c1 hc1 a ha x hx))
        (h12 _ _ (hS1.conn c1 hc1 x hx a ha))
    · intro hx
      exact hS1.max c1 hc1 a ha x (h21 _ _ (hS2.conn c2 hc2 a ha2 x hx))
        (h21 _ _ (hS2.conn c2 hc2 x hx a ha2))
  exact ⟨c2, hc2, sort_strings_eq_of_perm
    ((List.perm_ext_iff_of_nodup (hS1.nodup c1 hc1) (hS2.nodup c2 hc2)).2 hm), hm⟩

theorem tables_sub {comps1 comps2 : List (List String)} {t1 t2 : Tables}
    (hi1 : TablesInv comps1 t1) (hi2 : TablesInv comps2 t2)
    (hcomp : ∀ c1 ∈ comps1, ∃ c2 ∈ comps2, sort_strings c1 = sort_strings c2 ∧
      ∀ x, x ∈ c1 ↔ x ∈ c2) :
    (∀ p, p ∈ t1.members_by_owner → p ∈ t2.members_by_owner) ∧
    (∀ p, p ∈ t1.owner_of → p ∈ t2.owner_of) := by
  constructor
  · rintro ⟨o, ms⟩ hp
    obtain ⟨c1, hc1, hms, tail, htail⟩ := hi1.entry hp
    obtain ⟨c2, hc2, hsort, -⟩ := hcomp c1 hc1
    obtain ⟨o2, hp2⟩ := hi2.entry_of_comp hc2
    have hh := hi2.mbo_head _ hp2
    rw [← hsort, ← hms, htail] at hh
    simp only [List.head?_cons, Option.some.injEq] at hh
    rw [← hsort, ← hms, ← hh] at hp2
    exact hp2
  · rintro ⟨ns, o⟩ hp
    obtain ⟨c1, hc1, hns, hh⟩ := (hi1.oo_mem ns o).1 hp
    obtain ⟨c2, hc2, hsort, hm⟩ := hcomp c1 hc1
    exact (hi2.oo_mem ns o).2 ⟨c2, hc2, (hm ns).1 hns, by rw [← hsort]; exact hh⟩

theorem external_of_congr {D1 D2 : Graph} (oo : List (String × String)) (o : String)
    (ms : List String)
    (hdeps : ∀ ns ∈ ms, ∀ x, x ∈ (D1.lookup ns).getD [] ↔ x ∈ (D2.lookup ns).getD []) :
    external_of D1 oo o ms [] = external_of D2 oo o ms [] := by
  obtain ⟨hs1, hm1⟩ := external_of_spec D1 oo o ms [] List.Pairwise.nil
  obtain ⟨hs2, hm2⟩ := external_of_spec D2 oo o ms [] List.Pairwise.nil
  apply sorted_lt_ext hs1 hs2
  intro x
  rw [hm1, hm2]
  constructor
  · rintro (h | ⟨ns, hns, hx, ho⟩)
    · exact Or.inl h
    · exact Or.inr ⟨ns, hns, (hdeps ns hns x).1 hx, ho⟩
  · rintro (h | ⟨ns, hns, hx, ho⟩)
    · exact Or.inl h
    · exact Or.inr ⟨ns, hns, (hdeps ns hns x).2 hx, ho⟩

/-! ## The errors of `process_args` -/

theorem process_license_ok (args : Arguments) (settings settings1 : Settings)
    (h : process_license args settings = .ok settings1) : settings1 = settings := by
  unfold process_license at h
  cases hl : license_template args.license with
  | error e => rw [hl] at h; exact Except.noConfusion h
  | ok t =>
    rw [hl] at h
    injection h with h
    exact h.symm

/-- C1: for every dependency map, any two keys that are each reachable from the other
along edges whose targets are keys are placed in the same returned component; in
particular two returned components with mutually reachable members are the same
component. -/
theorem scc_mutually_reachable_same_component (D : Graph) :
    ∃ comps, compute_strongly_connected_components D = .ok comps ∧
      (∀ N ∈ keys D, ∀ M ∈ keys D, reach D N M → reach D M N →
        ∃ c ∈ comps, N ∈ c ∧ M ∈ c) ∧
      (∀ c1 ∈ comps, ∀ c2 ∈ comps, ∀ a ∈ c1, ∀ b ∈ c2,
        reach D a b → reach D b a → c1 = c2) := by
  obtain ⟨comps, hc, -, -, hdisj, hcover, -, hmax⟩ := compute_scc_spec D
  refine ⟨comps, hc, ?_, ?_⟩
  · intro N hN M _ hNM hMN
    obtain ⟨c, hcm, hNc⟩ := (hcover N).2 hN
    exact ⟨c, hcm, hNc, hmax c hcm N hNc M hNM hMN⟩
  · intro c1 h1 c2 h2 a ha b hb hab hba
    by_contra hne
    have hd : List.Disjoint c1 c2 :=
      hdisj.forall (fun _ _ h => h.symm) h1 h2 hne
    exact hd (hmax c1 h1 a ha b hab hba) hb

/-- C2: for every dependency map, any two namespaces returned in the same component
are mutually reachable in the graph on the keys whose edges are the dependencies that
are keys. -/
theorem scc_component_strongly_connected (D : Graph) :
    ∃ comps, compute_strongly_connected_components D = .ok comps ∧
      ∀ c ∈ comps, ∀ a ∈ c, ∀ b ∈ c, reach D a b ∧ reach D b a := by
  obtain ⟨comps, hc, -, -, -, -, hconn, -⟩ := compute_scc_spec D
  exact ⟨comps, hc, fun c hcm a ha b hb => ⟨hconn c hcm a ha b hb, hconn c hcm b hb a ha⟩⟩

/-- C3: for every dependency map, the returned components partition the keys: every
component is non-empty and free of repetitions, distinct components are disjoint,
every key lies in a component, and every member of a component is a key. -/
theorem scc_components_partition_keys (D : Graph) :
    ∃ comps, compute_strongly_connected_components D = .ok comps ∧
      (∀ c ∈ comps, c ≠ []) ∧ (∀ c ∈ comps, c.Nodup) ∧
      comps.Pairwise List.Disjoint ∧
      (∀ k ∈ keys D, ∃ c ∈ comps, k ∈ c) ∧
      (∀ c ∈ comps, ∀ v ∈ c, v ∈ keys D) := by
  obtain ⟨comps, hc, hne, hnd, hdisj, hcover, -, -⟩ := compute_scc_spec D
  exact ⟨comps, hc, hne, hnd, hdisj, fun k hk => (hcover k).2 hk,
    fun c hcm v hv => (hcover v).1 ⟨c, hcm, hv⟩⟩

/-- C4: after the post-processing of the planner every member list stored in
`members_by_owner` is strictly increasing, its key is its least member, `owner_of` maps
each of its members to that key, it is a rearrangement of a returned component, and the
stored lists are, one for one, the sorted components (distinct keys, so no two
components collide on an owner). -/
theorem planner_tables_owner_least (D : Graph) :
    ∃ comps t calls, compute_strongly_connected_components D = .ok comps ∧
      plan_modules D = .ok (t, calls) ∧
      (∀ o ms, (o, ms) ∈ t.members_by_owner →
        ms.Pairwise (fun a b => a < b) ∧ o ∈ ms ∧ (∀ m ∈ ms, o ≤ m) ∧
        (∀ m ∈ ms, t.owner_of.lookup m = some o) ∧ ∃ c ∈ comps, ms.Perm c) ∧
      (t.members_by_owner.map Prod.snd).Perm (comps.map sort_strings) ∧
      (t.members_by_owner.map Prod.fst).Pairwise (fun a b => a < b) := by
  obtain ⟨comps, t, hc, -, hinv, hplan, -, hnd, -, -, -, -⟩ := plan_modules_spec D
  refine ⟨comps, t, _, hc, hplan, ?_, hinv.mbo_perm, hinv.mbo_sorted⟩
  intro o ms hp
  obtain ⟨c, hcm, hms, tail, htail⟩ := hinv.entry hp
  have hsorted : ms.Pairwise (fun a b => a < b) := by
    rw [hms]; exact sort_strings_sorted_lt (hnd c hcm)
  have hhead : (sort_strings c).head? = some o := by
    rw [← hms, htail]; rfl
  refine ⟨hsorted, by rw [htail]; exact List.mem_cons_self _ _, ?_, ?_, c, hcm, ?_⟩
  · intro m hm
    rw [htail] at hm hsorted
    rcases List.mem_cons.1 hm with h1 | h1
    · rw [h1]
    · exact le_of_lt ((List.pairwise_cons.1 hsorted).1 m h1)
  · intro m hm
    rw [hinv.lookup_owner]
    refine ⟨c, hcm, ?_, hhead⟩
    rw [hms] at hm
    exact mem_sort_strings.1 hm
  · rw [hms]; exact sort_strings_perm c

/-- C5: when every dependency list is strictly increasing and does not contain its own
namespace, the import list passed to the unit of every component (`write_namespace_ixx`
for a singleton, `write_namespace_scc_owner_ixx` otherwise) is strictly increasing and
consists of the dependencies of the members whose owner is not the owner of the
component, that is the dependencies of the members that are not members. -/
theorem planner_import_lists (D : Graph)
    (hD : ∀ N deps, D.lookup N = some deps → deps.Pairwise (fun a b => a < b) ∧ N ∉ deps) :
    ∃ t calls, plan_modules D = .ok (t, calls) ∧
      (∀ o ms, (o, ms) ∈ t.members_by_owner → ∃ imports,
        (if ms.length = 1 then WriteCall.namespace_ixx o imports
          else WriteCall.scc_owner_ixx o ms imports) ∈ calls ∧
        external_imports_ok D t.owner_of o ms imports) ∧
      (∀ u ∈ calls, ∀ o imports,
        (u = WriteCall.namespace_ixx o imports ∨ ∃ ms', u = WriteCall.scc_owner_ixx o ms' imports) →
        ∃ ms, (o, ms) ∈ t.members_by_owner ∧ external_imports_ok D t.owner_of o ms imports) := by
  obtain ⟨comps, t, -, -, hinv, hplan, -, -, hdisj, hcover, -, -⟩ := plan_modules_spec D
  have hkeys : ∀ c ∈ comps, ∀ v ∈ c, D.lookup v ≠ none := fun c hc v hv =>
    (lookup_ne_none_iff D v).2 ((hcover v).1 ⟨c, hc, hv⟩)
  refine ⟨t, _, hplan, ?_, ?_⟩
  · intro o ms hp
    have hok := entry_imports_ok hD hinv hdisj hkeys hp
    refine ⟨_, ?_, hok⟩
    rw [List.mem_flatMap]
    refine ⟨(o, ms), hp, ?_⟩
    rw [mem_calls_of]
    by_cases hlen : ms.length = 1
    · simp [hlen]
    · simp [hlen]
  · intro u hu o imports hform
    obtain ⟨⟨o', ms⟩, hp, hmem⟩ := List.mem_flatMap.1 hu
    have hok := entry_imports_ok hD hinv hdisj hkeys hp
    rw [mem_calls_of] at hmem
    rcases hmem with ⟨hlen, rfl⟩ | ⟨hlen, rfl | ⟨ns, -, -, rfl⟩⟩
    · rcases hform with h1 | ⟨ms', h1⟩
      · simp only [WriteCall.namespace_ixx.injEq] at h1
        obtain ⟨rfl, rfl⟩ := h1
        rw [if_pos hlen] at hok
        exact ⟨ms, hp, hok⟩
      · simp at h1
    · rcases hform with h1 | ⟨ms', h1⟩
      · simp at h1
      · simp only [WriteCall.scc_owner_ixx.injEq] at h1
        obtain ⟨rfl, -, rfl⟩ := h1
        rw [if_neg hlen] at hok
        exact ⟨ms, hp, hok⟩
    · rcases hform with h1 | ⟨ms', h1⟩
      · simp at h1
      · simp at h1

/-- C6: when no namespace lists itself, the import relation between the emitted module
units has no cycle: whenever unit `A` imports `B`, no chain of imports leads from `B`
back to `A`. -/
theorem planner_imports_acyclic (D : Graph)
    (hself : ∀ N deps, D.lookup N = some deps → N ∉ deps) :
    ∃ t calls, plan_modules D = .ok (t, calls) ∧
      ∀ A B, imports_rel calls A B → ¬ Relation.ReflTransGen (imports_rel calls) B A := by
  obtain ⟨comps, t, -, -, hinv, hplan, hne, hnd, hdisj, hcover, hconn, hmax⟩ :=
    plan_modules_spec D
  have hS : SccDecomposition D comps := ⟨hne, hnd, hdisj, hcover, hconn, hmax⟩
  refine ⟨t, _, hplan, ?_⟩
  intro A B hAB hBA
  have hAk := (imports_rel_reach hinv hS hAB).1
  obtain ⟨hBk, hBA'⟩ := imports_chain_reach hinv hS hBA hAk
  have hAB' := (imports_rel_reach hinv hS hAB).2 hBk
  obtain ⟨o, ms, hp, hAm, hAo, hBo⟩ := imports_rel_stub hself hinv hS hAB hBA'
  rcases Relation.ReflTransGen.cases_head hBA with h1 | ⟨Z, hBZ, hZA⟩
  · exact hAo (h1.symm.trans hBo)
  · obtain ⟨-, hZA'⟩ := imports_chain_reach hinv hS hZA hAk
    obtain ⟨o', ms', hp', hBm', hBo', -⟩ :=
      imports_rel_stub hself hinv hS hBZ (hZA'.trans hAB')
    have hBm : B ∈ ms := by rw [hBo]; exact (entry_scc hinv hS hp).1
    exact hBo' (hBo.trans (entry_same hinv hdisj hp hp' hBm hBm').1)

/-- C7: the driver calls `write_namespace_reexport_ixx(ns, target)` exactly for the
pairs in which `ns` is a member other than the owner of a component with at least two
members and `target` is the owner (the least member) of that component; and, namespace
names being free of line breaks, the text of each stub after the preamble has exactly two
lines that are neither blank nor comments: `export module <ns>;` and
`export import <target>;`. -/
theorem planner_reexport_stubs (D : Graph) (preamble : String)
    (hid : ∀ k ∈ keys D, '\n' ∉ k.data) :
    ∃ comps t calls, compute_strongly_connected_components D = .ok comps ∧
      plan_modules D = .ok (t, calls) ∧
      (∀ ns target, WriteCall.reexport_ixx ns target ∈ calls ↔
        ∃ c ∈ comps, 2 ≤ c.length ∧ ns ∈ c ∧ ns ≠ target ∧ target ∈ c ∧
          ∀ m ∈ c, target ≤ m) ∧
      (∀ ns target, WriteCall.reexport_ixx ns target ∈ calls →
        ∃ body, write_namespace_reexport_ixx preamble ns target = preamble ++ body ∧
          directive_lines body.data =
            [("export module " ++ ns ++ ";").data, ("export import " ++ target ++ ";").data]) := by
  obtain ⟨comps, t, hc, -, hinv, hplan, hne, hnd, hdisj, hcover, hconn, hmax⟩ :=
    plan_modules_spec D
  have hS : SccDecomposition D comps := ⟨hne, hnd, hdisj, hcover, hconn, hmax⟩
  have hstub : ∀ ns target,
      WriteCall.reexport_ixx ns target ∈ t.members_by_owner.flatMap (calls_of D t.owner_of) ↔
        ∃ ms, (target, ms) ∈ t.members_by_owner ∧ ms.length ≠ 1 ∧ ns ∈ ms ∧ ns ≠ target := by
    intro ns target
    rw [List.mem_flatMap]
    constructor
    · rintro ⟨⟨o, ms⟩, hp, hmem⟩
      rw [mem_calls_of] at hmem
      rcases hmem with ⟨-, h1⟩ | ⟨hlen, h1 | ⟨ns', hns', hne', h1⟩⟩
      · simp at h1
      · simp at h1
      · simp only [WriteCall.reexport_ixx.injEq] at h1
        obtain ⟨rfl, rfl⟩ := h1
        exact ⟨ms, hp, hlen, hns', hne'⟩
    · rintro ⟨ms, hp, hlen, hns, hne'⟩
      refine ⟨(target, ms), hp, ?_⟩
      rw [mem_calls_of]
      exact Or.inr ⟨hlen, Or.inr ⟨ns, hns, hne', rfl⟩⟩
  refine ⟨comps, t, _, hc, hplan, ?_, ?_⟩
  · intro ns target
    rw [hstub]
    constructor
    · rintro ⟨ms, hp, hlen, hns, hne'⟩
      obtain ⟨c, hcm, hms, tail, htail⟩ := hinv.entry hp
      have hm : ∀ x, x ∈ ms ↔ x ∈ c := by
        intro x; rw [hms]; exact mem_sort_strings
      refine ⟨c, hcm, ?_, (hm ns).1 hns, hne', ?_, ?_⟩
      · have hl : c.length = ms.length := by
          rw [hms]; exact (sort_strings_perm c).length_eq.symm
        have hpos : 0 < ms.length := by rw [htail]; simp
        omega
      · exact (hm target).1 (by rw [htail]; exact List.mem_cons_self _ _)
      · intro m hmc
        exact hinv.owner_le hp m ((hm m).2 hmc)
    · rintro ⟨c, hcm, hlen, hns, hne', htc, hleast⟩
      obtain ⟨o, hp⟩ := hinv.entry_of_comp hcm
      have ho : o ∈ sort_strings c := (entry_scc hinv hS hp).1
      have hot : o = target :=
        le_antisymm (hinv.owner_le hp target (mem_sort_strings.2 htc))
          (hleast o (mem_sort_strings.1 ho))
      rw [hot] at hp
      refine ⟨sort_strings c, hp, ?_, mem_sort_strings.2 hns, hne'⟩
      rw [(sort_strings_perm c).length_eq]
      omega
  · intro ns target hmem
    obtain ⟨ms, hp, -, hns, -⟩ := (hstub ns target).1 hmem
    obtain ⟨ho, hkey, -, -⟩ := entry_scc hinv hS hp
    have hn : '\n' ∉ ns.data := hid ns ((lookup_ne_none_iff D ns).1 (hkey ns hns))
    have ht : '\n' ∉ target.data := hid target ((lookup_ne_none_iff D target).1 (hkey target ho))
    exact ⟨_, rfl, reexport_directive_lines ns target hn ht⟩

/-- C8: in module mode the namespaces for which a `winrt/<ns>.ixx` unit is written are
exactly the namespaces whose headers are emitted, which are the namespaces of the cache
that have projected types and are admitted by the projection filter; no unit name and no
unit path occurs twice. -/
theorem run_modules_coverage {M T : Type} (has_projected_types includes : M → Bool)
    (namespaces : List (String × M)) (depends : String → Nat → List (String × T))
    (output_folder : String) :
    ∃ emitted calls,
      run_modules has_projected_types includes namespaces depends = .ok (emitted, calls) ∧
      (∀ ns, ns ∈ emitted ↔ ∃ members, (ns, members) ∈ namespaces ∧
        has_projected_types members = true ∧ includes members = true) ∧
      (∀ ns, ns ∈ calls.map WriteCall.unit_name ↔ ns ∈ emitted) ∧
      (calls.map WriteCall.unit_name).Nodup ∧
      (calls.map (WriteCall.path output_folder)).Nodup := by
  obtain ⟨h1, h2, -⟩ := emission_loop_spec has_projected_types includes namespaces depends
    namespaces ([], [])
  obtain ⟨t, calls, hplan, hnd, hmem⟩ := plan_unit_names
    (emission_loop has_projected_types includes namespaces depends namespaces ([], [])).2
  refine ⟨(emission_loop has_projected_types includes namespaces depends namespaces
    ([], [])).1, calls, ?_, ?_, ?_, hnd, ?_⟩
  · unfold run_modules
    simp only [hplan]
  · intro ns
    rw [h1]
    simp only [List.nil_append, List.mem_map, List.mem_filter, Bool.and_eq_true]
    constructor
    · rintro ⟨⟨k, m⟩, ⟨hm, hp, hi⟩, rfl⟩
      exact ⟨m, hm, hp, hi⟩
    · rintro ⟨m, hm, hp, hi⟩
      exact ⟨(ns, m), ⟨hm, hp, hi⟩, rfl⟩
  · intro ns
    rw [hmem, h2, h1]
    simp [keys]
  · have : calls.map (WriteCall.path output_folder) =
        (calls.map WriteCall.unit_name).map
          (fun n => output_folder ++ "winrt/" ++ n ++ ".ixx") := by
      rw [List.map_map]; rfl
    rw [this]
    exact hnd.map (fun a b hab => ixx_path_injective output_folder hab)

/-- C10, as stated, fails: with a cache of two namespaces `A` and `B` that both have
projected types, a projection filter that admits only `A`, and a reference from `A` to
`B`, the unit of `A` imports `B` although no header and no unit is emitted for `B`. -/
theorem import_of_unemitted_namespace :
    ¬ (∀ emitted calls,
        run_modules (fun _ : Nat => true) (fun m => m == 0) [("A", 0), ("B", 1)]
          (fun ns p => if ns = "A" ∧ p = 1 then [("B", ())] else []) = .ok (emitted, calls) →
        ∀ u ∈ calls, ∀ x ∈ u.unit_imports, x ∈ emitted) := by
  intro h
  have h1 := h ["A"] [WriteCall.namespace_ixx "A" ["B"]] rfl
    (WriteCall.namespace_ixx "A" ["B"]) (List.mem_singleton_self _) "B"
    (List.mem_singleton_self _)
  simp at h1

/-- C10, amended: in module mode every namespace imported by an emitted singleton or
SCC-owner unit is a namespace of the cache that has projected types (whether or not the
projection filter admits it). -/
theorem imports_have_projected_types {M T : Type} (has_projected_types includes : M → Bool)
    (namespaces : List (String × M)) (depends : String → Nat → List (String × T)) :
    ∃ emitted calls,
      run_modules has_projected_types includes namespaces depends = .ok (emitted, calls) ∧
      ∀ u ∈ calls, (∀ ns target, u ≠ WriteCall.reexport_ixx ns target) →
        ∀ x ∈ u.unit_imports,
          ∃ members, namespaces.lookup x = some members ∧ has_projected_types members = true := by
  obtain ⟨-, -, h3⟩ := emission_loop_spec has_projected_types includes namespaces depends
    namespaces ([], [])
  obtain ⟨t, calls, hplan, hsub⟩ := plan_imports_subset
    (emission_loop has_projected_types includes namespaces depends namespaces ([], [])).2
  refine ⟨(emission_loop has_projected_types includes namespaces depends namespaces
    ([], [])).1, calls, ?_, ?_⟩
  · unfold run_modules
    simp only [hplan]
  · intro u hu hnot x hx
    obtain ⟨N, deps, hl, hxd⟩ := hsub u hu hnot x hx
    rcases h3 N deps (mem_of_lookup hl) with h4 | h4
    · simp at h4
    · rw [h4, mem_namespace_task] at hxd
      obtain ⟨p, -, hp⟩ := hxd
      exact ((mem_module_imports _ _ _ _ _ _).1 hp).2.2

/-- C11: in module mode the dependency map has an entry for every namespace of the cache
that has projected types and is admitted by the projection filter, and for no other
name; these are the namespaces whose headers are emitted. The list stored for a namespace
`N` is strictly increasing (hence duplicate-free), consists exactly of the namespaces the
dependency collector returns in at least one of the four phases of `N`, and does not
contain `N`. -/
theorem module_imports_union_of_phases {M T : Type} (has_projected_types includes : M → Bool)
    (namespaces : List (String × M)) (depends : String → Nat → List (String × T)) :
    (∀ N members, (N, members) ∈ namespaces → has_projected_types members = true →
      includes members = true →
      ∃ deps, (emission_loop has_projected_types includes namespaces depends namespaces
        ([], [])).2.lookup N = some deps) ∧
    (∀ N deps, (emission_loop has_projected_types includes namespaces depends namespaces
        ([], [])).2.lookup N = some deps →
      ∃ members, (N, members) ∈ namespaces ∧ has_projected_types members = true ∧
        includes members = true) ∧
    (∀ N, N ∈ (emission_loop has_projected_types includes namespaces depends namespaces
        ([], [])).1 →
      ∃ deps, (emission_loop has_projected_types includes namespaces depends namespaces
        ([], [])).2.lookup N = some deps) ∧
    ∀ N deps, (emission_loop has_projected_types includes namespaces depends namespaces
        ([], [])).2.lookup N = some deps →
      deps.Pairwise (fun a b => a < b) ∧
      (∀ x, x ∈ deps ↔ ∃ p, p < 4 ∧
        x ∈ get_namespace_module_imports has_projected_types namespaces N (depends N p) []) ∧
      N ∉ deps := by
  obtain ⟨h1, h2, h3⟩ := emission_loop_spec has_projected_types includes namespaces depends
    namespaces ([], [])
  refine ⟨?_, ?_, ?_, ?_⟩
  · intro N members hmem hp hi
    apply Option.ne_none_iff_exists'.1
    rw [lookup_ne_none_iff, h2]
    right
    exact List.mem_map.2 ⟨(N, members), List.mem_filter.2 ⟨hmem, by simp [hp, hi]⟩, rfl⟩
  · intro N deps hl
    have hk : N ∈ keys (emission_loop has_projected_types includes namespaces depends
        namespaces ([], [])).2 := by
      rw [← lookup_ne_none_iff, hl]
      simp
    rw [h2] at hk
    rcases hk with hk | hk
    · simp [keys] at hk
    · obtain ⟨p, hp, hN⟩ := List.mem_map.1 hk
      obtain ⟨hp1, hp2⟩ := List.mem_filter.1 hp
      rw [Bool.and_eq_true] at hp2
      refine ⟨p.2, ?_, hp2.1, hp2.2⟩
      rw [← hN]
      exact hp1
  · intro N hN
    apply Option.ne_none_iff_exists'.1
    rw [lookup_ne_none_iff, h2]
    right
    rw [h1] at hN
    simpa using hN
  · intro N deps hl
    have hd : deps = namespace_task has_projected_types namespaces depends N := by
      rcases h3 N deps (mem_of_lookup hl) with h4 | h4
      · simp at h4
      · exact h4
    rw [hd]
    refine ⟨namespace_task_sorted _ _ _ _, mem_namespace_task _ _ _ _, ?_⟩
    intro hmem
    obtain ⟨p, -, hp⟩ := (mem_namespace_task _ _ _ _ _).1 hmem
    exact ((mem_module_imports _ _ _ _ _ _).1 hp).2.1 rfl

/-- C12: for every dependency map, the components returned for it are the components
returned for the map in which every dependency that is not a key has been deleted from
every list: edges into namespaces absent from the map have no influence. -/
theorem scc_ignores_absent_edges (D : Graph) :
    compute_strongly_connected_components (without_absent_edges D) =
      compute_strongly_connected_components D := by
  unfold compute_strongly_connected_components
  have hlen : (without_absent_edges D).length = D.length := by
    simp [without_absent_edges]
  have hkeys : (without_absent_edges D).map Prod.fst = D.map Prod.fst := by
    simp [without_absent_edges, List.map_map, Function.comp_def]
  rw [hlen, hkeys, visit_nodes_without_absent_edges]

/-- C13: for at least two distinct namespaces that form a single directed cycle (each
depends exactly on the next and the last on the first) the search returns one component
with all of them; the planner stores them sorted under their least member as owner, writes
one SCC-owner unit for the owner with an empty import list, and then one re-export stub
targeting the owner for each of the other namespaces. -/
theorem single_cycle_plan (D : Graph) (cyc : List String) (hnd : cyc.Nodup)
    (hlen : 2 ≤ cyc.length) (hkeys : ∀ k, k ∈ keys D ↔ k ∈ cyc)
    (hcyc : ∀ p ∈ cyc.zip (cyc.rotate 1), D.lookup p.1 = some [p.2]) :
    ∃ c t owner others,
      compute_strongly_connected_components D = .ok [c] ∧ c.Perm cyc ∧
      sort_strings cyc = owner :: others ∧ (∀ m ∈ cyc, owner ≤ m) ∧
      (owner :: others).Pairwise (fun a b => a < b) ∧
      t.members_by_owner = [(owner, owner :: others)] ∧
      plan_modules D = .ok (t,
        WriteCall.scc_owner_ixx owner (owner :: others) [] ::
          others.map (fun ns => WriteCall.reexport_ixx ns owner)) := by
  obtain ⟨comps, t, hc, -, hinv, hplan, hne, hnd', hdisj, hcover, hconn, hmax⟩ :=
    plan_modules_spec D
  have hS : SccDecomposition D comps := ⟨hne, hnd', hdisj, hcover, hconn, hmax⟩
  cases hcy : cyc with
  | nil => rw [hcy] at hlen; simp at hlen
  | cons a rest =>
    have hrot : cyc.rotate 1 = rest ++ [a] := by
      rw [hcy, List.rotate_cons_succ, List.rotate_zero]
    have hkey : ∀ x ∈ cyc, D.lookup x ≠ none := fun x hx =>
      (lookup_ne_none_iff D x).2 ((hkeys x).2 hx)
    have hedge : ∀ p ∈ (a :: rest).zip (rest ++ [a]), edge D p.1 p.2 := by
      rintro ⟨x, y⟩ hp
      have hl := hcyc (x, y) (by rw [hrot, hcy]; exact hp)
      refine ⟨[y], hl, List.mem_singleton_self _, hkey y ?_⟩
      have hy := (List.of_mem_zip hp).2
      rw [hcy]
      rcases List.mem_append.1 hy with h1 | h1
      · exact List.mem_cons_of_mem _ h1
      · rw [List.mem_singleton] at h1; rw [h1]; exact List.mem_cons_self _ _
    have hreach := chain_reach rest a a hedge
    have ha : a ∈ cyc := by rw [hcy]; exact List.mem_cons_self _ _
    obtain ⟨c0, hc0, hac0⟩ := (hcover a).2 ((hkeys a).2 ha)
    have hall_in : ∀ x ∈ cyc, x ∈ c0 := by
      intro x hx
      rw [hcy] at hx
      exact hmax c0 hc0 a hac0 x (hreach x hx).1 (hreach x hx).2.to_reflTransGen
    have hc0_mem : ∀ x, x ∈ c0 ↔ x ∈ cyc := fun x =>
      ⟨fun hx => (hkeys x).1 ((hcover x).1 ⟨c0, hc0, hx⟩), hall_in x⟩
    have hcomps : comps = [c0] := by
      refine single_component (hne c0 hc0) hdisj hc0 ?_
      intro c hcm
      by_contra hcne
      obtain ⟨x, hx⟩ := List.exists_mem_of_ne_nil c (hne c hcm)
      have hx0 : x ∈ c0 := hall_in x ((hkeys x).1 ((hcover x).1 ⟨c, hcm, hx⟩))
      exact hdisj.forall (fun _ _ hd => hd.symm) hcm hc0 hcne hx hx0
    have hperm : c0.Perm cyc := (List.perm_ext_iff_of_nodup (hnd' c0 hc0) hnd).2 hc0_mem
    have hsort : sort_strings c0 = sort_strings cyc := sort_strings_eq_of_perm hperm
    have hvals : t.members_by_owner.map Prod.snd = [sort_strings cyc] := by
      have := hinv.mbo_perm
      rw [hcomps, List.map_cons, List.map_nil, hsort] at this
      exact List.perm_singleton.1 this
    cases hm : t.members_by_owner with
    | nil => rw [hm] at hvals; simp at hvals
    | cons p ps =>
      obtain ⟨o, ms⟩ := p
      rw [hm] at hvals
      simp only [List.map_cons, List.cons.injEq, List.map_eq_nil_iff] at hvals
      obtain ⟨hms, hps⟩ := hvals
      subst hps
      have hp : (o, ms) ∈ t.members_by_owner := by rw [hm]; exact List.mem_singleton_self _
      obtain ⟨-, -, -, tail, htail⟩ := hinv.entry hp
      have hmem : ∀ x, x ∈ ms ↔ x ∈ cyc := by
        intro x; rw [hms]; exact mem_sort_strings
      have hsorted : ms.Pairwise (fun a b => a < b) := by
        rw [hms]; exact sort_strings_sorted_lt hnd
      have hlook := hinv.lookup_owner_entry hdisj hp
      have hmslen : ms.length ≠ 1 := by
        have : ms.length = cyc.length := by
          rw [hms]; exact (sort_strings_perm cyc).length_eq
        omega
      have hext : external_of D t.owner_of o ms [] = [] := by
        rw [List.eq_nil_iff_forall_not_mem]
        intro x hx
        rcases ((external_of_spec D t.owner_of o ms [] List.Pairwise.nil).2 x).1 hx with
          h1 | ⟨N, hN, h1, h2⟩
        · simp at h1
        · obtain ⟨y, hy⟩ := zip_partner cyc (cyc.rotate 1) (by simp) ((hmem N).1 hN)
          have hl := hcyc (N, y) hy
          simp only at hl
          rw [hl] at h1
          simp only [Option.getD_some, List.mem_singleton] at h1
          have hyc : y ∈ cyc := by
            have := (List.of_mem_zip hy).2
            rw [hrot] at this
            rw [hcy]
            rcases List.mem_append.1 this with h3 | h3
            · exact List.mem_cons_of_mem _ h3
            · rw [List.mem_singleton] at h3; rw [h3]; exact List.mem_cons_self _ _
          rw [h1] at h2
          exact h2 ((hlook y).2 ((hmem y).2 hyc))
      have hot : ∀ x ∈ tail, x ≠ o := by
        intro x hx hxo
        rw [htail] at hsorted
        have := (List.pairwise_cons.1 hsorted).1 x hx
        rw [hxo] at this
        exact lt_irrefl _ this
      have hcalls : t.members_by_owner.flatMap (calls_of D t.owner_of) =
          WriteCall.scc_owner_ixx o (o :: tail) [] ::
            tail.map (fun ns => WriteCall.reexport_ixx ns o) := by
        rw [hm]
        simp only [List.flatMap_cons, List.flatMap_nil, List.append_nil, calls_of, hmslen,
          if_false, hext]
        rw [htail]
        have : reexport_calls o (o :: tail) = reexport_calls o tail := by
          simp [reexport_calls]
        rw [this, reexport_calls_tail o tail hot]
      refine ⟨c0, t, o, tail, by rw [hc, hcomps], ?_, by rw [← hcy, ← hms, htail],
        ?_, ?_, ?_, ?_⟩
      · rw [← hcy]; exact hperm
      · intro m hm'
        rw [← hcy] at hm'
        exact hinv.owner_le hp m ((hmem m).2 hm')
      · rw [← htail]; exact hsorted
      · rw [hm, htail]
      · rw [hplan, hcalls]

/-- C16: the `.1` header of `N` asks for the `.0` header of every namespace in the
writer's `depends` and of `N` itself; the `.2` header asks for the `.2` header of every
such namespace when the struct printer returned the promote flag and for its `.1` header
otherwise, and for the `.1` header of `N`; the top-level header asks for the `.2` header
of every such namespace and of `N`; and none of them asks for anything else in these
loops. -/
theorem header_depends_levels {T : Type} (ns : String) (depends : List (String × T))
    (promote : Bool) :
    (∀ name impl, (name, impl) ∈ write_namespace_1_h_depends ns depends ↔
      impl = '0' ∧ (name ∈ depends.map Prod.fst ∨ name = ns)) ∧
    (∀ name impl, (name, impl) ∈ write_namespace_2_h_depends ns depends promote ↔
      (name ∈ depends.map Prod.fst ∧ impl = (if promote then '2' else '1')) ∨
        (name = ns ∧ impl = '1')) ∧
    (∀ name impl, (name, impl) ∈ write_namespace_h_depends ns depends ↔
      impl = '2' ∧ (name ∈ depends.map Prod.fst ∨ name = ns)) := by
  refine ⟨?_, ?_, ?_⟩
  · intro name impl
    simp only [write_namespace_1_h_depends, List.mem_append, List.mem_map, Prod.mk.injEq,
      List.mem_singleton]
    constructor
    · rintro (⟨d, hd, rfl, rfl⟩ | ⟨rfl, rfl⟩)
      · exact ⟨rfl, Or.inl ⟨d, hd, rfl⟩⟩
      · exact ⟨rfl, Or.inr rfl⟩
    · rintro ⟨rfl, ⟨d, hd, rfl⟩ | rfl⟩
      · exact Or.inl ⟨d, hd, rfl, rfl⟩
      · exact Or.inr ⟨rfl, rfl⟩
  · intro name impl
    simp only [write_namespace_2_h_depends, List.mem_append, List.mem_map, Prod.mk.injEq,
      List.mem_singleton]
    constructor
    · rintro (⟨d, hd, rfl, rfl⟩ | ⟨rfl, rfl⟩)
      · exact Or.inl ⟨⟨d, hd, rfl⟩, rfl⟩
      · exact Or.inr ⟨rfl, rfl⟩
    · rintro (⟨⟨d, hd, rfl⟩, rfl⟩ | ⟨rfl, rfl⟩)
      · exact Or.inl ⟨d, hd, rfl, rfl⟩
      · exact Or.inr ⟨rfl, rfl⟩
  · intro name impl
    simp only [write_namespace_h_depends, List.mem_append, List.mem_map, Prod.mk.injEq,
      List.mem_singleton]
    constructor
    · rintro (⟨d, hd, rfl, rfl⟩ | ⟨rfl, rfl⟩)
      · exact ⟨rfl, Or.inl ⟨d, hd, rfl⟩⟩
      · exact ⟨rfl, Or.inr rfl⟩
    · rintro ⟨rfl, ⟨d, hd, rfl⟩ | rfl⟩
      · exact Or.inl ⟨d, hd, rfl, rfl⟩
      · exact Or.inr ⟨rfl, rfl⟩

/-- C20: for a non-null buffer and any length, `utf8_from_utf16` raises the error
"Malformed CppWinRT.config: <prefix> values must be ASCII" exactly when one of the
`length` code units of the buffer is greater than `0x7F`; it raises no other error, and
raising excludes returning a value. -/
theorem utf8_from_utf16_error_iff (buffer : List Nat) (length : Nat) :
    (utf8_from_utf16 (some buffer) length = .error ascii_error ↔
      ∃ c ∈ buffer.take length, 0x7F < c) ∧
    (∀ e, utf8_from_utf16 (some buffer) length = .error e → e = ascii_error) ∧
    (∀ e r, utf8_from_utf16 (some buffer) length = .error e →
      utf8_from_utf16 (some buffer) length ≠ .ok r) := by
  refine ⟨?_, ?_, ?_⟩
  · by_cases hl : length = 0
    · subst hl
      simp [utf8_from_utf16]
    · simp only [utf8_from_utf16, hl, if_false]
      rw [(copy_ascii_error_iff _ _).1]
      constructor
      · rintro ⟨c, hc, hgt⟩
        exact ⟨c, (mem_trimmed_iff_of_large hgt _).1 hc, hgt⟩
      · rintro ⟨c, hc, hgt⟩
        exact ⟨c, (mem_trimmed_iff_of_large hgt _).2 hc, hgt⟩
  · intro e he
    by_cases hl : length = 0
    · subst hl
      simp [utf8_from_utf16] at he
    · simp only [utf8_from_utf16, hl, if_false] at he
      exact (copy_ascii_error_iff _ _).2 e he
  · intro e r he hr
    rw [he] at hr
    exact Except.noConfusion hr

/-- C19, as stated, fails: the root element of `bad_prefix_document` is `settings`, not
`configuration`, yet `read_config_file` fails with the error about a non-ASCII prefix,
which is raised while the document is read, and not with the error about the missing
root element, which is raised after the last node. -/
theorem non_ascii_prefix_reported_first :
    root_element bad_prefix_document = some "settings" ∧
    read_config_file (some bad_prefix_document) [] [] = .error ascii_error ∧
    read_config_file (some bad_prefix_document) [] [] ≠ .error missing_configuration_error :=
  ⟨by decide, rfl, fun h => by
    have h1 : ascii_error = missing_configuration_error := by
      injection (show (Except.error ascii_error : Except String (List String × List String)) =
        .error missing_configuration_error from h)
    exact absurd h1 (by decide)⟩

/-- C19, amended: for every config document that can be opened, has no element named
`configuration` and has only ASCII code units in its text and CDATA nodes,
`read_config_file` fails with the error "Malformed CppWinRT.config file: missing
<configuration> root element"; `process_args` fails with it, and `run` (not asked for its
usage text) writes the line `cppwinrt : error <message>` to the console, returns 1 and
has written no file. -/
theorem missing_configuration_reported {M T : Type} (nodes : List XmlNode)
    (hnone : ∀ name is_empty, XmlNode.element name is_empty ∈ nodes → name ≠ "configuration")
    (hascii : ∀ value, XmlNode.text value ∈ nodes ∨ XmlNode.cdata value ∈ nodes →
      ∀ c ∈ value, c ≤ 0x7F)
    (args : Arguments) (husage : args.usage = false)
    (hconfig : args.config = ConfigOption.file (some nodes))
    (usage_text : String) (component_classes : Bool) (preamble : String)
    (has_projected_types includes : M → Bool) (namespaces : List (String × M))
    (depends : String → Nat → List (String × T)) :
    read_config_file (some nodes) [] [] = .error missing_configuration_error ∧
    process_args args = .error missing_configuration_error ∧
    run args usage_text component_classes preamble has_projected_types includes namespaces
        depends =
      .ok { result := 1,
            console := "cppwinrt : error Malformed CppWinRT.config file: missing <configuration> root element\n",
            writes := [] } := by
  have h1 := read_config_file_unseen hnone hascii [] []
  have h2 : process_args args = .error missing_configuration_error := by
    simp only [process_args, hconfig, h1]
  refine ⟨h1, h2, ?_⟩
  simp only [run, husage, h2]
  rfl

/-- C18: whenever `-modules` is set, whatever `-base` and `-reference` are, the
assignments of `run` leave `settings.base` true, and the driver writes
`winrt/winrt.numerics.ixx`, `winrt/winrt.base.ixx`, `winrt/module.h` and `winrt/base.h`
and never the aggregate `winrt/winrt.ixx`; when `-modules` is not set, `settings.base`
is left true exactly when `-base` was given or there is no reference metadata. -/
theorem modules_force_base {M T : Type} (base component component_classes : Bool)
    (reference include_prefixes exclude_prefixes : List String) (preamble : String)
    (has_projected_types includes : M → Bool) (namespaces : List (String × M))
    (depends : String → Nat → List (String × T)) :
    (force_base { modules := true, base := base, reference := reference,
                  component := component, include_prefixes := include_prefixes,
                  exclude_prefixes := exclude_prefixes }).base = true ∧
    (∃ writes,
      emit_files
        (force_base { modules := true, base := base, reference := reference,
                      component := component, include_prefixes := include_prefixes,
                      exclude_prefixes := exclude_prefixes })
        component_classes preamble has_projected_types includes namespaces depends =
          .ok writes ∧
      FileWrite.numerics_ixx ∈ writes ∧ FileWrite.base_ixx ∈ writes ∧
      FileWrite.module_h ∈ writes ∧ FileWrite.base_h ∈ writes ∧
      ∀ text, FileWrite.winrt_ixx text ∉ writes) ∧
    ((force_base { modules := false, base := base, reference := reference,
                   component := component, include_prefixes := include_prefixes,
                   exclude_prefixes := exclude_prefixes }).base = true ↔
      base = true ∨ reference = []) := by
  refine ⟨by simp [force_base], ?_, by simp [force_base]⟩
  obtain ⟨planned, hplanned⟩ := run_modules_returns has_projected_types includes namespaces depends
  have hw : emit_files
      (force_base { modules := true, base := base, reference := reference,
                    component := component, include_prefixes := include_prefixes,
                    exclude_prefixes := exclude_prefixes })
      component_classes preamble has_projected_types includes namespaces depends =
        .ok ([FileWrite.numerics_ixx, FileWrite.base_ixx] ++
          planned.1.map FileWrite.namespace_headers ++
          [FileWrite.module_h, FileWrite.base_h] ++
          component_block
            (force_base { modules := true, base := base, reference := reference,
                          component := component, include_prefixes := include_prefixes,
                          exclude_prefixes := exclude_prefixes }) component_classes ++
          planned.2.map FileWrite.module_unit) := by
    simp [emit_files, force_base, hplanned, base_files]
  refine ⟨_, hw, by simp, by simp, by simp, by simp, ?_⟩
  intro text
  simp only [component_block, List.mem_append, List.mem_map, not_or]
  refine ⟨⟨⟨⟨by simp, by simp⟩, by simp⟩, ?_⟩, by simp⟩
  split_ifs <;> simp

/-- C17, as stated, fails in two ways. With reference metadata and without `-base`,
`settings.base` stays false and no `winrt/winrt.ixx` is written at all. And when the
aggregate is written, it has the line `#include "winrt/A.h"` of the emitted namespace
but no line `#include "winrt/base.h"`. -/
theorem aggregate_ixx_absent_or_without_base_h :
    emit_files
      (force_base { modules := false, base := false, reference := ["reference.winmd"],
                    component := false, include_prefixes := [], exclude_prefixes := [] })
      false "" (fun b : Bool => b) (fun _ => true) [("A", true)]
      (fun _ _ => ([] : List (String × Unit))) = .ok [FileWrite.namespace_headers "A"] ∧
    ∃ text,
      emit_files
        (force_base { modules := false, base := false, reference := [],
                      component := false, include_prefixes := [], exclude_prefixes := [] })
        false "" (fun b : Bool => b) (fun _ => true) [("A", true)]
        (fun _ _ => ([] : List (String × Unit))) =
          .ok [FileWrite.namespace_headers "A", FileWrite.base_h, FileWrite.winrt_ixx text] ∧
      "#include \"winrt/A.h\"".data ∈ lines_of text.data ∧
      "#include \"winrt/base.h\"".data ∉ lines_of text.data :=
  ⟨rfl, _, rfl, by decide, by decide⟩

/-- C17, amended: in non-module mode, for every cache whose namespace names are in
ascending order and free of line breaks, the driver writes the aggregate
`winrt/winrt.ixx` once when `settings.base` is left true (`-base` given or no reference
metadata) and not at all otherwise; its text is the head written before the loop (the
preamble, `module;`, the base includes, `export module winrt;` and the definition of
`WINRT_EXPORT`) followed by exactly one line `#include "winrt/<ns>.h"` for every emitted
namespace, in ascending namespace order; the driver writes the headers of exactly the
emitted namespaces and no per-namespace `.ixx` file. -/
theorem aggregate_ixx_when_base {M T : Type} (base component component_classes : Bool)
    (reference include_prefixes exclude_prefixes : List String) (preamble : String)
    (has_projected_types includes : M → Bool) (namespaces : List (String × M))
    (depends : String → Nat → List (String × T))
    (hsorted : (namespaces.map Prod.fst).Pairwise (fun a b => a < b))
    (hnames : ∀ p ∈ namespaces, '\n' ∉ p.1.data) :
    ∃ writes body,
      emit_files
        (force_base { modules := false, base := base, reference := reference,
                      component := component, include_prefixes := include_prefixes,
                      exclude_prefixes := exclude_prefixes })
        component_classes preamble has_projected_types includes namespaces depends =
          .ok writes ∧
      (∀ call, FileWrite.module_unit call ∉ writes) ∧
      writes.filter FileWrite.is_winrt_ixx =
        (if base = true ∨ reference = [] then
          [FileWrite.winrt_ixx (String.mk (ixx_head preamble ++ body))]
        else []) ∧
      lines_of body =
        ((namespaces.filter (fun p => has_projected_types p.2 && includes p.2)).map
          (fun p => ("#include \"winrt/" ++ p.1 ++ ".h\"").data)) ++ [[]] ∧
      ((namespaces.filter (fun p => has_projected_types p.2 && includes p.2)).map
        Prod.fst).Pairwise (fun a b => a < b) ∧
      (∀ ns, FileWrite.namespace_headers ns ∈ writes ↔
        ns ∈ (namespaces.filter (fun p => has_projected_types p.2 && includes p.2)).map
          Prod.fst) := by
  have hw : emit_files
      (force_base { modules := false, base := base, reference := reference,
                    component := component, include_prefixes := include_prefixes,
                    exclude_prefixes := exclude_prefixes })
      component_classes preamble has_projected_types includes namespaces depends =
        .ok (((namespaces.filter (fun p => has_projected_types p.2 && includes p.2)).map
            Prod.fst).map FileWrite.namespace_headers ++
          base_files
            (force_base { modules := false, base := base, reference := reference,
                          component := component, include_prefixes := include_prefixes,
                          exclude_prefixes := exclude_prefixes })
            (ixx_head preamble ++
              ((namespaces.filter (fun p => has_projected_types p.2 && includes p.2)).map
                Prod.fst).flatMap
                (fun ns => ("#include \"winrt/" ++ ns ++ ".h\"").data ++ ['\n'])) ++
          component_block
            (force_base { modules := false, base := base, reference := reference,
                          component := component, include_prefixes := include_prefixes,
                          exclude_prefixes := exclude_prefixes }) component_classes) := by
    simp only [emit_files, force_base, Bool.or_false, Bool.false_eq_true, if_false,
      aggregate_loop_spec, List.nil_append]
  refine ⟨_, ((namespaces.filter (fun p => has_projected_types p.2 && includes p.2)).map
    Prod.fst).flatMap (fun ns => ("#include \"winrt/" ++ ns ++ ".h\"").data ++ ['\n']),
    hw, ?_, ?_, ?_, emitted_sorted _ hsorted, ?_⟩
  · intro call
    simp only [base_files, component_block, List.mem_append, List.mem_map, not_or]
    refine ⟨⟨by simp, ?_⟩, ?_⟩
    · split_ifs <;> simp
    · split_ifs <;> simp
  · have hb := force_base_no_modules base component reference include_prefixes
      exclude_prefixes
    rw [List.append_assoc, List.filter_append, filter_winrt_ixx_headers, List.nil_append,
      filter_winrt_ixx_rest, if_congr hb rfl rfl]
  · have h := lines_from_lines (fun ns => ("#include \"winrt/" ++ ns ++ ".h\"").data)
      ((namespaces.filter (fun p => has_projected_types p.2 && includes p.2)).map Prod.fst)
      (by
        intro m hm
        obtain ⟨p, hp, rfl⟩ := List.mem_map.1 hm
        exact no_newline_between (by decide) (by decide)
          (hnames p (List.mem_of_mem_filter hp))) []
    rw [List.append_nil] at h
    rw [lines_of, h, List.map_map]
    rfl
  · intro ns
    simp only [base_files, component_block, List.mem_append, List.mem_map]
    constructor
    · rintro ((⟨x, hx, h⟩ | h) | h)
      · injection h with h
        rw [← h]
        exact hx
      · exfalso; revert h; split_ifs <;> simp
      · exfalso; revert h; split_ifs <;> simp
    · intro h
      exact Or.inl (Or.inl ⟨ns, h, rfl⟩)

/-- C14, as stated, fails: the text begins with the global module fragment, whose
`#include` lines (`<intrin.h>`, `<cstddef>`, `<version>`, `<crtdbg.h>`,
`"winrt/module.h"`) come before the includes of the members and before the
forward-declaration block; so the `#include` lines of the text are not exactly the
includes of the members. -/
theorem scc_owner_ixx_fragment_includes :
    include_lines (write_namespace_scc_owner_ixx "" (fun b : Bool => b)
        [("A", true), ("B", true)] (fun _ _ => []) "A" ["A", "B"] []).data =
      ["#include <intrin.h>".data, "#include <cstddef>".data, "#include <version>".data,
       "#include <crtdbg.h>".data, "#include \"winrt/module.h\"".data,
       "#include \"winrt/impl/A.0.h\"".data, "#include \"winrt/impl/B.0.h\"".data,
       "#include \"winrt/impl/A.1.h\"".data, "#include \"winrt/impl/B.1.h\"".data,
       "#include \"winrt/impl/A.2.h\"".data, "#include \"winrt/impl/B.2.h\"".data,
       "#include \"winrt/A.h\"".data, "#include \"winrt/B.h\"".data] ∧
    include_lines (write_namespace_scc_owner_ixx "" (fun b : Bool => b)
        [("A", true), ("B", true)] (fun _ _ => []) "A" ["A", "B"] []).data ≠
      ["#include \"winrt/impl/A.0.h\"".data, "#include \"winrt/impl/B.0.h\"".data,
       "#include \"winrt/impl/A.1.h\"".data, "#include \"winrt/impl/B.1.h\"".data,
       "#include \"winrt/impl/A.2.h\"".data, "#include \"winrt/impl/B.2.h\"".data,
       "#include \"winrt/A.h\"".data, "#include \"winrt/B.h\"".data] := by
  decide

/-- C14, amended: for every owner, member list and import list (names free of line
breaks), the text of `write_namespace_scc_owner_ixx` is the preamble, the global module
fragment, a head, the forward-declaration block and a tail. The `#include` lines of the
tail are exactly, in this order: `winrt/impl/<m>.0.h` for each member `m` in list order,
then `winrt/impl/<m>.1.h` for each member, then `winrt/impl/<m>.2.h` for each member,
then `winrt/<m>.h` for each member; the tail begins with the line
`#pragma pop_macro("WINRT_EXPORT")`. The head ends with a line feed, and its lines that
are neither blank nor comments are `export module <owner>;`, `import std;`,
`export import winrt.base;`, one `import` line per import, and then
`#pragma push_macro("WINRT_EXPORT")`, `#undef WINRT_EXPORT`,
`#define WINRT_EXPORT export`; so the forward-declaration block comes after every
`import` line and is enclosed between these lines and the `pop_macro` line. -/
theorem scc_owner_ixx_text {M : Type} (preamble : String) (has_projected_types : M → Bool)
    (namespaces : List (String × M)) (write_forward : String → M → List Char)
    (owner : String) (members imports : List String)
    (ho : '\n' ∉ owner.data) (hm : ∀ m ∈ members, '\n' ∉ m.data)
    (hi : ∀ m ∈ imports, '\n' ∉ m.data) :
    write_namespace_scc_owner_ixx preamble has_projected_types namespaces write_forward
        owner members imports =
      preamble ++ String.mk (write_module_global_fragment ++ scc_owner_head owner imports ++
        write_forward_declarations has_projected_types namespaces write_forward members ++
        scc_owner_tail members) ∧
    directive_lines (scc_owner_head owner imports) =
      [("export module " ++ owner ++ ";").data, "import std;".data,
       "export import winrt.base;".data] ++
      imports.map (fun m => ("import " ++ m ++ ";").data) ++
      ["#pragma push_macro(\"WINRT_EXPORT\")".data, "#undef WINRT_EXPORT".data,
       "#define WINRT_EXPORT export".data] ∧
    (scc_owner_head owner imports).getLast? = some '\n' ∧
    lines_of (scc_owner_tail members) =
      ["#pragma pop_macro(\"WINRT_EXPORT\")".data, []] ++
      members.map (fun m => ("#include \"winrt/impl/" ++ m ++ ".0.h\"").data) ++
      members.map (fun m => ("#include \"winrt/impl/" ++ m ++ ".1.h\"").data) ++
      members.map (fun m => ("#include \"winrt/impl/" ++ m ++ ".2.h\"").data) ++
      members.map (fun m => ("#include \"winrt/" ++ m ++ ".h\"").data) ++ [[]] ∧
    include_lines (scc_owner_tail members) =
      members.map (fun m => ("#include \"winrt/impl/" ++ m ++ ".0.h\"").data) ++
      members.map (fun m => ("#include \"winrt/impl/" ++ m ++ ".1.h\"").data) ++
      members.map (fun m => ("#include \"winrt/impl/" ++ m ++ ".2.h\"").data) ++
      members.map (fun m => ("#include \"winrt/" ++ m ++ ".h\"").data) := by
  refine ⟨rfl, scc_owner_head_directive_lines owner imports ho hi, ?_,
    scc_owner_tail_lines members hm, scc_owner_tail_include_lines members hm⟩
  rw [scc_owner_head, List.getLast?_append]
  rfl


set_option maxRecDepth 100000 in
/-- C15: for every namespace `N` and import list (names free of line breaks), the lines
of the text of `write_namespace_ixx` after the preamble that are neither blank nor
comments are, in this order: the lines of the global module fragment, `export module N;`,
`import std;`, `export import winrt.base;`, one line `import M;` for each `M` of the list
of imports in list order and no other import, and then the four includes
`winrt/impl/N.0.h`, `winrt/impl/N.1.h`, `winrt/impl/N.2.h`, `winrt/N.h`. -/
theorem namespace_ixx_text (preamble ns : String) (imports : List String)
    (hn : '\n' ∉ ns.data) (hi : ∀ m ∈ imports, '\n' ∉ m.data) :
    ∃ body, write_namespace_ixx preamble ns imports = preamble ++ body ∧
      directive_lines body.data =
        ["module;".data, "#define WINRT_MODULE".data, "#include <intrin.h>".data,
         "#include <cstddef>".data, "#include <version>".data, "#ifdef _DEBUG".data,
         "#include <crtdbg.h>".data, "#endif".data, "#include \"winrt/module.h\"".data,
         ("export module " ++ ns ++ ";").data, "import std;".data,
         "export import winrt.base;".data] ++
        imports.map (fun m => ("import " ++ m ++ ";").data) ++
        [("#include \"winrt/impl/" ++ ns ++ ".0.h\"").data,
         ("#include \"winrt/impl/" ++ ns ++ ".1.h\"").data,
         ("#include \"winrt/impl/" ++ ns ++ ".2.h\"").data,
         ("#include \"winrt/" ++ ns ++ ".h\"").data] := by
  refine ⟨_, rfl, ?_⟩
  obtain ⟨L, hL, hLf⟩ := dependency_comment_lines imports hi
  simp only [List.append_assoc]
  rw [directive_lines_piece global_fragment_lines rfl,
    directive_lines_piece (export_module_lines ns hn) rfl,
    directive_lines_piece (show lines_from [] "// Module dependencies:\n".data =
      ["// Module dependencies:".data] ++ [[]] from rfl) rfl,
    directive_lines_piece (show lines_from [] "//   - std\n".data =
      ["//   - std".data] ++ [[]] from rfl) rfl,
    directive_lines_piece (show lines_from [] "//   - winrt.base (re-exported)\n".data =
      ["//   - winrt.base (re-exported)".data] ++ [[]] from rfl) rfl,
    directive_lines_piece hL hLf,
    directive_lines_piece (show lines_from [] ("\n" ++
     "// Namespace imports (below) are computed from type references in generated headers.\n").data =
      [[], "// Namespace imports (below) are computed from type references in generated headers.".data] ++ [[]] from rfl) rfl,
    directive_lines_piece (show lines_from [] ("\n" ++
     "import std;\n" ++
     "export import winrt.base;\n").data =
      [[], "import std;".data, "export import winrt.base;".data] ++ [[]] from rfl) rfl,
    directive_lines_piece (import_lines imports hi) (import_lines_directive imports),
    directive_lines_piece (show lines_from [] ['\n'] = [[]] ++ [[]] from rfl) rfl,
    directive_lines_last (four_includes_lines ns hn) rfl]
  rfl

/-- C30: `hash_data` is FNV-1a over machine words of width `w`, with `w = 64`, offset
basis 14695981039346656037 and prime 1099511628211 when `_WIN64` is defined and `w = 32`,
offset basis 2166136261 and prime 16777619 otherwise: the hash of the empty sequence is
the offset basis, and the hash of `b` followed by a byte `x` is
`((hash(b) xor x) * prime) mod 2^w`. -/
theorem hash_data_is_fnv1a (win64 : Bool) (b : List Nat) (x : Nat) :
    hash_data win64 [] = fnv_offset_basis win64 ∧
    hash_data win64 (b ++ [x]) =
      ((hash_data win64 b ^^^ x) * fnv_prime win64) % 2 ^ size_t_bits win64 ∧
    (size_t_bits true = 64 ∧ fnv_offset_basis true = 14695981039346656037 ∧
      fnv_prime true = 1099511628211) ∧
    (size_t_bits false = 32 ∧ fnv_offset_basis false = 2166136261 ∧
      fnv_prime false = 16777619) := by
  refine ⟨rfl, ?_, ⟨rfl, rfl, rfl⟩, ⟨rfl, rfl, rfl⟩⟩
  rw [hash_data, hash_loop_append]
  rfl

/-- C23: for every `test_Release` object and all 32-bit values `r` and `l`: after
`Release(r)`, `Release()` returns `r`; after a following `Loudness(l)`, `Loudness()`
returns `l` and `Release()` still returns `r`; each setter leaves the other property as
it was; and a fresh object returns 0 for both. -/
theorem test_Release_properties (o : test_Release) (r l : Nat) (hr : r < 2 ^ 32)
    (hl : l < 2 ^ 32) :
    (o.set_Release r).Release = r ∧
    ((o.set_Release r).set_Loudness l).Loudness = l ∧
    ((o.set_Release r).set_Loudness l).Release = r ∧
    (o.set_Release r).Loudness = o.Loudness ∧
    (o.set_Loudness l).Release = o.Release ∧
    test_Release.make.Release = 0 ∧ test_Release.make.Loudness = 0 := by
  refine ⟨Nat.mod_eq_of_lt hr, Nat.mod_eq_of_lt hl, Nat.mod_eq_of_lt hr, rfl, rfl, rfl, rfl⟩

/-- C29: for every buffer whose `length` code units are all at most `0x7F`,
`utf8_from_utf16` returns the code units left when the longest prefix and the longest
suffix made of space, tab, carriage return and line feed are removed: the buffer is
`pre ++ result ++ suf` with `pre` and `suf` made of those characters and `result` neither
beginning nor ending with one (interior whitespace is kept). It returns the empty string
for a null pointer, for length 0 and for input made only of those characters, and applied
to its own result it returns that result. -/
theorem utf8_from_utf16_trims (buffer : List Nat) (length : Nat)
    (h : ∀ c ∈ buffer.take length, c ≤ 0x7F) :
    ∃ result pre suf,
      utf8_from_utf16 (some buffer) length = .ok result ∧
      buffer.take length = pre ++ result ++ suf ∧
      (∀ c ∈ pre, is_config_whitespace c = true) ∧
      (∀ c ∈ suf, is_config_whitespace c = true) ∧
      (∀ c, result.head? = some c → is_config_whitespace c = false) ∧
      (∀ c, result.getLast? = some c → is_config_whitespace c = false) ∧
      utf8_from_utf16 none length = .ok [] ∧
      utf8_from_utf16 (some buffer) 0 = .ok [] ∧
      ((∀ c ∈ buffer.take length, is_config_whitespace c = true) → result = []) ∧
      utf8_from_utf16 (some result) result.length = .ok result := by
  obtain ⟨pre, suf, hsplit, hpre, hsuf, hhead, hlast⟩ := trimmed_spec (buffer.take length)
  have hsub : ∀ c ∈ ((buffer.take length).dropWhile is_config_whitespace).reverse.dropWhile
      is_config_whitespace |>.reverse, c ∈ buffer.take length := by
    intro c hc
    rw [hsplit]
    simp only [List.mem_append]
    exact Or.inl (Or.inr hc)
  have hrun : utf8_from_utf16 (some buffer) length =
      .ok (((buffer.take length).dropWhile is_config_whitespace).reverse.dropWhile
        is_config_whitespace).reverse := by
    by_cases hl : length = 0
    · subst hl
      simp [utf8_from_utf16]
    · simp only [utf8_from_utf16, hl, if_false]
      rw [copy_ascii_ok _ _ (fun c hc => h c (hsub c hc)), List.nil_append]
  refine ⟨_, pre, suf, hrun, hsplit, hpre, hsuf, hhead, hlast, rfl, by simp [utf8_from_utf16],
    ?_, ?_⟩
  · intro hall
    rw [(List.dropWhile_eq_nil_iff).2 hall]
    rfl
  · generalize hr : (((buffer.take length).dropWhile is_config_whitespace).reverse.dropWhile
      is_config_whitespace).reverse = r at hhead hlast hsub
    by_cases hl : r.length = 0
    · rw [List.length_eq_zero.1 hl]
      simp [utf8_from_utf16]
    · simp only [utf8_from_utf16, hl, if_false, List.take_length]
      rw [trimmed_fixed r hhead hlast,
        copy_ascii_ok _ _ (fun c hc => h c (hsub c hc)), List.nil_append]

/-- C27: for every dependency map (self-edges, duplicate edges and edges to namespaces
that are no keys included) none of the partial operations of the planner fails: the
search and the planner return a value and no fault (`graph.at` on a missing key, `back()`
of an empty stack, `front()` of an empty component, `module_imports.at` on a missing key,
or a nesting deeper than the number of keys); every component is non-empty and made of
keys, and every owner and member of `members_by_owner` is a key of the map. -/
theorem planner_operations_defined (D : Graph) :
    ∃ comps t calls,
      compute_strongly_connected_components D = .ok comps ∧
      plan_modules D = .ok (t, calls) ∧
      (∀ f, compute_strongly_connected_components D ≠ .error f) ∧
      (∀ f, plan_modules D ≠ .error f) ∧
      (∀ c ∈ comps, c ≠ [] ∧ ∀ v ∈ c, D.lookup v ≠ none) ∧
      (∀ o ms, (o, ms) ∈ t.members_by_owner →
        D.lookup o ≠ none ∧ ∀ ns ∈ ms, D.lookup ns ≠ none) := by
  obtain ⟨comps, t, hc, -, hinv, hplan, hne, hnd, hdisj, hcover, hconn, hmax⟩ :=
    plan_modules_spec D
  have hS : SccDecomposition D comps := ⟨hne, hnd, hdisj, hcover, hconn, hmax⟩
  refine ⟨comps, t, _, hc, hplan, ?_, ?_, ?_, ?_⟩
  · intro f hf
    rw [hc] at hf
    exact Except.noConfusion hf
  · intro f hf
    rw [hplan] at hf
    exact Except.noConfusion hf
  · intro c hcm
    exact ⟨hne c hcm, fun v hv => (lookup_ne_none_iff D v).2 ((hcover v).1 ⟨c, hcm, hv⟩)⟩
  · intro o ms hp
    obtain ⟨ho, hkey, -, -⟩ := entry_scc hinv hS hp
    exact ⟨hkey o ho, hkey⟩

/-- C25: for every dependency map in which no two distinct keys are mutually reachable,
every component is a singleton, every entry of `members_by_owner` is an owner with itself
as only member, every writer call is `write_namespace_ixx(N, D(N))` for a key `N` with
its dependency list as it stands in the map (so there is no SCC-owner unit and no
re-export stub), and there is such a call for every key. -/
theorem acyclic_plan (D : Graph)
    (hacyc : ∀ a ∈ keys D, ∀ b ∈ keys D, reach D a b → reach D b a → a = b) :
    ∃ comps t calls,
      compute_strongly_connected_components D = .ok comps ∧
      plan_modules D = .ok (t, calls) ∧
      (∀ c ∈ comps, ∃ k, c = [k]) ∧
      (∀ o ms, (o, ms) ∈ t.members_by_owner → ms = [o]) ∧
      (∀ u ∈ calls, ∃ N deps, D.lookup N = some deps ∧ u = WriteCall.namespace_ixx N deps) ∧
      (∀ N deps, D.lookup N = some deps → WriteCall.namespace_ixx N deps ∈ calls) := by
  obtain ⟨comps, t, hc, -, hinv, hplan, hne, hnd, hdisj, hcover, hconn, hmax⟩ :=
    plan_modules_spec D
  have hS : SccDecomposition D comps := ⟨hne, hnd, hdisj, hcover, hconn, hmax⟩
  have hsing : ∀ c ∈ comps, ∃ k, c = [k] := by
    intro c hcm
    cases c with
    | nil => exact absurd rfl (hne _ hcm)
    | cons k rest =>
      cases rest with
      | nil => exact ⟨k, rfl⟩
      | cons k2 rest2 =>
        exfalso
        have hk : k ∈ k :: k2 :: rest2 := List.mem_cons_self _ _
        have hk2 : k2 ∈ k :: k2 :: rest2 := List.mem_cons_of_mem _ (List.mem_cons_self _ _)
        have heq : k = k2 := hacyc k ((hcover k).1 ⟨_, hcm, hk⟩) k2 ((hcover k2).1 ⟨_, hcm, hk2⟩)
          (hconn _ hcm k hk k2 hk2) (hconn _ hcm k2 hk2 k hk)
        have := hnd _ hcm
        rw [heq] at this
        simp at this
  have hentry : ∀ o ms, (o, ms) ∈ t.members_by_owner → ms = [o] := by
    intro o ms hp
    obtain ⟨c, hcm, hms, tail, htail⟩ := hinv.entry hp
    obtain ⟨k, rfl⟩ := hsing c hcm
    have h1 : ms = [k] := hms
    rw [h1] at htail
    injection htail with h2 h3
    rw [h1, h2]
  refine ⟨comps, t, _, hc, hplan, hsing, hentry, ?_, ?_⟩
  · intro u hu
    obtain ⟨⟨o, ms⟩, hp, hmem⟩ := List.mem_flatMap.1 hu
    have hms := hentry o ms hp
    obtain ⟨ho, hkey, -, -⟩ := entry_scc hinv hS hp
    rw [mem_calls_of] at hmem
    rcases hmem with ⟨-, h1⟩ | ⟨hlen, -⟩
    · cases hl : D.lookup o with
      | none => exact absurd hl (hkey o ho)
      | some deps => exact ⟨o, deps, hl, by rw [h1, hl]; rfl⟩
    · rw [hms] at hlen
      exact absurd rfl hlen
  · intro N deps hN
    have hNk : N ∈ keys D := (lookup_ne_none_iff D N).1 (by rw [hN]; simp)
    obtain ⟨c, hcm, hNc⟩ := (hcover N).2 hNk
    obtain ⟨k, rfl⟩ := hsing c hcm
    have hk : N = k := by simpa using hNc
    subst hk
    obtain ⟨o, hp⟩ := hinv.entry_of_comp hcm
    have hso : sort_strings [N] = [N] := rfl
    rw [hso] at hp
    have ho := hentry o _ hp
    injection ho with h1 _
    rw [← h1] at hp
    refine List.mem_flatMap.2 ⟨(N, [N]), hp, ?_⟩
    rw [mem_calls_of]
    exact Or.inl ⟨rfl, by rw [hN]; rfl⟩

/-- C24, as stated, fails: on the chain `A → B → C` the calls of `strongconnect` nest
three deep (the call for `A` calls the one for `B`, which calls the one for `C`), while
every component returned has one member. -/
theorem chain_depth_exceeds_components :
    ∃ s g, compute_strongly_connected_components_traced chain_graph = .ok (s, g) ∧
      s.components = [["C"], ["B"], ["A"]] ∧ g.depth = 3 ∧
      ¬ ∃ c ∈ s.components, g.depth ≤ c.length :=
  ⟨_, _, rfl, rfl, rfl, by decide⟩

/-- C24, amended: for every dependency map the greatest nesting depth of `strongconnect`
calls reached while `compute_strongly_connected_components` runs is at most the number
of keys of the map, which is the number of all members of the components it returns. -/
theorem nesting_depth_le_keys (D : Graph) :
    ∃ s g, compute_strongly_connected_components_traced D = .ok (s, g) ∧
      compute_strongly_connected_components D = .ok s.components ∧
      g.depth ≤ (keys D).dedup.length ∧ g.depth ≤ D.length := by
  obtain ⟨s, g, hr, hc, ht, hall⟩ := compute_traced_spec D
  have hperm := (ht.calls_perm hall).2
  have h1 : g.depth ≤ (keys D).dedup.length := by
    rw [← hperm.length_eq, ht.len]
    exact ht.depth_le
  refine ⟨s, g, hr, hc, h1, le_trans h1 ?_⟩
  have h2 := (List.dedup_sublist (keys D)).length_le
  simpa [keys] using h2

/-- C28: for every dependency map `compute_strongly_connected_components` returns, and
`strongconnect` is called exactly once for each key and for nothing else: the calls are
as many as the keys, the `i`-th call gives its node the index `i`, exactly the keys have
an index at the end, the indices are below the number of keys, every number below it is
the index of a key, and no two nodes share an index. -/
theorem strongconnect_once_per_key (D : Graph) :
    ∃ s g, compute_strongly_connected_components_traced D = .ok (s, g) ∧
      compute_strongly_connected_components D = .ok s.components ∧
      (∀ k, k ∈ g.calls → k ∈ keys D) ∧
      (∀ k ∈ keys D, g.calls.count k = 1) ∧
      g.calls.length = (keys D).dedup.length ∧
      s.next_index = (keys D).dedup.length ∧
      (∀ i v, g.calls[i]? = some v → s.index v = some i) ∧
      (∀ k, s.index k ≠ none ↔ k ∈ keys D) ∧
      (∀ k i, s.index k = some i → i < (keys D).dedup.length) ∧
      (∀ i, i < (keys D).dedup.length → ∃ k ∈ keys D, s.index k = some i) ∧
      (∀ a b i, s.index a = some i → s.index b = some i → a = b) := by
  obtain ⟨s, g, hr, hc, ht, hall⟩ := compute_traced_spec D
  obtain ⟨hmem, hperm⟩ := ht.calls_perm hall
  have hlen : g.calls.length = (keys D).dedup.length := hperm.length_eq
  refine ⟨s, g, hr, hc, fun k hk => (hmem k).1 hk, ?_, hlen, ?_, ht.idx_of_call, ?_, ?_, ?_, ?_⟩
  · intro k hk
    exact List.count_eq_one_of_mem ht.nodup ((hmem k).2 hk)
  · rw [← hlen, ht.len]
  · intro k
    constructor
    · intro hk
      cases hi : s.index k with
      | none => exact absurd hi hk
      | some i => exact (hmem k).1 (List.getElem?_mem (ht.call_of_idx k i hi))
    · exact hall k
  · intro k i hi
    rw [← hlen]
    exact getElem?_lt_of_some (ht.call_of_idx k i hi)
  · intro i hi
    rw [← hlen] at hi
    refine ⟨g.calls[i], (hmem _).1 (List.getElem_mem _), ?_⟩
    exact ht.idx_of_call i _ (List.getElem?_eq_getElem hi)
  · intro a b i ha hb
    have h1 := ht.call_of_idx a i ha
    have h2 := ht.call_of_idx b i hb
    rw [h1] at h2
    injection h2

/-- C26: for any two dependency maps with the same keys whose dependency lists hold, key
by key, the same set of namespaces (in any order, with any multiplicity), the planner
returns for both, builds the same `members_by_owner` table and the same `owner_of` map,
and makes the same `write_namespace_scc_owner_ixx` calls (same owner, members and
external imports) and the same re-export calls. -/
theorem planner_ignores_edge_order (D1 D2 : Graph) (hkeys : keys D1 = keys D2)
    (hdeps : ∀ k deps1 deps2, D1.lookup k = some deps1 → D2.lookup k = some deps2 →
      ∀ x, x ∈ deps1 ↔ x ∈ deps2) :
    ∃ t1 calls1 t2 calls2,
      plan_modules D1 = .ok (t1, calls1) ∧ plan_modules D2 = .ok (t2, calls2) ∧
      t1.members_by_owner = t2.members_by_owner ∧ t1.owner_of = t2.owner_of ∧
      (∀ o ms imports, WriteCall.scc_owner_ixx o ms imports ∈ calls1 ↔
        WriteCall.scc_owner_ixx o ms imports ∈ calls2) ∧
      (∀ ns o, WriteCall.reexport_ixx ns o ∈ calls1 ↔ WriteCall.reexport_ixx ns o ∈ calls2) := by
  obtain ⟨comps1, t1, -, -, hi1, hplan1, hne1, hnd1, hdisj1, hcover1, hconn1, hmax1⟩ :=
    plan_modules_spec D1
  obtain ⟨comps2, t2, -, -, hi2, hplan2, hne2, hnd2, hdisj2, hcover2, hconn2, hmax2⟩ :=
    plan_modules_spec D2
  have hS1 : SccDecomposition D1 comps1 := ⟨hne1, hnd1, hdisj1, hcover1, hconn1, hmax1⟩
  have hS2 : SccDecomposition D2 comps2 := ⟨hne2, hnd2, hdisj2, hcover2, hconn2, hmax2⟩
  have hdeps' : ∀ k deps1 deps2, D2.lookup k = some deps1 → D1.lookup k = some deps2 →
      ∀ x, x ∈ deps1 ↔ x ∈ deps2 := fun k d1 d2 h1 h2 x => (hdeps k d2 d1 h2 h1 x).symm
  have h12 : ∀ u v, reach D1 u v → reach D2 u v := fun _ _ h => reach_congr hkeys hdeps h
  have h21 : ∀ u v, reach D2 u v → reach D1 u v := fun _ _ h =>
    reach_congr hkeys.symm hdeps' h
  have hsub12 := tables_sub hi1 hi2 (fun c hc => component_congr hS1 hS2 hkeys h12 h21 hc)
  have hsub21 := tables_sub hi2 hi1
    (fun c hc => component_congr hS2 hS1 hkeys.symm h21 h12 hc)
  have hmbo : t1.members_by_owner = t2.members_by_owner :=
    sorted_keys_ext hi1.mbo_sorted hi2.mbo_sorted (fun p => ⟨hsub12.1 p, hsub21.1 p⟩)
  have hoo : t1.owner_of = t2.owner_of :=
    sorted_keys_ext hi1.oo_sorted hi2.oo_sorted (fun p => ⟨hsub12.2 p, hsub21.2 p⟩)
  have hext : ∀ o ms, (o, ms) ∈ t1.members_by_owner →
      external_of D1 t1.owner_of o ms [] = external_of D2 t2.owner_of o ms [] := by
    intro o ms hp
    rw [← hoo]
    apply external_of_congr
    intro ns hns x
    obtain ⟨-, hkey, -, -⟩ := entry_scc hi1 hS1 hp
    have hk1 := hkey ns hns
    have hk2 : D2.lookup ns ≠ none := by
      rw [lookup_ne_none_iff, ← hkeys, ← lookup_ne_none_iff]
      exact hk1
    cases hl1 : D1.lookup ns with
    | none => exact absurd hl1 hk1
    | some deps1 =>
      cases hl2 : D2.lookup ns with
      | none => exact absurd hl2 hk2
      | some deps2 => exact hdeps ns deps1 deps2 hl1 hl2 x
  refine ⟨t1, _, t2, _, hplan1, hplan2, hmbo, hoo, ?_, ?_⟩
  · intro o ms imports
    simp only [List.mem_flatMap]
    constructor
    · rintro ⟨⟨o', ms'⟩, hp, hmem⟩
      refine ⟨(o', ms'), hmbo ▸ hp, ?_⟩
      rw [mem_calls_of] at hmem ⊢
      rcases hmem with ⟨-, h1⟩ | ⟨hlen, h1 | ⟨ns, -, -, h1⟩⟩
      · exact WriteCall.noConfusion h1
      · exact Or.inr ⟨hlen, Or.inl (by rw [h1, hext o' ms' hp])⟩
      · exact WriteCall.noConfusion h1
    · rintro ⟨⟨o', ms'⟩, hp, hmem⟩
      have hp1 : (o', ms') ∈ t1.members_by_owner := hmbo ▸ hp
      refine ⟨(o', ms'), hp1, ?_⟩
      rw [mem_calls_of] at hmem ⊢
      rcases hmem with ⟨-, h1⟩ | ⟨hlen, h1 | ⟨ns, -, -, h1⟩⟩
      · exact WriteCall.noConfusion h1
      · exact Or.inr ⟨hlen, Or.inl (by rw [h1, hext o' ms' hp1])⟩
      · exact WriteCall.noConfusion h1
  · intro ns o
    simp only [List.mem_flatMap]
    constructor
    · rintro ⟨⟨o', ms'⟩, hp, hmem⟩
      refine ⟨(o', ms'), hmbo ▸ hp, ?_⟩
      rw [mem_calls_of] at hmem ⊢
      rcases hmem with ⟨-, h1⟩ | ⟨hlen, h1 | h1⟩
      · exact WriteCall.noConfusion h1
      · exact WriteCall.noConfusion h1
      · exact Or.inr ⟨hlen, Or.inr h1⟩
    · rintro ⟨⟨o', ms'⟩, hp, hmem⟩
      refine ⟨(o', ms'), hmbo ▸ hp, ?_⟩
      rw [mem_calls_of] at hmem ⊢
      rcases hmem with ⟨-, h1⟩ | ⟨hlen, h1 | h1⟩
      · exact WriteCall.noConfusion h1
      · exact WriteCall.noConfusion h1
      · exact Or.inr ⟨hlen, Or.inr h1⟩

/-! ## The claims at a concrete dependency map -/

theorem example_graph_entries {N : String} {deps : List String}
    (h : example_graph.lookup N = some deps) :
    (N = "A" ∧ deps = ["B", "C"]) ∨ (N = "B" ∧ deps = ["A"]) ∨ (N = "C" ∧ deps = []) := by
  have h1 := mem_of_lookup h
  simpa [example_graph] using h1

theorem example_graph_sorted :
    ∀ N deps, example_graph.lookup N = some deps →
      deps.Pairwise (fun a b => a < b) ∧ N ∉ deps := by
  intro N deps h
  rcases example_graph_entries h with ⟨rfl, rfl⟩ | ⟨rfl, rfl⟩ | ⟨rfl, rfl⟩
  · refine ⟨?_, by decide⟩
    simp only [List.pairwise_cons, List.mem_singleton, forall_eq, List.not_mem_nil,
      false_implies, implies_true, List.Pairwise.nil, and_true]
    exact (str_lt_iff "B" "C").1 (by decide)
  · exact ⟨by simp, by decide⟩
  · exact ⟨by simp, by decide⟩

/-- Witness of C5 at the example map, whose lists are sorted and free of self-edges. -/
theorem planner_import_lists_witness :
    (∀ N deps, example_graph.lookup N = some deps →
      deps.Pairwise (fun a b => a < b) ∧ N ∉ deps) ∧
    ∃ t calls, plan_modules example_graph = .ok (t, calls) ∧
      (∀ o ms, (o, ms) ∈ t.members_by_owner → ∃ imports,
        (if ms.length = 1 then WriteCall.namespace_ixx o imports
          else WriteCall.scc_owner_ixx o ms imports) ∈ calls ∧
        external_imports_ok example_graph t.owner_of o ms imports) ∧
      (∀ u ∈ calls, ∀ o imports,
        (u = WriteCall.namespace_ixx o imports ∨ ∃ ms', u = WriteCall.scc_owner_ixx o ms' imports) →
        ∃ ms, (o, ms) ∈ t.members_by_owner ∧
          external_imports_ok example_graph t.owner_of o ms imports) :=
  ⟨example_graph_sorted, planner_import_lists example_graph example_graph_sorted⟩

/-- Witness of C6 at the example map, in which no namespace lists itself. -/
theorem planner_imports_acyclic_witness :
    (∀ N deps, example_graph.lookup N = some deps → N ∉ deps) ∧
    ∃ t calls, plan_modules example_graph = .ok (t, calls) ∧
      ∀ A B, imports_rel calls A B → ¬ Relation.ReflTransGen (imports_rel calls) B A :=
  ⟨fun N deps h => (example_graph_sorted N deps h).2,
    planner_imports_acyclic example_graph (fun N deps h => (example_graph_sorted N deps h).2)⟩

/-- Witness of C7 at the example map, whose keys contain no line break. -/
theorem planner_reexport_stubs_witness :
    (∀ k ∈ keys example_graph, '\n' ∉ k.data) ∧
    ∃ comps t calls, compute_strongly_connected_components example_graph = .ok comps ∧
      plan_modules example_graph = .ok (t, calls) ∧
      (∀ ns target, WriteCall.reexport_ixx ns target ∈ calls ↔
        ∃ c ∈ comps, 2 ≤ c.length ∧ ns ∈ c ∧ ns ≠ target ∧ target ∈ c ∧
          ∀ m ∈ c, target ≤ m) ∧
      (∀ ns target, WriteCall.reexport_ixx ns target ∈ calls →
        ∃ body, write_namespace_reexport_ixx "// generated\n" ns target =
            "// generated\n" ++ body ∧
          directive_lines body.data =
            [("export module " ++ ns ++ ";").data, ("export import " ++ target ++ ";").data]) :=
  ⟨by decide, planner_reexport_stubs example_graph "// generated\n" (by decide)⟩

/-- The search at a map with two cycles, an edge to a namespace that is no key and a
self-edge. -/
theorem compute_scc_example :
    compute_strongly_connected_components
      [("A", ["B"]), ("B", ["C"]), ("C", ["A", "D", "Z"]), ("D", ["E"]), ("E", ["D"]),
        ("F", ["F", "A"])] = .ok [["E", "D"], ["C", "B", "A"], ["F"]] := by
  rfl

/-- The planner at the example map: one cycle with owner `A` and stub `B`, and the
singleton `C`. -/
theorem plan_modules_example :
    (plan_modules example_graph).toOption.map Prod.snd =
      some [WriteCall.scc_owner_ixx "A" ["A", "B"] ["C"], WriteCall.reexport_ixx "B" "A",
        WriteCall.namespace_ixx "C" []] := by
  rfl

/-- Deleting the edges into namespaces that are no keys, at a map with one such edge. -/
theorem without_absent_edges_example :
    without_absent_edges [("A", ["B", "Z"]), ("B", ["A"])] = [("A", ["B"]), ("B", ["A"])] := by
  decide

/-- Witness of C13 for the cycle `A → B → C → A`. -/
theorem single_cycle_plan_witness :
    (["A", "B", "C"] : List String).Nodup ∧ 2 ≤ (["A", "B", "C"] : List String).length ∧
    (∀ k, k ∈ keys [("A", ["B"]), ("B", ["C"]), ("C", ["A"])] ↔ k ∈ ["A", "B", "C"]) ∧
    (∀ p ∈ (["A", "B", "C"] : List String).zip ((["A", "B", "C"] : List String).rotate 1),
      List.lookup p.1 [("A", ["B"]), ("B", ["C"]), ("C", ["A"])] = some [p.2]) ∧
    ∃ c t owner others,
      compute_strongly_connected_components [("A", ["B"]), ("B", ["C"]), ("C", ["A"])] =
        .ok [c] ∧ c.Perm ["A", "B", "C"] ∧
      sort_strings ["A", "B", "C"] = owner :: others ∧ (∀ m ∈ ["A", "B", "C"], owner ≤ m) ∧
      (owner :: others).Pairwise (fun a b => a < b) ∧
      t.members_by_owner = [(owner, owner :: others)] ∧
      plan_modules [("A", ["B"]), ("B", ["C"]), ("C", ["A"])] = .ok (t,
        WriteCall.scc_owner_ixx owner (owner :: others) [] ::
          others.map (fun ns => WriteCall.reexport_ixx ns owner)) :=
  ⟨by decide, by decide, fun _ => Iff.rfl, by decide,
    single_cycle_plan [("A", ["B"]), ("B", ["C"]), ("C", ["A"])] ["A", "B", "C"]
      (by decide) (by decide) (fun _ => Iff.rfl) (by decide)⟩

/-- A document whose root element is `settings` is accepted when some other element in it
is named `configuration`: the reader sets `saw_configuration` at any depth. -/
theorem nested_configuration_accepted :
    root_element nested_configuration_document = some "settings" ∧
    read_config_file (some nested_configuration_document) [] [] = .ok ([], []) :=
  ⟨by decide, rfl⟩

/-- Witness of C19 (amended) at a document that consists of an empty root element
`settings`. -/
theorem missing_configuration_reported_witness :
    run { usage := false, modules := true, base := false, reference := [], component := false,
          config := ConfigOption.file
            (some [XmlNode.element "settings" false, XmlNode.end_element "settings"]) }
        "usage" false "" (fun b : Bool => b) (fun _ => true) [("A", true)]
        (fun _ _ => ([] : List (String × Unit))) =
      .ok { result := 1,
            console := "cppwinrt : error Malformed CppWinRT.config file: missing <configuration> root element\n",
            writes := [] } :=
  (missing_configuration_reported
    [XmlNode.element "settings" false, XmlNode.end_element "settings"]
    (by
      intro name is_empty h
      simp only [List.mem_cons, XmlNode.element.injEq, List.mem_singleton, reduceCtorEq,
        or_false, List.not_mem_nil] at h
      rw [h.1]
      decide)
    (by
      intro value h
      simp at h)
    _ rfl rfl "usage" false "" (fun b : Bool => b) (fun _ => true) [("A", true)]
    (fun _ _ => ([] : List (String × Unit)))).2.2

/-- Witness of C17 (amended) at a cache of two namespaces, run without `-base` and
without reference metadata. -/
theorem aggregate_ixx_when_base_witness :
    ∃ writes body,
      emit_files
        (force_base { modules := false, base := false, reference := [],
                      component := false, include_prefixes := [], exclude_prefixes := [] })
        false "" (fun b : Bool => b) (fun _ => true) [("A", true), ("B", false), ("C", true)]
        (fun _ _ => ([] : List (String × Unit))) = .ok writes ∧
      (∀ call, FileWrite.module_unit call ∉ writes) ∧
      writes.filter FileWrite.is_winrt_ixx =
        [FileWrite.winrt_ixx (String.mk (ixx_head "" ++ body))] ∧
      lines_of body =
        ["#include \"winrt/A.h\"".data, "#include \"winrt/C.h\"".data, []] :=
  let ⟨writes, body, h1, h2, h3, h4, _⟩ :=
    aggregate_ixx_when_base false false false [] [] [] "" (fun b : Bool => b) (fun _ => true)
      [("A", true), ("B", false), ("C", true)] (fun _ _ => ([] : List (String × Unit)))
      (by
        simp only [List.map_cons, List.map_nil, List.pairwise_cons, List.mem_cons,
          List.mem_singleton, forall_eq_or_imp, forall_eq, List.not_mem_nil, false_implies,
          implies_true, List.Pairwise.nil, and_true]
        exact ⟨⟨(str_lt_iff "A" "B").1 (by decide), (str_lt_iff "A" "C").1 (by decide)⟩,
          (str_lt_iff "B" "C").1 (by decide)⟩)
      (by decide)
  ⟨writes, body, h1, h2, h3, h4⟩

/-- Witness of C14 (amended) at the owner `A` of the members `A`, `B` importing `C`. -/
theorem scc_owner_ixx_text_witness :
    directive_lines (scc_owner_head "A" ["C"]) =
      ["export module A;".data, "import std;".data, "export import winrt.base;".data,
       "import C;".data, "#pragma push_macro(\"WINRT_EXPORT\")".data,
       "#undef WINRT_EXPORT".data, "#define WINRT_EXPORT export".data] ∧
    include_lines (scc_owner_tail ["A", "B"]) =
      ["#include \"winrt/impl/A.0.h\"".data, "#include \"winrt/impl/B.0.h\"".data,
       "#include \"winrt/impl/A.1.h\"".data, "#include \"winrt/impl/B.1.h\"".data,
       "#include \"winrt/impl/A.2.h\"".data, "#include \"winrt/impl/B.2.h\"".data,
       "#include \"winrt/A.h\"".data, "#include \"winrt/B.h\"".data] :=
  let h := scc_owner_ixx_text "" (fun b : Bool => b) [("A", true), ("B", true)]
    (fun _ _ => []) "A" ["A", "B"] ["C"] (by decide) (by decide) (by decide)
  ⟨h.2.1, h.2.2.2.2⟩

/-- Witness of C15 at the namespace `A` importing `B`. -/
theorem namespace_ixx_text_witness :
    ∃ body, write_namespace_ixx "" "A" ["B"] = "" ++ body ∧
      directive_lines body.data =
        ["module;".data, "#define WINRT_MODULE".data, "#include <intrin.h>".data,
         "#include <cstddef>".data, "#include <version>".data, "#ifdef _DEBUG".data,
         "#include <crtdbg.h>".data, "#endif".data, "#include \"winrt/module.h\"".data,
         "export module A;".data, "import std;".data, "export import winrt.base;".data,
         "import B;".data, "#include \"winrt/impl/A.0.h\"".data,
         "#include \"winrt/impl/A.1.h\"".data, "#include \"winrt/impl/A.2.h\"".data,
         "#include \"winrt/A.h\"".data] :=
  namespace_ixx_text "" "A" ["B"] (by decide) (by decide)

/-- Witness of C23 at the values of the test case: 123 and 456 on a fresh object. -/
theorem test_Release_properties_witness :
    (test_Release.make.set_Release 123).Release = 123 ∧
    ((test_Release.make.set_Release 123).set_Loudness 456).Loudness = 456 ∧
    ((test_Release.make.set_Release 123).set_Loudness 456).Release = 123 :=
  let h := test_Release_properties test_Release.make 123 456 (by norm_num) (by norm_num)
  ⟨h.1, h.2.1, h.2.2.1⟩

/-- The hash of the one byte `0x61` on a 32-bit build. -/
theorem hash_data_example : hash_data false [0x61] = 0xE40C292C := by
  decide

/-- Witness of C29 at the ASCII buffer `" \tA B\r\n"`, whose result is `"A B"`. -/
theorem utf8_from_utf16_trims_witness :
    (∀ c ∈ [32, 9, 65, 32, 66, 13, 10].take 7, c ≤ 0x7F) ∧
    utf8_from_utf16 (some [32, 9, 65, 32, 66, 13, 10]) 7 = .ok [65, 32, 66] ∧
    ∃ result pre suf,
      utf8_from_utf16 (some [32, 9, 65, 32, 66, 13, 10]) 7 = .ok result ∧
      [32, 9, 65, 32, 66, 13, 10].take 7 = pre ++ result ++ suf ∧
      (∀ c ∈ pre, is_config_whitespace c = true) ∧
      (∀ c ∈ suf, is_config_whitespace c = true) ∧
      (∀ c, result.head? = some c → is_config_whitespace c = false) ∧
      (∀ c, result.getLast? = some c → is_config_whitespace c = false) ∧
      utf8_from_utf16 none 7 = .ok [] ∧
      utf8_from_utf16 (some [32, 9, 65, 32, 66, 13, 10]) 0 = .ok [] ∧
      ((∀ c ∈ [32, 9, 65, 32, 66, 13, 10].take 7, is_config_whitespace c = true) →
        result = []) ∧
      utf8_from_utf16 (some result) result.length = .ok result :=
  ⟨by decide, rfl, utf8_from_utf16_trims [32, 9, 65, 32, 66, 13, 10] 7 (by decide)⟩

/-- A run asked for its usage text returns 0 and prints it. -/
theorem run_usage_example :
    run { usage := true, modules := false, base := false, reference := [], component := false,
          config := ConfigOption.empty_value }
        "usage" false "" (fun b : Bool => b) (fun _ => true) [("A", true)]
        (fun _ _ => ([] : List (String × Unit))) =
      .ok { result := 0, console := "usage", writes := [] } := rfl

/-- A run given `-config` without a value returns 1 and reports the error on one line. -/
theorem run_error_example :
    run { usage := false, modules := false, base := false, reference := [], component := false,
          config := ConfigOption.empty_value }
        "usage" false "" (fun b : Bool => b) (fun _ => true) [("A", true)]
        (fun _ _ => ([] : List (String × Unit))) =
      .ok { result := 1, console := "cppwinrt : error Option 'config' requires exactly 1 value\n",
            writes := [] } := rfl

/-- In the map `A → B, A`, `B → ∅` nothing but `B` is reachable from `B`. -/
theorem acyclic_example_reach {b : String}
    (h : reach [("A", ["B", "A"]), ("B", [])] "B" b) : b = "B" := by
  rcases Relation.ReflTransGen.cases_head h with h1 | ⟨c, ⟨deps, hd, hc, -⟩, -⟩
  · exact h1.symm
  · have : deps = [] := by
      have h2 : List.lookup "B" [("A", ["B", "A"]), ("B", [])] = some [] := by decide
      rw [h2] at hd
      injection hd with hd
      exact hd.symm
    rw [this] at hc
    simp at hc

/-- Witness of C25 at the map `A → B, A`, `B → ∅`, which has a self-edge and no cycle
through two keys. -/
theorem acyclic_plan_witness :
    ∃ comps t calls,
      compute_strongly_connected_components [("A", ["B", "A"]), ("B", [])] = .ok comps ∧
      plan_modules [("A", ["B", "A"]), ("B", [])] = .ok (t, calls) ∧
      calls = [WriteCall.namespace_ixx "A" ["B", "A"], WriteCall.namespace_ixx "B" []] :=
  let ⟨comps, t, calls, h1, h2, _⟩ := acyclic_plan [("A", ["B", "A"]), ("B", [])] (by
    intro a ha b hb hab hba
    simp only [keys, List.map_cons, List.map_nil, List.mem_cons, List.mem_singleton,
      List.not_mem_nil, or_false] at ha hb
    rcases ha with rfl | rfl <;> rcases hb with rfl | rfl
    · rfl
    · exact acyclic_example_reach hba
    · exact (acyclic_example_reach hab).symm
    · rfl)
  ⟨comps, t, calls, h1, h2, by
    have h3 : plan_modules [("A", ["B", "A"]), ("B", [])] =
        .ok (_, [WriteCall.namespace_ixx "A" ["B", "A"], WriteCall.namespace_ixx "B" []]) := rfl
    rw [h3] at h2
    injection h2 with h2
    exact (congrArg Prod.snd h2).symm⟩

/-- The planner at a map with self-edges, duplicate edges and edges to namespaces that
are no keys. -/
theorem plan_modules_irregular_example :
    (plan_modules [("A", ["A", "B", "B", "X"]), ("B", ["A", "Y", "A"]), ("C", ["C", "A"])]).map
        Prod.snd =
      .ok [WriteCall.scc_owner_ixx "A" ["A", "B"] ["X", "Y"], WriteCall.reexport_ixx "B" "A",
           WriteCall.namespace_ixx "C" ["C", "A"]] := rfl

/-- The observed search at the example map: three calls, nested two deep. -/
theorem traced_run_example :
    (compute_strongly_connected_components_traced example_graph).map
        (fun r => (r.1.components, r.2.calls, r.2.depth, r.1.next_index)) =
      .ok ([["C"], ["B", "A"]], ["A", "B", "C"], 2, 3) := rfl

/-- Two maps over the keys `A`, `B`, `C` whose lists differ in order and multiplicity
only. -/
theorem reordered_example_deps :
    ∀ k deps1 deps2,
      List.lookup k [("A", ["B", "B", "C"]), ("B", ["A"]), ("C", [])] = some deps1 →
      List.lookup k [("A", ["C", "B"]), ("B", ["A", "A"]), ("C", [])] = some deps2 →
      ∀ x, x ∈ deps1 ↔ x ∈ deps2 := by
  intro k deps1 deps2 h1 h2 x
  have hm := mem_of_lookup h1
  simp only [List.mem_cons, Prod.mk.injEq, List.mem_singleton, List.not_mem_nil, or_false] at hm
  rcases hm with ⟨rfl, rfl⟩ | ⟨rfl, rfl⟩ | ⟨rfl, rfl⟩
  · have h3 : List.lookup "A" [("A", ["C", "B"]), ("B", ["A", "A"]), ("C", [])] =
        some ["C", "B"] := by decide
    rw [h3] at h2
    injection h2 with h2
    subst h2
    simp only [List.mem_cons, List.mem_singleton, List.not_mem_nil, or_false]
    tauto
  · have h3 : List.lookup "B" [("A", ["C", "B"]), ("B", ["A", "A"]), ("C", [])] =
        some ["A", "A"] := by decide
    rw [h3] at h2
    injection h2 with h2
    subst h2
    simp
  · have h3 : List.lookup "C" [("A", ["C", "B"]), ("B", ["A", "A"]), ("C", [])] =
        some [] := by decide
    rw [h3] at h2
    injection h2 with h2
    subst h2
    simp

/-- Witness of C26 at two such maps. -/
theorem planner_ignores_edge_order_witness :
    ∃ t1 calls1 t2 calls2,
      plan_modules [("A", ["B", "B", "C"]), ("B", ["A"]), ("C", [])] = .ok (t1, calls1) ∧
      plan_modules [("A", ["C", "B"]), ("B", ["A", "A"]), ("C", [])] = .ok (t2, calls2) ∧
      t1.members_by_owner = t2.members_by_owner ∧ t1.owner_of = t2.owner_of ∧
      (∀ o ms imports, WriteCall.scc_owner_ixx o ms imports ∈ calls1 ↔
        WriteCall.scc_owner_ixx o ms imports ∈ calls2) ∧
      (∀ ns o, WriteCall.reexport_ixx ns o ∈ calls1 ↔ WriteCall.reexport_ixx ns o ∈ calls2) :=
  planner_ignores_edge_order [("A", ["B", "B", "C"]), ("B", ["A"]), ("C", [])]
    [("A", ["C", "B"]), ("B", ["A", "A"]), ("C", [])] rfl reordered_example_deps

/-- The writer calls for the two maps, evaluated. -/
theorem reordered_plans_example :
    (plan_modules [("A", ["B", "B", "C"]), ("B", ["A"]), ("C", [])]).map Prod.snd =
      .ok [WriteCall.scc_owner_ixx "A" ["A", "B"] ["C"], WriteCall.reexport_ixx "B" "A",
           WriteCall.namespace_ixx "C" []] ∧
    (plan_modules [("A", ["C", "B"]), ("B", ["A", "A"]), ("C", [])]).map Prod.snd =
      .ok [WriteCall.scc_owner_ixx "A" ["A", "B"] ["C"], WriteCall.reexport_ixx "B" "A",
           WriteCall.namespace_ixx "C" []] :=
  ⟨rfl, rfl⟩

/-- A run given a `-license` template that cannot be read, and no `-config`, returns 1
and reports the error on one line. -/
theorem run_license_error_example :
    run { usage := false, modules := true, base := false, reference := [], component := false,
          config := ConfigOption.absent,
          license := LicenseOption.template "/nonexistent" none }
        "usage" false "" (fun b : Bool => b) (fun _ => true) [("A", true)]
        (fun _ _ => ([] : List (String × Unit))) =
      .ok { result := 1,
            console := "cppwinrt : error Cannot read license template file '/nonexistent'\n",
            writes := [] } := rfl

/-- The license text made from a template of two lines, the second one blank. -/
theorem license_template_example :
    license_template (LicenseOption.template "/t" (some ["Copyright", ""])) =
      .ok "// Copyright\n//\n" := rfl

/-- The dependency map at a cache of three namespaces of which `C` has no projected
types: `A` refers to itself and to `B` in phase 0 and to `B` and `C` in phase 2. -/
theorem emission_loop_example :
    (emission_loop (fun b : Bool => b) (fun _ => true)
        [("A", true), ("B", true), ("C", false)]
        (fun ns p =>
          if ns = "A" ∧ p = 0 then [("A", ()), ("B", ())]
          else if ns = "A" ∧ p = 2 then [("B", ()), ("C", ())]
          else [])
        [("A", true), ("B", true), ("C", false)] ([], [])) =
      (["A", "B"], [("A", ["B"]), ("B", [])]) := by
  decide

end cppwinrt
